import Mathlib

/-!
Verification of the ecosystem-metadata automation scripts.

This file gives a shallow embedding, in Lean 4, of the core data
transformations of the repository:

* `content_hashing.py` (explorer-db-builder): `normalize_for_hashing` and
  `content_hash` (canonical JSON + SHA-256, truncated to 12 hex chars);
* `update_docs.py` (documentation-sync): `merge_inventories` and its helpers;
* `version.py` (collector-watcher): `Version.from_string`;
* `component_scanner.py` (collector-watcher): `scan_component_type`;
* `inventory_manager.py` (collector-watcher): versioned inventory storage
  over an explicit file-system state;
* `collector_sync.py` (collector-watcher): `backfill_versions`;
* `database_writer.py` (explorer-db-builder): `write_libraries`.

Python values are modelled by the inductive type `PyVal` (numbers are
modelled as arbitrary-precision integers, which is exact for `int`;
floats are out of scope).  Python dicts are association lists in
insertion order; all Python-reachable dicts have pairwise-distinct keys,
which appears as `Nodup` hypotheses on theorems.  File systems are
modelled as explicit sets of directory paths and file contents, with
YAML/JSON file round-tripping treated as the identity on the stored
structured value.
-/

/-- A Python value as handled by the scripts: `None`, `bool`, `int`,
`str`, `list`, `dict` (association list in insertion order, string keys
as produced by YAML/JSON parsing), or a non-JSON-serializable object
(`vobj`, carrying the type name that `normalize_for_hashing` reports). -/
inductive PyVal where
  | vnone
  | vbool (b : Bool)
  | vint (n : Int)
  | vstr (s : String)
  | vlist (xs : List PyVal)
  | vdict (xs : List (String × PyVal))
  | vobj (typeName : String)

/-- Python exceptions raised by the hashing helpers. -/
inductive PyErr where
  | typeError (msg : String)
  | valueError (msg : String)
deriving DecidableEq, Repr

mutual
/-- Boolean structural equality of `PyVal` (Python `==` on these values). -/
def pyBeq : PyVal → PyVal → Bool
  | .vnone, .vnone => true
  | .vbool a, .vbool b => a == b
  | .vint a, .vint b => a == b
  | .vstr a, .vstr b => a == b
  | .vobj a, .vobj b => a == b
  | .vlist xs, .vlist ys => pyBeqList xs ys
  | .vdict xs, .vdict ys => pyBeqPairs xs ys
  | _, _ => false
termination_by structural v => v

def pyBeqList : List PyVal → List PyVal → Bool
  | [], [] => true
  | x :: xs, y :: ys => pyBeq x y && pyBeqList xs ys
  | _, _ => false
termination_by structural l => l

def pyBeqPairs : List (String × PyVal) → List (String × PyVal) → Bool
  | [], [] => true
  | (k, v) :: xs, (k2, v2) :: ys => k == k2 && pyBeq v v2 && pyBeqPairs xs ys
  | _, _ => false
termination_by structural l => l
end

mutual
theorem pyBeq_refl : ∀ a : PyVal, pyBeq a a = true
  | .vnone => rfl
  | .vbool b => by simp [pyBeq]
  | .vint n => by simp [pyBeq]
  | .vstr s => by simp [pyBeq]
  | .vobj t => by simp [pyBeq]
  | .vlist xs => by simp [pyBeq, pyBeqList_refl xs]
  | .vdict xs => by simp [pyBeq, pyBeqPairs_refl xs]

theorem pyBeqList_refl : ∀ xs : List PyVal, pyBeqList xs xs = true
  | [] => rfl
  | x :: xs => by simp [pyBeqList, pyBeq_refl x, pyBeqList_refl xs]

theorem pyBeqPairs_refl : ∀ xs : List (String × PyVal), pyBeqPairs xs xs = true
  | [] => rfl
  | (k, v) :: xs => by simp [pyBeqPairs, pyBeq_refl v, pyBeqPairs_refl xs]
end

mutual
theorem pyBeq_eq : ∀ a b : PyVal, pyBeq a b = true → a = b
  | .vnone, .vnone, _ => rfl
  | .vbool a, .vbool b, h => by simpa [pyBeq] using h
  | .vint a, .vint b, h => by simpa [pyBeq] using h
  | .vstr a, .vstr b, h => by simpa [pyBeq] using h
  | .vobj a, .vobj b, h => by simpa [pyBeq] using h
  | .vlist xs, .vlist ys, h =>
      congrArg PyVal.vlist (pyBeqList_eq xs ys (by simpa [pyBeq] using h))
  | .vdict xs, .vdict ys, h =>
      congrArg PyVal.vdict (pyBeqPairs_eq xs ys (by simpa [pyBeq] using h))
  | .vnone, .vbool _, h | .vnone, .vint _, h | .vnone, .vstr _, h
  | .vnone, .vlist _, h | .vnone, .vdict _, h | .vnone, .vobj _, h => nomatch h
  | .vbool _, .vnone, h | .vbool _, .vint _, h | .vbool _, .vstr _, h
  | .vbool _, .vlist _, h | .vbool _, .vdict _, h | .vbool _, .vobj _, h => nomatch h
  | .vint _, .vnone, h | .vint _, .vbool _, h | .vint _, .vstr _, h
  | .vint _, .vlist _, h | .vint _, .vdict _, h | .vint _, .vobj _, h => nomatch h
  | .vstr _, .vnone, h | .vstr _, .vbool _, h | .vstr _, .vint _, h
  | .vstr _, .vlist _, h | .vstr _, .vdict _, h | .vstr _, .vobj _, h => nomatch h
  | .vlist _, .vnone, h | .vlist _, .vbool _, h | .vlist _, .vint _, h
  | .vlist _, .vstr _, h | .vlist _, .vdict _, h | .vlist _, .vobj _, h => nomatch h
  | .vdict _, .vnone, h | .vdict _, .vbool _, h | .vdict _, .vint _, h
  | .vdict _, .vstr _, h | .vdict _, .vlist _, h | .vdict _, .vobj _, h => nomatch h
  | .vobj _, .vnone, h | .vobj _, .vbool _, h | .vobj _, .vint _, h
  | .vobj _, .vstr _, h | .vobj _, .vlist _, h | .vobj _, .vdict _, h => nomatch h

theorem pyBeqList_eq : ∀ xs ys : List PyVal, pyBeqList xs ys = true → xs = ys
  | [], [], _ => rfl
  | x :: xs, y :: ys, h => by
      have h' : pyBeq x y = true ∧ pyBeqList xs ys = true := by
        simpa [pyBeqList, Bool.and_eq_true] using h
      rw [pyBeq_eq x y h'.1, pyBeqList_eq xs ys h'.2]
  | [], _ :: _, h => nomatch h
  | _ :: _, [], h => nomatch h

theorem pyBeqPairs_eq :
    ∀ xs ys : List (String × PyVal), pyBeqPairs xs ys = true → xs = ys
  | [], [], _ => rfl
  | (k, v) :: xs, (k2, v2) :: ys, h => by
      have h' : (k == k2) = true ∧ pyBeq v v2 = true ∧ pyBeqPairs xs ys = true := by
        simpa [pyBeqPairs, Bool.and_eq_true, and_assoc] using h
      have hk : k = k2 := by simpa using h'.1
      rw [hk, pyBeq_eq v v2 h'.2.1, pyBeqPairs_eq xs ys h'.2.2]
  | [], _ :: _, h => nomatch h
  | _ :: _, [], h => nomatch h
end

theorem pyBeq_iff (a b : PyVal) : pyBeq a b = true ↔ a = b :=
  ⟨pyBeq_eq a b, fun h => h ▸ pyBeq_refl a⟩

instance : DecidableEq PyVal := fun a b =>
  decidable_of_iff (pyBeq a b = true) (pyBeq_iff a b)

instance {e a : Type} [DecidableEq e] [DecidableEq a] : DecidableEq (Except e a)
  | .ok x, .ok y =>
      if h : x = y then isTrue (by rw [h]) else isFalse (by intro hh; injection hh; contradiction)
  | .error x, .error y =>
      if h : x = y then isTrue (by rw [h]) else isFalse (by intro hh; injection hh; contradiction)
  | .ok _, .error _ => isFalse (by intro hh; cases hh)
  | .error _, .ok _ => isFalse (by intro hh; cases hh)

/-- Python truthiness of a value (`bool(v)`): `None`, `False`, `0`, `""`,
`[]` and `{}` are falsy, everything else truthy. -/
def pyTruthy : PyVal → Bool
  | .vnone => false
  | .vbool b => b
  | .vint n => n != 0
  | .vstr s => s ≠ ""
  | .vlist xs => xs ≠ []
  | .vdict xs => xs ≠ []
  | .vobj _ => true

/-- Lookup in a Python dict modelled as an association list
(`d.get(k)` / `d[k]` for present keys; keys of Python dicts are unique,
so first-match semantics coincides with dict lookup). -/
def dictGet (xs : List (String × PyVal)) (k : String) : Option PyVal :=
  match xs.find? (fun p => p.1 == k) with
  | some p => some p.2
  | none => none

/-- Key-membership test for a modelled Python dict (`k in d`). -/
def dictHasKey (xs : List (String × PyVal)) (k : String) : Bool :=
  xs.any (fun p => p.1 == k)

/-- Python dict item assignment `d[k] = v`: replaces the value in place if
the key is present (keeping its position), otherwise appends the new pair
(insertion order). -/
def dictSet (xs : List (String × PyVal)) (k : String) (v : PyVal) :
    List (String × PyVal) :=
  match xs with
  | [] => [(k, v)]
  | (k1, v1) :: rest =>
      if k1 == k then (k1, v) :: rest else (k1, v1) :: dictSet rest k v

/-- Strict lexicographic comparison of code-point lists (how Python
compares strings). -/
def natListLtb : List Nat → List Nat → Bool
  | [], [] => false
  | [], _ :: _ => true
  | _ :: _, [] => false
  | a :: as, b :: bs => decide (a < b) || (a == b && natListLtb as bs)

/-- Python string `<`: lexicographic comparison by code point. -/
def strLtb (a b : String) : Bool :=
  natListLtb (a.data.map Char.toNat) (b.data.map Char.toNat)

/-- Python string `<=`. -/
def strLeb (a b : String) : Bool := !(strLtb b a)

/-- Stable sort of dict entries by key, modelling Python's
`sorted(d.keys())` iteration combined with lookups: since Python dict
keys are unique, sorting the (key, value) pairs by key is the same
transformation. -/
def sortPairsByKey (xs : List (String × PyVal)) : List (String × PyVal) :=
  xs.insertionSort (fun a b => strLeb a.1 b.1 = true)

/-- Alphabetical sort of a list of strings (Python `sorted`). -/
def sortStrings (xs : List String) : List String :=
  xs.insertionSort (fun a b => strLeb a b = true)

theorem natListLtb_iff_charlt : ∀ xs ys : List Char,
    natListLtb (xs.map Char.toNat) (ys.map Char.toNat) = true ↔ xs < ys := by
  intro xs
  induction xs with
  | nil =>
      intro ys
      cases ys with
      | nil => simp [natListLtb]
      | cons y ys => simp [natListLtb]; exact List.Lex.nil
  | cons x xs ih =>
      intro ys
      cases ys with
      | nil =>
          simp only [natListLtb, List.map_cons, List.map_nil]
          constructor
          · intro h; cases h
          · intro h; cases h
      | cons y ys =>
          simp only [List.map_cons, natListLtb, Bool.or_eq_true, Bool.and_eq_true,
            decide_eq_true_eq, beq_iff_eq]
          constructor
          · rintro (h | ⟨h1, h2⟩)
            · exact List.Lex.rel h
            · have hxy : x = y := Char.ext (UInt32.ext h1)
              subst hxy
              exact List.Lex.cons ((ih ys).mp h2)
          · intro h
            cases h with
            | cons h3 => exact Or.inr ⟨rfl, (ih ys).mpr h3⟩
            | rel hr => exact Or.inl hr

theorem strLtb_iff_lt (a b : String) : strLtb a b = true ↔ a < b := by
  rw [strLtb, natListLtb_iff_charlt]
  exact (String.lt_iff_toList_lt).symm

theorem strLeb_iff_le (a b : String) : strLeb a b = true ↔ a ≤ b := by
  rw [strLeb, Bool.not_eq_true']
  constructor
  · intro h
    by_contra hle
    rw [not_le] at hle
    rw [← strLtb_iff_lt] at hle
    rw [hle] at h
    cases h
  · intro h
    by_contra hne
    have : strLtb b a = true := by
      cases hv : strLtb b a
      · exact absurd hv hne
      · rfl
    exact absurd ((strLtb_iff_lt b a).mp this) (not_lt.mpr h)

/-!
## `content_hashing.py`: `normalize_for_hashing` and `content_hash`
-/

mutual
/-- `normalize_for_hashing(obj)`: scalars pass through; lists are
normalized element-wise; dicts are rebuilt with keys in sorted order and
normalized values; any other object raises `TypeError`.  The Python code
iterates `sorted(obj.keys())` and normalizes each looked-up value; since
Python dict keys are unique, this equals normalizing the values and
stably sorting the (key, value) pairs by key, which is how it is written
here (the recursion must happen on subterms). -/
def normalize_for_hashing : PyVal → Except PyErr PyVal
  | .vnone => .ok .vnone
  | .vbool b => .ok (.vbool b)
  | .vint n => .ok (.vint n)
  | .vstr s => .ok (.vstr s)
  | .vlist xs => do
      let ys ← normList xs
      return .vlist ys
  | .vdict xs => do
      let ys ← normPairs xs
      return .vdict (sortPairsByKey ys)
  | .vobj t => .error (.typeError ("Object of type " ++ t ++ " is not JSON serializable"))
termination_by structural v => v

def normList : List PyVal → Except PyErr (List PyVal)
  | [] => .ok []
  | x :: xs => do
      let y ← normalize_for_hashing x
      let ys ← normList xs
      return y :: ys
termination_by structural l => l

def normPairs : List (String × PyVal) → Except PyErr (List (String × PyVal))
  | [] => .ok []
  | (k, v) :: xs => do
      let w ← normalize_for_hashing v
      let ws ← normPairs xs
      return (k, w) :: ws
termination_by structural l => l
end

/-- Lower-case hexadecimal digit for a value `n < 16`. -/
def hexDigitChar (n : Nat) : Char :=
  if n < 10 then Char.ofNat (48 + n) else Char.ofNat (87 + n)

/-- Four lower-case hex digits of `n < 65536` (Python `'\u%04x'`). -/
def hex4 (n : Nat) : List Char :=
  [hexDigitChar (n / 4096 % 16), hexDigitChar (n / 256 % 16),
   hexDigitChar (n / 16 % 16), hexDigitChar (n % 16)]

/-- JSON `\uXXXX` escape of a code point, with a UTF-16 surrogate pair
for code points above `0xFFFF`, as Python's `json.dumps` emits with its
default `ensure_ascii=True`. -/
def uEscape (n : Nat) : List Char :=
  if n < 65536 then '\\' :: 'u' :: hex4 n
  else
    let m := n - 65536
    ('\\' :: 'u' :: hex4 (55296 + m / 1024)) ++ ('\\' :: 'u' :: hex4 (56320 + m % 1024))

/-- Escaping of one character inside a JSON string literal, following
Python `json.dumps` with `ensure_ascii=True`: printable ASCII other than
`"` and `\` is kept, the usual short escapes are used for `\b \t \n \f
\r`, and every other character becomes a `\uXXXX` escape. -/
def escapeChar (c : Char) : List Char :=
  if c = '"' then ['\\', '"']
  else if c = '\\' then ['\\', '\\']
  else if c.toNat = 8 then ['\\', 'b']
  else if c.toNat = 9 then ['\\', 't']
  else if c.toNat = 10 then ['\\', 'n']
  else if c.toNat = 12 then ['\\', 'f']
  else if c.toNat = 13 then ['\\', 'r']
  else if 32 ≤ c.toNat && c.toNat ≤ 126 then [c]
  else uEscape c.toNat

/-- JSON string literal for `s`, as a character list. -/
def quoteJson (s : String) : List Char :=
  '"' :: (s.data.map escapeChar).flatten ++ ['"']

/-- Comma-join of already-rendered items (`separators=(",", ":")`). -/
def joinComma (xs : List (List Char)) : List Char :=
  (List.intersperse [','] xs).flatten

mutual
/-- `json.dumps(v, separators=(",", ":"), sort_keys=True)` as a character
list.  Dict values are rendered first and the rendered pairs are then
stably sorted by key, which for the unique keys of Python dicts equals
sorting the keys first.  The `vobj` case is unreachable from
`content_hash` (normalization has already raised `TypeError`); it
renders as the empty list here. -/
def jsonDumps : PyVal → List Char
  | .vnone => ['n', 'u', 'l', 'l']
  | .vbool true => ['t', 'r', 'u', 'e']
  | .vbool false => ['f', 'a', 'l', 's', 'e']
  | .vint n => (toString n).data
  | .vstr s => quoteJson s
  | .vlist xs => '[' :: jsonDumpsList xs ++ [']']
  | .vdict xs =>
      '{' ::
        joinComma (((jsonDumpsPairs xs).insertionSort (fun a b => a.1 ≤ b.1)).map
          (fun p => quoteJson p.1 ++ ':' :: p.2)) ++ ['}']
  | .vobj _ => []
termination_by structural v => v

def jsonDumpsList : List PyVal → List Char
  | [] => []
  | [x] => jsonDumps x
  | x :: y :: xs => jsonDumps x ++ ',' :: jsonDumpsList (y :: xs)
termination_by structural l => l

def jsonDumpsPairs : List (String × PyVal) → List (String × List Char)
  | [] => []
  | (k, v) :: xs => (k, jsonDumps v) :: jsonDumpsPairs xs
termination_by structural l => l
end

/-- UTF-8 encoding of one character (`str.encode("utf-8")`). -/
def utf8Bytes (c : Char) : List Nat :=
  let n := c.toNat
  if n < 128 then [n]
  else if n < 2048 then [192 + n / 64, 128 + n % 64]
  else if n < 65536 then [224 + n / 4096, 128 + n / 64 % 64, 128 + n % 64]
  else [240 + n / 262144, 128 + n / 4096 % 64, 128 + n / 64 % 64, 128 + n % 64]

/-- UTF-8 encoding of a character list. -/
def utf8Encode (s : List Char) : List Nat :=
  (s.map utf8Bytes).flatten

/-! ### SHA-256 (as used via `hashlib.sha256`) -/

/-- Truncation to a 32-bit word. -/
def u32 (n : Nat) : Nat := n % 4294967296

/-- 32-bit modular addition. -/
def add32 (a b : Nat) : Nat := (a + b) % 4294967296

/-- 32-bit right rotation (argument already a 32-bit word). -/
def rotr32 (x n : Nat) : Nat :=
  ((x >>> n) ||| (x <<< (32 - n))) % 4294967296

/-- SHA-256 `Ch(x,y,z)`. -/
def chFn (x y z : Nat) : Nat := (x &&& y) ^^^ ((x ^^^ 4294967295) &&& z)

/-- SHA-256 `Maj(x,y,z)`. -/
def majFn (x y z : Nat) : Nat := (x &&& y) ^^^ (x &&& z) ^^^ (y &&& z)

/-- SHA-256 `Σ0`. -/
def bsig0 (x : Nat) : Nat := rotr32 x 2 ^^^ rotr32 x 13 ^^^ rotr32 x 22

/-- SHA-256 `Σ1`. -/
def bsig1 (x : Nat) : Nat := rotr32 x 6 ^^^ rotr32 x 11 ^^^ rotr32 x 25

/-- SHA-256 `σ0`. -/
def ssig0 (x : Nat) : Nat := rotr32 x 7 ^^^ rotr32 x 18 ^^^ (x >>> 3)

/-- SHA-256 `σ1`. -/
def ssig1 (x : Nat) : Nat := rotr32 x 17 ^^^ rotr32 x 19 ^^^ (x >>> 10)

/-- The 64 SHA-256 round constants. -/
def shaK : List Nat :=
  [1116352408, 1899447441, 3049323471, 3921009573, 961987163, 1508970993,
   2453635748, 2870763221, 3624381080, 310598401, 607225278, 1426881987,
   1925078388, 2162078206, 2614888103, 3248222580, 3835390401, 4022224774,
   264347078, 604807628, 770255983, 1249150122, 1555081692, 1996064986,
   2554220882, 2821834349, 2952996808, 3210313671, 3336571891, 3584528711,
   113926993, 338241895, 666307205, 773529912, 1294757372, 1396182291,
   1695183700, 1986661051, 2177026350, 2456956037, 2730485921, 2820302411,
   3259730800, 3345764771, 3516065817, 3600352804, 4094571909, 275423344,
   430227734, 506948616, 659060556, 883997877, 958139571, 1322822218,
   1537002063, 1747873779, 1955562222, 2024104815, 2227730452, 2361852424,
   2428436474, 2756734187, 3204031479, 3329325298]

/-- The SHA-256 initial hash value. -/
def shaH0 : List Nat :=
  [1779033703, 3144134277, 1013904242, 2773480762,
   1359893119, 2600822924, 528734635, 1541459225]

/-- Big-endian byte decomposition of `v` into `k` bytes. -/
def toBytesBE (k : Nat) (v : Nat) : List Nat :=
  (List.range k).map (fun i => v / 256 ^ (k - 1 - i) % 256)

/-- Big-endian 32-bit words from a byte list (length a multiple of 4). -/
def wordsOfBytes : List Nat → List Nat
  | b0 :: b1 :: b2 :: b3 :: rest =>
      (((b0 * 256 + b1) * 256 + b2) * 256 + b3) :: wordsOfBytes rest
  | _ => []

/-- Split a word list into `k` chunks of 16 words. -/
def blocksGo : Nat → List Nat → List (List Nat)
  | 0, _ => []
  | Nat.succ k, ws => ws.take 16 :: blocksGo k (ws.drop 16)

/-- Split a word list (length a multiple of 16) into 16-word blocks. -/
def blocksOf16 (ws : List Nat) : List (List Nat) :=
  blocksGo (ws.length / 16) ws

/-- Extend the 16-word message block by `k` further schedule words. -/
def scheduleGo : List Nat → Nat → List Nat
  | w, 0 => w
  | w, Nat.succ k =>
      let next :=
        add32 (add32 (ssig1 (w.getD (w.length - 2) 0)) (w.getD (w.length - 7) 0))
          (add32 (ssig0 (w.getD (w.length - 15) 0)) (w.getD (w.length - 16) 0))
      scheduleGo (w ++ [next]) k

/-- One SHA-256 round on the 8-word working state, given `(Wᵢ, Kᵢ)`. -/
def roundStep (st : List Nat) (wk : Nat × Nat) : List Nat :=
  match st with
  | [a, b, c, d, e, f, g, h] =>
      let t1 := add32 h (add32 (bsig1 e) (add32 (chFn e f g) (add32 wk.2 wk.1)))
      let t2 := add32 (bsig0 a) (majFn a b c)
      [add32 t1 t2, a, b, c, add32 d t1, e, f, g]
  | other => other

/-- SHA-256 compression of one 16-word block into the running hash. -/
def compressBlock (h : List Nat) (block : List Nat) : List Nat :=
  let w := scheduleGo block 48
  let st := (w.zip shaK).foldl roundStep h
  (h.zip st).map (fun p => add32 p.1 p.2)

/-- SHA-256 digest (32 bytes) of a byte message. -/
def sha256Bytes (msg : List Nat) : List Nat :=
  let padded :=
    msg ++ 128 :: List.replicate ((55 + 64 - msg.length % 64) % 64) 0 ++
      toBytesBE 8 (msg.length * 8)
  let hFinal := (blocksOf16 (wordsOfBytes padded)).foldl compressBlock shaH0
  (hFinal.map (toBytesBE 4)).flatten

/-- Lower-case hex rendering of a byte list (`hexdigest()`). -/
def hexOfBytes (bs : List Nat) : List Char :=
  (bs.map (fun b => [hexDigitChar (b / 16), hexDigitChar (b % 16)])).flatten

/-- `content_hash(data)`: `ValueError` on a `None` input, normalize,
serialize to minified key-sorted JSON, `ValueError` if the serialization
is empty, else the first 12 hex characters of the SHA-256 digest of the
UTF-8 encoded serialization. -/
def content_hash (data : PyVal) : Except PyErr String :=
  if data = PyVal.vnone then .error (.valueError "Cannot hash None value")
  else
    match normalize_for_hashing data with
    | .error e => .error e
    | .ok normalized =>
        let json_str := jsonDumps normalized
        if json_str = [] then .error (.valueError "Normalized data resulted in empty string")
        else .ok (String.mk ((hexOfBytes (sha256Bytes (utf8Encode json_str))).take 12))

example :
    String.mk (hexOfBytes (sha256Bytes (utf8Encode "abc".data))) =
      "ba7816bf8f01cfea414140de5dae2223b00361a396177a9cb410ff61f20015ad" := by decide

example :
    String.mk (hexOfBytes (sha256Bytes [])) =
      "e3b0c44298fc1c149afbf4c8996fb92427ae41e4649b934ca495991b7852b855" := by decide

/-!
## Equivalence up to map-key reordering, and well-formedness
-/

@[simp] theorem exceptBind_ok {ε α β : Type} (a : α) (f : α → Except ε β) :
    (Except.ok a >>= f) = f a := rfl

@[simp] theorem exceptBind_error {ε α β : Type} (e : ε) (f : α → Except ε β) :
    ((Except.error e : Except ε α) >>= f) = Except.error e := rfl

@[simp] theorem exceptMap_ok {ε α β : Type} (a : α) (f : α → β) :
    (f <$> (Except.ok a : Except ε α)) = Except.ok (f a) := rfl

@[simp] theorem exceptMap_error {ε α β : Type} (e : ε) (f : α → β) :
    (f <$> (Except.error e : Except ε α)) = (Except.error e : Except ε β) := rfl

@[simp] theorem exceptPure {ε α : Type} (a : α) :
    (pure a : Except ε α) = Except.ok a := rfl

/-- Duplicate-freedom of a key list. -/
def nodupStr : List String → Bool
  | [] => true
  | x :: xs => !(xs.contains x) && nodupStr xs

mutual
/-- A value is hash-well-formed when it is built only from `None`, bool,
int, str, list and dict (no foreign objects) and every dict has
pairwise-distinct keys — exactly the values Python can present to
`content_hash` as "JSON-like" data. -/
def wfHash : PyVal → Bool
  | .vnone => true
  | .vbool _ => true
  | .vint _ => true
  | .vstr _ => true
  | .vobj _ => false
  | .vlist xs => wfHashList xs
  | .vdict xs => nodupStr (xs.map Prod.fst) && wfHashPairs xs
termination_by structural v => v

def wfHashList : List PyVal → Bool
  | [] => true
  | x :: xs => wfHash x && wfHashList xs
termination_by structural l => l

def wfHashPairs : List (String × PyVal) → Bool
  | [] => true
  | (_, v) :: xs => wfHash v && wfHashPairs xs
termination_by structural l => l
end

mutual
/-- Deep equality of two values up to reordering of dict keys at any
nesting depth: scalars must be equal, lists must match element-wise in
order, and the entries of two dicts must match up to a permutation
(pairing equal keys with equivalent values). -/
def requiv : PyVal → PyVal → Prop
  | .vnone, .vnone => True
  | .vbool a, .vbool b => a = b
  | .vint a, .vint b => a = b
  | .vstr a, .vstr b => a = b
  | .vobj a, .vobj b => a = b
  | .vlist xs, .vlist ys => requivList xs ys
  | .vdict xs, .vdict ys => ∃ zs, requivPairs xs zs ∧ zs.Perm ys
  | _, _ => False
termination_by structural v => v

def requivList : List PyVal → List PyVal → Prop
  | [], [] => True
  | x :: xs, y :: ys => requiv x y ∧ requivList xs ys
  | _, _ => False
termination_by structural l => l

def requivPairs : List (String × PyVal) → List (String × PyVal) → Prop
  | [], [] => True
  | (k, v) :: xs, (k2, v2) :: ys => k = k2 ∧ requiv v v2 ∧ requivPairs xs ys
  | _, _ => False
termination_by structural l => l
end

theorem nodupStr_iff : ∀ l : List String, nodupStr l = true ↔ l.Nodup := by
  intro l
  induction l with
  | nil => simp [nodupStr]
  | cons x xs ih => simp [nodupStr, List.nodup_cons, ih, List.elem_iff]

theorem wfHashList_iff (xs : List PyVal) :
    wfHashList xs = true ↔ ∀ x ∈ xs, wfHash x = true := by
  induction xs with
  | nil => simp [wfHashList]
  | cons x xs ih => simp [wfHashList, ih]

theorem wfHashPairs_iff (xs : List (String × PyVal)) :
    wfHashPairs xs = true ↔ ∀ p ∈ xs, wfHash p.2 = true := by
  induction xs with
  | nil => simp [wfHashPairs]
  | cons p xs ih => obtain ⟨k, v⟩ := p; simp [wfHashPairs, ih]

theorem wfHashPairs_of_perm {xs ys : List (String × PyVal)}
    (h : xs.Perm ys) (hy : wfHashPairs ys = true) : wfHashPairs xs = true := by
  rw [wfHashPairs_iff] at hy ⊢
  exact fun p hp => hy p (h.mem_iff.mp hp)

/-! Success and key-preservation of normalization. -/

theorem normPairs_keys :
    ∀ (xs : List (String × PyVal)) (l : List (String × PyVal)),
      normPairs xs = .ok l → l.map Prod.fst = xs.map Prod.fst := by
  intro xs
  induction xs with
  | nil => intro l h; simp [normPairs] at h; simp [← h]
  | cons p xs ih =>
      obtain ⟨k, v⟩ := p
      intro l h
      cases hv : normalize_for_hashing v with
      | error e => simp [normPairs, hv] at h
      | ok w =>
          cases hxs : normPairs xs with
          | error e => simp [normPairs, hv, hxs] at h
          | ok ws =>
              simp [normPairs, hv, hxs] at h
              subst h
              simp [ih ws hxs]

mutual
theorem normalize_ok : ∀ v : PyVal, wfHash v = true →
    ∃ w, normalize_for_hashing v = .ok w
  | .vnone, _ => ⟨_, rfl⟩
  | .vbool b, _ => ⟨_, rfl⟩
  | .vint n, _ => ⟨_, rfl⟩
  | .vstr s, _ => ⟨_, rfl⟩
  | .vobj t, h => by simp [wfHash] at h
  | .vlist xs, h => by
      obtain ⟨l, hl⟩ := normList_ok xs (by simpa [wfHash] using h)
      exact ⟨.vlist l, by simp [normalize_for_hashing, hl]⟩
  | .vdict xs, h => by
      obtain ⟨l, hl⟩ := normPairs_ok xs (by
        have := h; simp [wfHash, Bool.and_eq_true] at this; exact this.2)
      exact ⟨.vdict (sortPairsByKey l), by simp [normalize_for_hashing, hl]⟩

theorem normList_ok : ∀ xs : List PyVal, wfHashList xs = true →
    ∃ l, normList xs = .ok l
  | [], _ => ⟨[], rfl⟩
  | x :: xs, h => by
      have h' : wfHash x = true ∧ wfHashList xs = true := by
        simpa [wfHashList, Bool.and_eq_true] using h
      obtain ⟨w, hw⟩ := normalize_ok x h'.1
      obtain ⟨l, hl⟩ := normList_ok xs h'.2
      exact ⟨w :: l, by simp [normList, hw, hl]⟩

theorem normPairs_ok : ∀ xs : List (String × PyVal), wfHashPairs xs = true →
    ∃ l, normPairs xs = .ok l
  | [], _ => ⟨[], rfl⟩
  | (k, v) :: xs, h => by
      have h' : wfHash v = true ∧ wfHashPairs xs = true := by
        simpa [wfHashPairs, Bool.and_eq_true] using h
      obtain ⟨w, hw⟩ := normalize_ok v h'.1
      obtain ⟨l, hl⟩ := normPairs_ok xs h'.2
      exact ⟨(k, w) :: l, by simp [normPairs, hw, hl]⟩
end

/-- Pointwise success of `normPairs` characterized entry by entry. -/
theorem normPairs_ok_iff (xs : List (String × PyVal)) :
    (∃ l, normPairs xs = .ok l) ↔
      ∀ p ∈ xs, ∃ w, normalize_for_hashing p.2 = .ok w := by
  induction xs with
  | nil => simp [normPairs]
  | cons p xs ih =>
      obtain ⟨k, v⟩ := p
      constructor
      · rintro ⟨l, hl⟩
        cases hv : normalize_for_hashing v with
        | error e => simp [normPairs, hv] at hl
        | ok w =>
            cases hxs : normPairs xs with
            | error e => simp [normPairs, hv, hxs] at hl
            | ok ws =>
                intro q hq
                rcases List.mem_cons.mp hq with hq | hq
                · exact hq ▸ ⟨w, hv⟩
                · exact ih.mp ⟨ws, hxs⟩ q hq
      · intro h
        obtain ⟨w, hw⟩ := h (k, v) (List.mem_cons_self _ _)
        obtain ⟨ws, hws⟩ := ih.mpr (fun q hq => h q (List.mem_cons_of_mem _ hq))
        exact ⟨(k, w) :: ws, by simp [normPairs, hw, hws]⟩

/-- Normalizing a permuted entry list produces a permuted result. -/
theorem normPairs_perm :
    ∀ {xs ys : List (String × PyVal)}, xs.Perm ys →
      ∀ {lx ly}, normPairs xs = .ok lx → normPairs ys = .ok ly → lx.Perm ly := by
  intro xs ys hperm
  induction hperm with
  | nil =>
      intro lx ly hx hy
      simp [normPairs] at hx hy
      subst hx; subst hy
      exact List.Perm.refl _
  | cons p hp ih =>
      rename_i l₁ l₂
      obtain ⟨k, v⟩ := p
      intro lx ly hx hy
      cases hv : normalize_for_hashing v with
      | error e => simp [normPairs, hv] at hx
      | ok w =>
          cases h1 : normPairs l₁ with
          | error e1 => simp [normPairs, hv, h1] at hx
          | ok t1 =>
              cases h2 : normPairs l₂ with
              | error e2 => simp [normPairs, hv, h2] at hy
              | ok t2 =>
                  simp [normPairs, hv, h1, h2] at hx hy
                  subst hx; subst hy
                  exact (ih h1 h2).cons _
  | swap p q l =>
      obtain ⟨kp, vp⟩ := p
      obtain ⟨kq, vq⟩ := q
      intro lx ly hx hy
      cases hp : normalize_for_hashing vp with
      | error e => simp [normPairs, hp] at hy
      | ok wp =>
          cases hq : normalize_for_hashing vq with
          | error e => simp [normPairs, hp, hq] at hy
          | ok wq =>
              cases hl : normPairs l with
              | error e => simp [normPairs, hp, hq, hl] at hy
              | ok wl =>
                  simp [normPairs, hp, hq, hl] at hx hy
                  subst hx; subst hy
                  exact List.Perm.swap _ _ _
  | trans h12 h23 ih12 ih23 =>
      rename_i la lb lc
      intro lx ly hx hy
      have hmid : ∃ lm, normPairs lb = .ok lm := by
        rw [normPairs_ok_iff]
        intro p hp
        exact (normPairs_ok_iff _).mp ⟨lx, hx⟩ p (h12.mem_iff.mpr hp)
      obtain ⟨lm, hm⟩ := hmid
      exact (ih12 hx hm).trans (ih23 hm hy)

/-! Sorting entry lists by key: a permutation with duplicate-free keys
has a unique key-sorted arrangement. -/

theorem strLeb_total (a b : String) : strLeb a b = true ∨ strLeb b a = true := by
  rcases le_total a b with h | h
  · exact Or.inl ((strLeb_iff_le a b).mpr h)
  · exact Or.inr ((strLeb_iff_le b a).mpr h)

theorem strLeb_trans {a b c : String} (h1 : strLeb a b = true)
    (h2 : strLeb b c = true) : strLeb a c = true :=
  (strLeb_iff_le a c).mpr (le_trans ((strLeb_iff_le a b).mp h1) ((strLeb_iff_le b c).mp h2))

theorem strLeb_antisymm {a b : String} (h1 : strLeb a b = true)
    (h2 : strLeb b a = true) : a = b :=
  le_antisymm ((strLeb_iff_le a b).mp h1) ((strLeb_iff_le b a).mp h2)

theorem sortPairsByKey_sorted (l : List (String × PyVal)) :
    List.Sorted (fun a b : String × PyVal => strLeb a.1 b.1 = true) (sortPairsByKey l) := by
  haveI : IsTotal (String × PyVal) (fun a b => strLeb a.1 b.1 = true) :=
    ⟨fun a b => strLeb_total a.1 b.1⟩
  haveI : IsTrans (String × PyVal) (fun a b => strLeb a.1 b.1 = true) :=
    ⟨fun a b c h1 h2 => strLeb_trans h1 h2⟩
  exact List.sorted_insertionSort _ l

theorem sortPairsByKey_perm (l : List (String × PyVal)) :
    (sortPairsByKey l).Perm l :=
  List.perm_insertionSort _ l

theorem sorted_lt_of_sorted_le_nodup {l : List (String × PyVal)}
    (hs : List.Sorted (fun a b : String × PyVal => strLeb a.1 b.1 = true) l)
    (hnd : (l.map Prod.fst).Nodup) :
    List.Sorted (fun a b : String × PyVal => strLeb a.1 b.1 = true ∧ a.1 ≠ b.1) l := by
  have hne : List.Pairwise (fun a b : String × PyVal => a.1 ≠ b.1) l :=
    (List.pairwise_map).mp hnd
  exact hs.and hne

theorem sortPairsByKey_eq_of_perm {lx ly : List (String × PyVal)}
    (h : lx.Perm ly) (hnd : (lx.map Prod.fst).Nodup) :
    sortPairsByKey lx = sortPairsByKey ly := by
  haveI : IsAntisymm (String × PyVal) (fun a b => strLeb a.1 b.1 = true ∧ a.1 ≠ b.1) :=
    ⟨fun a b h1 h2 => absurd (strLeb_antisymm h1.1 h2.1) h1.2⟩
  have hperm : (sortPairsByKey lx).Perm (sortPairsByKey ly) :=
    (sortPairsByKey_perm lx).trans (h.trans (sortPairsByKey_perm ly).symm)
  have hndx : ((sortPairsByKey lx).map Prod.fst).Nodup :=
    (((sortPairsByKey_perm lx).map Prod.fst).nodup_iff).mpr hnd
  have hndy : ((sortPairsByKey ly).map Prod.fst).Nodup :=
    ((((sortPairsByKey_perm ly).map Prod.fst).trans (h.symm.map Prod.fst)).nodup_iff).mpr hnd
  exact List.eq_of_perm_of_sorted hperm
    (sorted_lt_of_sorted_le_nodup (sortPairsByKey_sorted lx) hndx)
    (sorted_lt_of_sorted_le_nodup (sortPairsByKey_sorted ly) hndy)

/-! Key-reordering invariance of normalization. -/

mutual
theorem normalize_requiv : ∀ v1 v2 : PyVal, wfHash v1 = true → wfHash v2 = true →
    requiv v1 v2 → normalize_for_hashing v1 = normalize_for_hashing v2
  | .vnone, .vnone, _, _, _ => rfl
  | .vbool a, .vbool b, _, _, h => by
      have : a = b := by simpa [requiv] using h
      rw [this]
  | .vint a, .vint b, _, _, h => by
      have : a = b := by simpa [requiv] using h
      rw [this]
  | .vstr a, .vstr b, _, _, h => by
      have : a = b := by simpa [requiv] using h
      rw [this]
  | .vobj a, .vobj b, _, _, h => by
      have : a = b := by simpa [requiv] using h
      rw [this]
  | .vlist xs, .vlist ys, h1, h2, h => by
      have e := normList_requiv xs ys (by simpa [wfHash] using h1)
        (by simpa [wfHash] using h2) (by simpa [requiv] using h)
      simp [normalize_for_hashing, e]
  | .vdict xs, .vdict ys, h1, h2, h => by
      have hx : nodupStr (xs.map Prod.fst) = true ∧ wfHashPairs xs = true := by
        simpa [wfHash, Bool.and_eq_true] using h1
      have hy : nodupStr (ys.map Prod.fst) = true ∧ wfHashPairs ys = true := by
        simpa [wfHash, Bool.and_eq_true] using h2
      obtain ⟨zs, hrel, hperm⟩ : ∃ zs, requivPairs xs zs ∧ zs.Perm ys := by
        simpa [requiv] using h
      have hwz : wfHashPairs zs = true := wfHashPairs_of_perm hperm hy.2
      have heq : normPairs xs = normPairs zs := normPairs_requiv xs zs hx.2 hwz hrel
      obtain ⟨lx, hlx⟩ := normPairs_ok xs hx.2
      obtain ⟨ly, hly⟩ := normPairs_ok ys hy.2
      have hlz : normPairs zs = .ok lx := heq ▸ hlx
      have hpl : lx.Perm ly := normPairs_perm hperm hlz hly
      have hkeys : lx.map Prod.fst = xs.map Prod.fst := normPairs_keys xs lx hlx
      have hndlx : (lx.map Prod.fst).Nodup := by
        rw [hkeys]; exact (nodupStr_iff _).mp hx.1
      have hsort : sortPairsByKey lx = sortPairsByKey ly :=
        sortPairsByKey_eq_of_perm hpl hndlx
      simp [normalize_for_hashing, hlx, hly, hsort]
  | .vnone, .vbool _, _, _, h | .vnone, .vint _, _, _, h | .vnone, .vstr _, _, _, h
  | .vnone, .vlist _, _, _, h | .vnone, .vdict _, _, _, h | .vnone, .vobj _, _, _, h => nomatch h
  | .vbool _, .vnone, _, _, h | .vbool _, .vint _, _, _, h | .vbool _, .vstr _, _, _, h
  | .vbool _, .vlist _, _, _, h | .vbool _, .vdict _, _, _, h | .vbool _, .vobj _, _, _, h => nomatch h
  | .vint _, .vnone, _, _, h | .vint _, .vbool _, _, _, h | .vint _, .vstr _, _, _, h
  | .vint _, .vlist _, _, _, h | .vint _, .vdict _, _, _, h | .vint _, .vobj _, _, _, h => nomatch h
  | .vstr _, .vnone, _, _, h | .vstr _, .vbool _, _, _, h | .vstr _, .vint _, _, _, h
  | .vstr _, .vlist _, _, _, h | .vstr _, .vdict _, _, _, h | .vstr _, .vobj _, _, _, h => nomatch h
  | .vlist _, .vnone, _, _, h | .vlist _, .vbool _, _, _, h | .vlist _, .vint _, _, _, h
  | .vlist _, .vstr _, _, _, h | .vlist _, .vdict _, _, _, h | .vlist _, .vobj _, _, _, h => nomatch h
  | .vdict _, .vnone, _, _, h | .vdict _, .vbool _, _, _, h | .vdict _, .vint _, _, _, h
  | .vdict _, .vstr _, _, _, h | .vdict _, .vlist _, _, _, h | .vdict _, .vobj _, _, _, h => nomatch h
  | .vobj _, .vnone, _, _, h | .vobj _, .vbool _, _, _, h | .vobj _, .vint _, _, _, h
  | .vobj _, .vstr _, _, _, h | .vobj _, .vlist _, _, _, h | .vobj _, .vdict _, _, _, h => nomatch h
termination_by structural v1 _ => v1

theorem normList_requiv : ∀ xs ys : List PyVal, wfHashList xs = true →
    wfHashList ys = true → requivList xs ys → normList xs = normList ys
  | [], [], _, _, _ => rfl
  | x :: xs, y :: ys, h1, h2, h => by
      have h1' : wfHash x = true ∧ wfHashList xs = true := by
        simpa [wfHashList, Bool.and_eq_true] using h1
      have h2' : wfHash y = true ∧ wfHashList ys = true := by
        simpa [wfHashList, Bool.and_eq_true] using h2
      have h' : requiv x y ∧ requivList xs ys := by simpa [requivList] using h
      have e1 := normalize_requiv x y h1'.1 h2'.1 h'.1
      have e2 := normList_requiv xs ys h1'.2 h2'.2 h'.2
      simp [normList, e1, e2]
  | [], _ :: _, _, _, h => nomatch h
  | _ :: _, [], _, _, h => nomatch h
termination_by structural l _ => l

theorem normPairs_requiv : ∀ xs zs : List (String × PyVal), wfHashPairs xs = true →
    wfHashPairs zs = true → requivPairs xs zs → normPairs xs = normPairs zs
  | [], [], _, _, _ => rfl
  | (k, v) :: xs, (k2, v2) :: zs, h1, h2, h => by
      have h1' : wfHash v = true ∧ wfHashPairs xs = true := by
        simpa [wfHashPairs, Bool.and_eq_true] using h1
      have h2' : wfHash v2 = true ∧ wfHashPairs zs = true := by
        simpa [wfHashPairs, Bool.and_eq_true] using h2
      have h' : k = k2 ∧ requiv v v2 ∧ requivPairs xs zs := by
        simpa [requivPairs] using h
      have e1 := normalize_requiv v v2 h1'.1 h2'.1 h'.2.1
      have e2 := normPairs_requiv xs zs h1'.2 h2'.2 h'.2.2
      simp [normPairs, e1, e2, h'.1]
  | [], _ :: _, _, _, h => nomatch h
  | _ :: _, [], _, _, h => nomatch h
termination_by structural l _ => l
end

theorem requiv_vnone_right : ∀ v : PyVal, requiv PyVal.vnone v → v = PyVal.vnone := by
  intro v h
  cases v <;> first | rfl | simp [requiv] at h

theorem requiv_vnone_left : ∀ v : PyVal, requiv v PyVal.vnone → v = PyVal.vnone := by
  intro v h
  cases v <;> first | rfl | simp [requiv] at h

/-- Hash invariance under key reordering. -/
theorem content_hash_requiv (v1 v2 : PyVal) (h1 : wfHash v1 = true)
    (h2 : wfHash v2 = true) (h : requiv v1 v2) :
    content_hash v1 = content_hash v2 := by
  by_cases hv : v1 = PyVal.vnone
  · subst hv
    rw [requiv_vnone_right v2 h]
  · have hv2 : v2 ≠ PyVal.vnone := by
      intro he
      subst he
      exact hv (requiv_vnone_left v1 h)
    simp [content_hash, hv, hv2, normalize_requiv v1 v2 h1 h2 h]

/-! Shape and length facts about the digest. -/

theorem roundStep_length (st : List Nat) (wk : Nat × Nat) :
    (roundStep st wk).length = st.length := by
  unfold roundStep
  split <;> simp

theorem foldl_roundStep_length :
    ∀ (ws : List (Nat × Nat)) (st : List Nat),
      (ws.foldl roundStep st).length = st.length := by
  intro ws
  induction ws with
  | nil => intro st; rfl
  | cons w ws ih => intro st; rw [List.foldl_cons, ih, roundStep_length]

theorem compressBlock_length (h : List Nat) (b : List Nat) :
    (compressBlock h b).length = h.length := by
  simp [compressBlock, foldl_roundStep_length]

theorem foldl_compressBlock_length :
    ∀ (bs : List (List Nat)) (h : List Nat),
      (bs.foldl compressBlock h).length = h.length := by
  intro bs
  induction bs with
  | nil => intro h; rfl
  | cons b bs ih => intro h; rw [List.foldl_cons, ih, compressBlock_length]

theorem toBytesBE_length (k v : Nat) : (toBytesBE k v).length = k := by
  simp [toBytesBE]

theorem flatten_map_toBytesBE_length :
    ∀ l : List Nat, ((l.map (toBytesBE 4)).flatten).length = 4 * l.length := by
  intro l
  induction l with
  | nil => rfl
  | cons x l ih => simp [ih, toBytesBE_length]; ring

theorem sha256Bytes_length (msg : List Nat) : (sha256Bytes msg).length = 32 := by
  unfold sha256Bytes
  rw [flatten_map_toBytesBE_length, foldl_compressBlock_length]
  rfl

theorem hexOfBytes_length :
    ∀ bs : List Nat, (hexOfBytes bs).length = 2 * bs.length := by
  intro bs
  induction bs with
  | nil => rfl
  | cons b bs ih => simp [hexOfBytes] at ih ⊢; omega

theorem toBytesBE_mem_lt {k v x : Nat} (h : x ∈ toBytesBE k v) : x < 256 := by
  simp [toBytesBE] at h
  obtain ⟨i, _, hi⟩ := h
  omega

theorem sha256Bytes_mem_lt {msg : List Nat} {b : Nat}
    (h : b ∈ sha256Bytes msg) : b < 256 := by
  unfold sha256Bytes at h
  rw [List.mem_flatten] at h
  obtain ⟨chunk, hc, hb⟩ := h
  rw [List.mem_map] at hc
  obtain ⟨w, _, hw⟩ := hc
  exact toBytesBE_mem_lt (hw ▸ hb)

/-- The lower-case hexadecimal alphabet. -/
def hexAlphabet : List Char := "0123456789abcdef".data

theorem hexDigitChar_mem : ∀ m : Nat, m < 16 → hexDigitChar m ∈ hexAlphabet := by
  decide

theorem hexOfBytes_mem {bs : List Nat} {c : Char} (hc : c ∈ hexOfBytes bs)
    (hlt : ∀ b ∈ bs, b < 256) : c ∈ hexAlphabet := by
  unfold hexOfBytes at hc
  rw [List.mem_flatten] at hc
  obtain ⟨chunk, hch, hcc⟩ := hc
  rw [List.mem_map] at hch
  obtain ⟨b, hb, hchunk⟩ := hch
  have hb256 := hlt b hb
  subst hchunk
  simp only [List.mem_cons, List.not_mem_nil, or_false] at hcc
  rcases hcc with h | h
  · exact h ▸ hexDigitChar_mem _ (by omega)
  · exact h ▸ hexDigitChar_mem _ (by omega)

/-- Every successful `content_hash` result is a 12-character lower-case
hex string. -/
theorem content_hash_ok_spec (v : PyVal) (s : String)
    (h : content_hash v = .ok s) :
    s.length = 12 ∧ ∀ c ∈ s.data, c ∈ hexAlphabet := by
  by_cases hv : v = PyVal.vnone
  · simp [content_hash, hv] at h
  · rw [content_hash, if_neg hv] at h
    cases hn : normalize_for_hashing v with
    | error e => rw [hn] at h; cases h
    | ok nv =>
        rw [hn] at h
        dsimp only [] at h
        by_cases hd : jsonDumps nv = []
        · simp [hd] at h
        · rw [if_neg hd] at h
          injection h with h'
          subst h'
          constructor
          · show (String.mk _).data.length = 12
            rw [List.length_take, hexOfBytes_length, sha256Bytes_length]
            decide
          · intro c hc
            have hc' : c ∈ hexOfBytes (sha256Bytes (utf8Encode (jsonDumps nv))) :=
              List.mem_of_mem_take hc
            exact hexOfBytes_mem hc' (fun b hb => sha256Bytes_mem_lt hb)

/-! Non-emptiness of the canonical serialization. -/

theorem toDigitsCore_length_le (b : Nat) :
    ∀ (fuel n : Nat) (ds : List Char),
      ds.length ≤ (Nat.toDigitsCore b fuel n ds).length := by
  intro fuel
  induction fuel with
  | zero => intro n ds; simp [Nat.toDigitsCore]
  | succ f ih =>
      intro n ds
      rw [Nat.toDigitsCore]
      by_cases hz : n / b = 0
      · simp [hz]
      · rw [if_neg hz]
        calc ds.length ≤ (Nat.digitChar (n % b) :: ds).length := by simp
          _ ≤ _ := ih _ _

theorem toDigits_ne_nil (b n : Nat) : Nat.toDigits b n ≠ [] := by
  intro h
  have : (Nat.toDigits b n).length = 0 := by rw [h]; rfl
  rw [Nat.toDigits, Nat.toDigitsCore] at this
  by_cases hz : n / b = 0
  · simp [hz] at this
  · rw [if_neg hz] at this
    have h1 : 1 ≤ (Nat.toDigitsCore b n (n / b) [Nat.digitChar (n % b)]).length := by
      simpa using toDigitsCore_length_le b n (n / b) [Nat.digitChar (n % b)]
    omega

theorem natRepr_data_ne_nil (n : Nat) : (Nat.repr n).data ≠ [] := by
  show (List.asString (Nat.toDigits 10 n)).data ≠ []
  simpa [List.asString] using toDigits_ne_nil 10 n

theorem intRepr_data_ne_nil (n : Int) : (toString n).data ≠ [] := by
  show (Int.repr n).data ≠ []
  cases n with
  | ofNat m => exact natRepr_data_ne_nil m
  | negSucc m =>
      show (("-" ++ Nat.repr (m + 1) : String)).data ≠ []
      simp [String.data_append]

/-- Normalization never returns a foreign object at the top level. -/
theorem normalize_out_not_obj (v nv : PyVal)
    (h : normalize_for_hashing v = .ok nv) : ∀ t, nv ≠ .vobj t := by
  cases v with
  | vnone => simp [normalize_for_hashing] at h; simp [← h]
  | vbool b => simp [normalize_for_hashing] at h; simp [← h]
  | vint n => simp [normalize_for_hashing] at h; simp [← h]
  | vstr s => simp [normalize_for_hashing] at h; simp [← h]
  | vobj t => simp [normalize_for_hashing] at h
  | vlist xs =>
      cases hl : normList xs with
      | error e => simp [normalize_for_hashing, hl] at h
      | ok l => simp [normalize_for_hashing, hl] at h; simp [← h]
  | vdict xs =>
      cases hl : normPairs xs with
      | error e => simp [normalize_for_hashing, hl] at h
      | ok l => simp [normalize_for_hashing, hl] at h; simp [← h]

/-- The canonical serialization of any serializable value is non-empty. -/
theorem jsonDumps_ne_nil (nv : PyVal) (h : ∀ t, nv ≠ .vobj t) :
    jsonDumps nv ≠ [] := by
  cases nv with
  | vnone => simp [jsonDumps]
  | vbool b => cases b <;> simp [jsonDumps]
  | vint n => simpa [jsonDumps] using intRepr_data_ne_nil n
  | vstr s => simp [jsonDumps, quoteJson]
  | vlist xs => simp [jsonDumps]
  | vdict xs => simp [jsonDumps]
  | vobj t => exact absurd rfl (h t)

/-- For a non-`None` input whose normalization succeeds, `content_hash`
succeeds (the empty-serialization guard can never fire). -/
theorem content_hash_ok_of (v nv : PyVal) (hne : v ≠ .vnone)
    (hn : normalize_for_hashing v = .ok nv) :
    content_hash v =
      .ok (String.mk ((hexOfBytes (sha256Bytes (utf8Encode (jsonDumps nv)))).take 12)) := by
  rw [content_hash, if_neg hne, hn]
  dsimp only []
  rw [if_neg (jsonDumps_ne_nil nv (normalize_out_not_obj v nv hn))]

mutual
/-- Every normalization failure is a `TypeError`. -/
theorem normalize_error_typeError : ∀ (v : PyVal) (e : PyErr),
    normalize_for_hashing v = .error e → ∃ m, e = .typeError m
  | .vnone, e, h => by simp [normalize_for_hashing] at h
  | .vbool b, e, h => by simp [normalize_for_hashing] at h
  | .vint n, e, h => by simp [normalize_for_hashing] at h
  | .vstr s, e, h => by simp [normalize_for_hashing] at h
  | .vobj t, e, h => by
      simp [normalize_for_hashing] at h
      exact ⟨_, h.symm⟩
  | .vlist xs, e, h => by
      cases hl : normList xs with
      | error e1 =>
          have he : e1 = e := by simpa [normalize_for_hashing, hl] using h
          exact he ▸ normList_error_typeError xs e1 hl
      | ok l => simp [normalize_for_hashing, hl] at h
  | .vdict xs, e, h => by
      cases hl : normPairs xs with
      | error e1 =>
          have he : e1 = e := by simpa [normalize_for_hashing, hl] using h
          exact he ▸ normPairs_error_typeError xs e1 hl
      | ok l => simp [normalize_for_hashing, hl] at h
termination_by structural v => v

theorem normList_error_typeError : ∀ (xs : List PyVal) (e : PyErr),
    normList xs = .error e → ∃ m, e = .typeError m
  | [], e, h => by simp [normList] at h
  | x :: xs, e, h => by
      cases hx : normalize_for_hashing x with
      | error e1 =>
          have he : e1 = e := by simpa [normList, hx] using h
          exact he ▸ normalize_error_typeError x e1 hx
      | ok w =>
          cases hxs : normList xs with
          | error e2 =>
              have he : e2 = e := by simpa [normList, hx, hxs] using h
              exact he ▸ normList_error_typeError xs e2 hxs
          | ok l => simp [normList, hx, hxs] at h
termination_by structural l => l

theorem normPairs_error_typeError : ∀ (xs : List (String × PyVal)) (e : PyErr),
    normPairs xs = .error e → ∃ m, e = .typeError m
  | [], e, h => by simp [normPairs] at h
  | (k, v) :: xs, e, h => by
      cases hv : normalize_for_hashing v with
      | error e1 =>
          have he : e1 = e := by simpa [normPairs, hv] using h
          exact he ▸ normalize_error_typeError v e1 hv
      | ok w =>
          cases hxs : normPairs xs with
          | error e2 =>
              have he : e2 = e := by simpa [normPairs, hv, hxs] using h
              exact he ▸ normPairs_error_typeError xs e2 hxs
          | ok l => simp [normPairs, hv, hxs] at h
termination_by structural l => l
end

/-! A truncated digest cannot be injective: pigeonhole over the finite
space of 12-character strings. -/

theorem char_toNat_lt (c : Char) : c.toNat < 1114112 := by
  rcases c with ⟨v, h⟩
  rcases h with h | h
  · simp [Char.toNat]; omega
  · simp [Char.toNat]; omega

instance : Finite Char := by
  apply Finite.of_injective (fun c : Char => (⟨c.toNat, char_toNat_lt c⟩ : Fin 1114112))
  intro a b h
  exact Char.ext (UInt32.ext (by simpa [Fin.mk.injEq] using h))

instance : Finite {l : List Char // l.length = 12} := by
  apply Finite.of_injective
    (fun x : {l : List Char // l.length = 12} =>
      fun i : Fin 12 => x.1.get ⟨i.1, by rw [x.2]; exact i.2⟩)
  rintro ⟨l1, h1⟩ ⟨l2, h2⟩ h
  apply Subtype.ext
  apply List.ext_get (h1.trans h2.symm)
  intro i hi1 hi2
  have := congrFun h ⟨i, by omega⟩
  simpa using this

/-- The family of distinct string scalars used for the pigeonhole
argument. -/
def strFam (k : Nat) : PyVal := .vstr (String.mk (List.replicate k 'a'))

theorem strFam_hash_ok (k : Nat) :
    content_hash (strFam k) =
      .ok (String.mk ((hexOfBytes (sha256Bytes (utf8Encode
        (jsonDumps (strFam k))))).take 12)) := by
  exact content_hash_ok_of (strFam k) (strFam k) (by simp [strFam]) rfl

/-- The digest data of a value, as a raw character list. -/
def hashData (v : PyVal) : List Char :=
  match content_hash v with
  | .ok s => s.data
  | .error _ => []

theorem hashData_strFam_length (k : Nat) : (hashData (strFam k)).length = 12 := by
  rw [hashData, strFam_hash_ok k]
  exact ((content_hash_ok_spec (strFam k) _ (strFam_hash_ok k)).1 : _)

/-- Two distinct inputs with the same truncated digest exist. -/
theorem content_hash_collision :
    ∃ j k : Nat, j ≠ k ∧ content_hash (strFam j) = content_hash (strFam k) := by
  obtain ⟨j, k, hne, heq⟩ :=
    Finite.exists_ne_map_eq_of_infinite
      (fun k : Nat => (⟨hashData (strFam k), hashData_strFam_length k⟩ :
        {l : List Char // l.length = 12}))
  refine ⟨j, k, hne, ?_⟩
  have hdata : hashData (strFam j) = hashData (strFam k) := congrArg Subtype.val heq
  rw [hashData, hashData, strFam_hash_ok j, strFam_hash_ok k] at hdata
  rw [strFam_hash_ok j, strFam_hash_ok k]
  exact congrArg (fun l => Except.ok (ε := PyErr) (String.mk l)) hdata

theorem strFam_wf (k : Nat) : wfHash (strFam k) = true := rfl

theorem strFam_not_requiv {j k : Nat} (hne : j ≠ k) :
    ¬ requiv (strFam j) (strFam k) := by
  intro h
  have hs : String.mk (List.replicate j 'a') = String.mk (List.replicate k 'a') := by
    simpa [strFam, requiv] using h
  have hlen := congrArg (fun s : String => s.data.length) hs
  simp at hlen
  exact hne hlen

/-- C1 (counterexample): it is not the case that, over JSON-like values
(no foreign objects, duplicate-free dict keys), `content_hash` agreement
is equivalent to deep equality up to key reordering — the truncated
12-hex-character digest cannot be injective on the infinite space of
values, so two inequivalent values share a hash. -/
theorem c1_counterexample :
    ¬ (∀ v1 v2 : PyVal, wfHash v1 = true → wfHash v2 = true →
        (content_hash v1 = content_hash v2 ↔ requiv v1 v2)) := by
  intro hcl
  obtain ⟨j, k, hne, heq⟩ := content_hash_collision
  exact strFam_not_requiv hne ((hcl _ _ (strFam_wf j) (strFam_wf k)).mp heq)

/-- C1 (amended): for JSON-like values (no foreign objects,
duplicate-free dict keys), deep equality up to reordering of map keys at
any nesting depth implies equal hashes — reordering keys never changes
the hash — and every successful hash is a 12-character lower-case hex
string.  (Distinct values are merely expected, not guaranteed, to
receive distinct hashes.) -/
theorem c1_hash_reorder_invariant_and_hex :
    ∀ v1 v2 : PyVal, wfHash v1 = true → wfHash v2 = true → requiv v1 v2 →
      content_hash v1 = content_hash v2 ∧
      ∀ s, content_hash v1 = .ok s → s.length = 12 ∧ ∀ c ∈ s.data, c ∈ hexAlphabet :=
  fun v1 v2 h1 h2 h =>
    ⟨content_hash_requiv v1 v2 h1 h2 h, fun s hs => content_hash_ok_spec v1 s hs⟩

/-- Witness for C1 at a concrete nested pair of key-reordered dicts. -/
theorem c1_hash_reorder_invariant_and_hex_witness :
    wfHash (.vdict [("b", .vint 3), ("a", .vdict [("y", .vint 2), ("x", .vint 1)])]) = true ∧
    wfHash (.vdict [("a", .vdict [("x", .vint 1), ("y", .vint 2)]), ("b", .vint 3)]) = true ∧
    requiv (.vdict [("b", .vint 3), ("a", .vdict [("y", .vint 2), ("x", .vint 1)])])
      (.vdict [("a", .vdict [("x", .vint 1), ("y", .vint 2)]), ("b", .vint 3)]) ∧
    content_hash (.vdict [("b", .vint 3), ("a", .vdict [("y", .vint 2), ("x", .vint 1)])]) =
      content_hash (.vdict [("a", .vdict [("x", .vint 1), ("y", .vint 2)]), ("b", .vint 3)]) := by
  have hr : requiv
      (.vdict [("b", .vint 3), ("a", .vdict [("y", .vint 2), ("x", .vint 1)])])
      (.vdict [("a", .vdict [("x", .vint 1), ("y", .vint 2)]), ("b", .vint 3)]) := by
    refine ⟨[("b", .vint 3), ("a", .vdict [("x", .vint 1), ("y", .vint 2)])], ?_, by decide⟩
    show requivPairs _ _
    refine ⟨rfl, by simp [requiv], rfl, ?_, trivial⟩
    show requiv _ _
    exact ⟨[("y", .vint 2), ("x", .vint 1)], ⟨rfl, by simp [requiv], rfl, by simp [requiv], trivial⟩, by decide⟩
  exact ⟨by decide, by decide, hr,
    (c1_hash_reorder_invariant_and_hex _ _ (by decide) (by decide) hr).1⟩

/-- C10: the defensive branch of `content_hash` that would raise
`ValueError("Normalized data resulted in empty string")` is unreachable:
for every value, the hash never returns that error; the only
`ValueError` is for a `None` top-level input; every failure is that
`ValueError` or a `TypeError` from normalization; and for every
non-`None` input whose normalization succeeds the result is a
12-character hex string. -/
theorem c10_empty_string_branch_unreachable :
    ∀ v : PyVal,
      content_hash v ≠ .error (.valueError "Normalized data resulted in empty string") ∧
      (content_hash v = .error (.valueError "Cannot hash None value") ↔ v = .vnone) ∧
      (∀ e, content_hash v = .error e →
        (v = .vnone ∧ e = .valueError "Cannot hash None value") ∨ ∃ m, e = .typeError m) ∧
      (∀ nv, v ≠ .vnone → normalize_for_hashing v = .ok nv →
        ∃ s, content_hash v = .ok s ∧ s.length = 12 ∧ ∀ c ∈ s.data, c ∈ hexAlphabet) := by
  intro v
  by_cases hv : v = PyVal.vnone
  · subst hv
    refine ⟨by decide, by simp [content_hash], ?_, ?_⟩
    · intro e he
      have : (PyErr.valueError "Cannot hash None value") = e := by
        simpa [content_hash] using he
      exact Or.inl ⟨rfl, this.symm⟩
    · intro nv hne _
      exact absurd rfl hne
  · cases hn : normalize_for_hashing v with
    | error e =>
        have hch : content_hash v = .error e := by
          rw [content_hash, if_neg hv, hn]
        obtain ⟨m, hm⟩ := normalize_error_typeError v e hn
        subst hm
        refine ⟨by simp [hch], by simp [hch, hv], ?_, ?_⟩
        · intro e' he'
          rw [hch] at he'
          injection he' with he''
          exact Or.inr ⟨m, he''.symm⟩
        · intro nv _ hn'
          cases hn'
    | ok nv =>
        have hch := content_hash_ok_of v nv hv hn
        refine ⟨by simp [hch], by simp [hch, hv], ?_, ?_⟩
        · intro e he
          rw [hch] at he
          cases he
        · intro nv' _ hn'
          injection hn' with he
          subst he
          exact ⟨_, hch, content_hash_ok_spec v _ hch⟩

/-- Witness for C10 at a concrete one-entry dict. -/
theorem c10_empty_string_branch_unreachable_witness :
    ((.vdict [("a", .vint 1)] : PyVal) ≠ .vnone) ∧
    normalize_for_hashing (.vdict [("a", .vint 1)]) = .ok (.vdict [("a", .vint 1)]) ∧
    ∃ s, content_hash (.vdict [("a", .vint 1)]) = .ok s ∧ s.length = 12 ∧
      ∀ c ∈ s.data, c ∈ hexAlphabet :=
  ⟨by decide, by decide,
    (c10_empty_string_branch_unreachable (.vdict [("a", .vint 1)])).2.2.2
      (.vdict [("a", .vint 1)]) (by decide) (by decide)⟩

/-!
## `update_docs.py`: merging the core and contrib inventories

A component record is a Python dict (`Comp`); the per-type component map
built by `merge_inventories` is a Python dict keyed by the value of
`component.get("name")` (`CompMap`), in insertion order.  An inventory
is modelled by its `components` mapping: component type to list of
component records.
-/

/-- A component record (a Python dict). -/
abbrev Comp := List (String × PyVal)

/-- The name-keyed component map (`component_map`), in insertion order,
keyed by the result of `component.get("name")`. -/
abbrev CompMap := List (Option PyVal × Comp)

/-- An inventory's `components` mapping: component type to records. -/
abbrev Inventory := List (String × List Comp)

/-- `component.get("name")`. -/
def nameOf (c : Comp) : Option PyVal := dictGet c "name"

/-- `_is_experimental_component(name, component_type)`: whether the
component's name equals `"x" + component_type`. -/
def is_experimental_component (name : Option PyVal) (component_type : String) : Bool :=
  name == some (.vstr ("x" ++ component_type))

/-- Truthiness of `d.get(k)`-style results: an absent key (Python
default `{}` or `None`) is falsy. -/
def optTruthy : Option PyVal → Bool
  | some v => pyTruthy v
  | none => false

/-- `_get_distributions(component)`:
`component.get("metadata", {}).get("status", {}).get("distributions", [])`.
Distribution entries are strings in all well-formed inventories (the
theorems assume as much); a non-dict `metadata`/`status` would raise
`AttributeError` in Python and is mapped to the empty default here. -/
def get_distributions (component : Comp) : List String :=
  match dictGet component "metadata" with
  | some (.vdict md) =>
      match dictGet md "status" with
      | some (.vdict st) =>
          match dictGet st "distributions" with
          | some (.vlist ds) =>
              ds.filterMap (fun v => match v with | .vstr s => some s | _ => none)
          | _ => []
      | _ => []
  | _ => []

/-- `sorted(set(a) | set(b))` on string lists. -/
def sortedSetUnion (a b : List String) : List String :=
  sortStrings ((a ++ b).dedup)

/-- `_merge_component_metadata(existing, new)`: merge `new`'s metadata
into `existing`, setting `existing["metadata"]["status"]["distributions"]`
to the sorted deduplicated union of both sides' distributions, adopting
`new`'s metadata block (shallow copy — value semantics here) only when
`existing`'s is falsy, and synthesizing empty `metadata`/`status` dicts
as needed.  The Python function mutates `existing` in place; this
embedding returns the updated record. -/
def adoptMetadata (existing new' : Comp) : Comp :=
  if optTruthy (dictGet new' "metadata") && !(optTruthy (dictGet existing "metadata"))
  then dictSet existing "metadata" ((dictGet new' "metadata").getD .vnone)
  else existing

/-- `if k not in d: d[k] = dflt`. -/
def ensureKey (c : Comp) (k : String) (dflt : PyVal) : Comp :=
  if dictHasKey c k then c else dictSet c k dflt

def merge_component_metadata (existing new' : Comp) : Comp :=
  let all_dists := sortedSetUnion (get_distributions existing) (get_distributions new')
  let e2 := ensureKey (adoptMetadata existing new') "metadata" (.vdict [])
  match dictGet e2 "metadata" with
  | some (.vdict md) =>
      let md1 := ensureKey md "status" (.vdict [])
      match dictGet md1 "status" with
      | some (.vdict st) =>
          dictSet e2 "metadata" (.vdict (dictSet md1 "status"
            (.vdict (dictSet st "distributions" (.vlist (all_dists.map PyVal.vstr))))))
      | _ => e2
  | _ => e2

/-- First-match lookup in the name-keyed map. -/
def assocFind (m : CompMap) (k : Option PyVal) : Option Comp :=
  (m.find? (fun p => p.1 == k)).map Prod.snd

/-- In-place update of the entry with key `k` (Python dict assignment on
a present key keeps its position). -/
def assocReplace (m : CompMap) (k : Option PyVal) (v : Comp) : CompMap :=
  match m with
  | [] => []
  | (k1, v1) :: rest =>
      if k1 == k then (k1, v) :: rest else (k1, v1) :: assocReplace rest k v

/-- `_add_component_to_map(component_map, component, source_repo,
component_type)`: skip experimental names; merge metadata into an
existing same-name entry; otherwise insert a copy of the component with
`source_repo` set. -/
def add_component_to_map (component_map : CompMap) (component : Comp)
    (source_repo : String) (component_type : String) : CompMap :=
  let name := nameOf component
  if is_experimental_component name component_type then component_map
  else
    match assocFind component_map name with
    | some existing =>
        assocReplace component_map name (merge_component_metadata existing component)
    | none =>
        component_map ++ [(name, dictSet component "source_repo" (.vstr source_repo))]

/-- `inventory.get("components", {}).get(t, [])`. -/
def invGet (inv : Inventory) (t : String) : List Comp :=
  match inv.find? (fun p => p.1 == t) with
  | some p => p.2
  | none => []

/-- Sort key `c.get("name", "")` used for the final per-type ordering
(names are strings in well-formed inventories). -/
def compName (c : Comp) : String :=
  match dictGet c "name" with
  | some (.vstr s) => s
  | _ => ""

/-- Folding one side's component list into the map. -/
def foldAdd (m : CompMap) (cs : List Comp) (source_repo component_type : String) : CompMap :=
  cs.foldl (fun m c => add_component_to_map m c source_repo component_type) m

/-- `merge_inventories(core_inventory, contrib_inventory)`: for each
component type present on either side, insert core components first
(tagged `"core"`), then contrib components (tagged `"contrib"`), and
sort the merged map's values by name.  (Python iterates the type set in
unspecified order; the per-type result does not depend on it, and the
types are enumerated here in first-appearance order.)
The merged, name-sorted component list for one type is `mergeType`. -/
def mergeType (core_inventory contrib_inventory : Inventory) (component_type : String) :
    List Comp :=
  let m2 := foldAdd (foldAdd [] (invGet core_inventory component_type) "core" component_type)
    (invGet contrib_inventory component_type) "contrib" component_type
  (m2.map Prod.snd).insertionSort (fun a b => strLeb (compName a) (compName b) = true)

def merge_inventories (core_inventory contrib_inventory : Inventory) : Inventory :=
  let all_types :=
    ((core_inventory.map Prod.fst) ++ (contrib_inventory.map Prod.fst)).dedup
  all_types.map (fun component_type =>
    (component_type, mergeType core_inventory contrib_inventory component_type))

example :
    merge_inventories
      [("receiver", [[("name", .vstr "otlpreceiver"),
        ("metadata", .vdict [("status", .vdict [("distributions", .vlist [.vstr "core"])])])]])]
      [("receiver", [[("name", .vstr "otlpreceiver"),
        ("metadata", .vdict [("status", .vdict [("distributions", .vlist [.vstr "contrib"])])])]])] =
      [("receiver", [[("name", .vstr "otlpreceiver"),
        ("metadata", .vdict [("status", .vdict [("distributions",
          .vlist [.vstr "contrib", .vstr "core"])])]),
        ("source_repo", .vstr "core")]])] := by decide

/-! Well-formed component records, and basic dict/assoc-map lemmas. -/

/-- The `distributions` value, when present, is a list of strings. -/
def wfDists : Option PyVal → Bool
  | none => true
  | some (.vlist ds) => ds.all (fun v => match v with | .vstr _ => true | _ => false)
  | some _ => false

/-- The `status` value, when present, is a dict with unique keys and
well-formed `distributions`. -/
def wfStatus : Option PyVal → Bool
  | none => true
  | some (.vdict st) => nodupStr (st.map Prod.fst) && wfDists (dictGet st "distributions")
  | some _ => false

/-- The `metadata` value, when present, is a dict with unique keys and a
well-formed `status`. -/
def wfMeta : Option PyVal → Bool
  | none => true
  | some (.vdict md) => nodupStr (md.map Prod.fst) && wfStatus (dictGet md "status")
  | some _ => false

/-- A well-formed component record: unique keys, a string `name`, and
well-formed optional `metadata` (a non-dict `metadata` or `status` would
make the Python merge raise). -/
def wfComp (c : Comp) : Bool :=
  nodupStr (c.map Prod.fst) &&
  (match dictGet c "name" with | some (.vstr _) => true | _ => false) &&
  wfMeta (dictGet c "metadata")

theorem dictGet_cons_eq {k1 k : String} (v1 : PyVal) (c : Comp) (h : k1 = k) :
    dictGet ((k1, v1) :: c) k = some v1 := by
  subst h
  simp [dictGet, List.find?]

theorem dictGet_cons_ne {k1 k : String} (v1 : PyVal) (c : Comp) (h : k1 ≠ k) :
    dictGet ((k1, v1) :: c) k = dictGet c k := by
  have hb : ((k1, v1).1 == k) = false := by simpa using h
  rw [dictGet, List.find?, hb, ← dictGet]

theorem dictGet_dictSet_self (c : Comp) (k : String) (v : PyVal) :
    dictGet (dictSet c k v) k = some v := by
  induction c with
  | nil => simp [dictSet, dictGet]
  | cons p c ih =>
      obtain ⟨k1, v1⟩ := p
      by_cases hk : k1 = k
      · subst hk
        rw [dictSet]
        simp only [beq_self_eq_true, if_true]
        exact dictGet_cons_eq v c rfl
      · rw [dictSet]
        simp only [beq_iff_eq, hk, if_false]
        rw [dictGet_cons_ne _ _ hk]
        exact ih

theorem dictGet_dictSet_ne (c : Comp) (k k' : String) (v : PyVal) (h : k' ≠ k) :
    dictGet (dictSet c k v) k' = dictGet c k' := by
  induction c with
  | nil => simp [dictSet, dictGet, Ne.symm h]
  | cons p c ih =>
      obtain ⟨k1, v1⟩ := p
      by_cases hk : k1 = k
      · subst hk
        rw [dictSet]
        simp only [beq_self_eq_true, if_true]
        rw [dictGet_cons_ne _ _ (Ne.symm h), dictGet_cons_ne _ _ (Ne.symm h)]
      · rw [dictSet]
        simp only [beq_iff_eq, hk, if_false]
        by_cases hk' : k1 = k'
        · rw [dictGet_cons_eq _ _ hk', dictGet_cons_eq _ _ hk']
        · rw [dictGet_cons_ne _ _ hk', dictGet_cons_ne _ _ hk']
          exact ih

theorem dictHasKey_eq_isSome (c : Comp) (k : String) :
    dictHasKey c k = (dictGet c k).isSome := by
  induction c with
  | nil => simp [dictHasKey, dictGet]
  | cons p c ih =>
      obtain ⟨k1, v1⟩ := p
      by_cases hk : k1 = k
      · rw [dictHasKey, List.any_cons, dictGet_cons_eq _ _ hk]
        simp [hk]
      · rw [dictHasKey, List.any_cons, dictGet_cons_ne _ _ hk, ← dictHasKey, ih]
        simp [hk]

theorem dictSet_of_absent (c : Comp) (k : String) (v : PyVal)
    (h : dictGet c k = none) : dictSet c k v = c ++ [(k, v)] := by
  induction c with
  | nil => simp [dictSet]
  | cons p c ih =>
      obtain ⟨k1, v1⟩ := p
      by_cases hk : k1 = k
      · rw [dictGet_cons_eq _ _ hk] at h
        cases h
      · rw [dictGet_cons_ne _ _ hk] at h
        rw [dictSet]
        simp only [beq_iff_eq, hk, if_false, List.cons_append, List.cons.injEq, true_and]
        exact ih h

theorem dictSet_append_single (c : Comp) (k : String) (v w : PyVal)
    (h : dictGet c k = none) : dictSet (c ++ [(k, v)]) k w = c ++ [(k, w)] := by
  induction c with
  | nil => simp [dictSet]
  | cons p c ih =>
      obtain ⟨k1, v1⟩ := p
      by_cases hk : k1 = k
      · rw [dictGet_cons_eq _ _ hk] at h
        cases h
      · rw [dictGet_cons_ne _ _ hk] at h
        rw [List.cons_append, dictSet]
        simp only [beq_iff_eq, hk, if_false, List.cons_append, List.cons.injEq, true_and]
        exact ih h

theorem dictSet_keys (c : Comp) (k : String) (v : PyVal)
    (h : (dictGet c k).isSome) : (dictSet c k v).map Prod.fst = c.map Prod.fst := by
  induction c with
  | nil => simp [dictGet] at h
  | cons p c ih =>
      obtain ⟨k1, v1⟩ := p
      by_cases hk : k1 = k
      · rw [dictSet]
        simp [hk]
      · rw [dictGet_cons_ne _ _ hk] at h
        rw [dictSet]
        simp only [beq_iff_eq, hk, if_false, List.map_cons, List.cons.injEq, true_and]
        exact ih h

theorem adoptMetadata_get_ne (e n : Comp) (k : String) (h : k ≠ "metadata") :
    dictGet (adoptMetadata e n) k = dictGet e k := by
  rw [adoptMetadata]
  split
  · exact dictGet_dictSet_ne _ _ _ _ h
  · rfl

theorem ensureKey_get_ne (c : Comp) (k k' : String) (d : PyVal) (h : k' ≠ k) :
    dictGet (ensureKey c k d) k' = dictGet c k' := by
  rw [ensureKey]
  split
  · rfl
  · exact dictGet_dictSet_ne _ _ _ _ h

theorem ensureKey_get_self (c : Comp) (k : String) (d : PyVal) :
    dictGet (ensureKey c k d) k = some ((dictGet c k).getD d) := by
  rw [ensureKey, dictHasKey_eq_isSome]
  cases hc : dictGet c k with
  | some v => simp [hc]
  | none => simp [hc, dictGet_dictSet_self]

/-! Lemmas about the name-keyed component map. -/

theorem assocFind_cons_eq {k1 k : Option PyVal} (v1 : Comp) (m : CompMap)
    (h : k1 = k) : assocFind ((k1, v1) :: m) k = some v1 := by
  subst h
  simp [assocFind, List.find?]

theorem assocFind_cons_ne {k1 k : Option PyVal} (v1 : Comp) (m : CompMap)
    (h : k1 ≠ k) : assocFind ((k1, v1) :: m) k = assocFind m k := by
  have hb : ((k1, v1).1 == k) = false := by simpa using h
  rw [assocFind, List.find?, hb, ← assocFind]

theorem assocFind_replace_self (m : CompMap) (k : Option PyVal) (v e : Comp)
    (h : assocFind m k = some e) : assocFind (assocReplace m k v) k = some v := by
  induction m with
  | nil => simp [assocFind, List.find?] at h
  | cons p m ih =>
      obtain ⟨k1, v1⟩ := p
      by_cases hk : k1 = k
      · subst hk
        rw [assocReplace]
        simp only [beq_self_eq_true, if_true]
        exact assocFind_cons_eq _ _ rfl
      · rw [assocFind_cons_ne _ _ hk] at h
        rw [assocReplace]
        simp only [beq_iff_eq, hk, if_false]
        rw [assocFind_cons_ne _ _ hk]
        exact ih h

theorem assocFind_replace_ne (m : CompMap) (k k' : Option PyVal) (v : Comp)
    (h : k' ≠ k) : assocFind (assocReplace m k v) k' = assocFind m k' := by
  induction m with
  | nil => simp [assocReplace]
  | cons p m ih =>
      obtain ⟨k1, v1⟩ := p
      by_cases hk : k1 = k
      · subst hk
        rw [assocReplace]
        simp only [beq_self_eq_true, if_true]
        rw [assocFind_cons_ne _ _ (Ne.symm h), assocFind_cons_ne _ _ (Ne.symm h)]
      · rw [assocReplace]
        simp only [beq_iff_eq, hk, if_false]
        by_cases hk' : k1 = k'
        · rw [assocFind_cons_eq _ _ hk', assocFind_cons_eq _ _ hk']
        · rw [assocFind_cons_ne _ _ hk', assocFind_cons_ne _ _ hk']
          exact ih

theorem assocReplace_keys (m : CompMap) (k : Option PyVal) (v : Comp) :
    (assocReplace m k v).map Prod.fst = m.map Prod.fst := by
  induction m with
  | nil => rfl
  | cons p m ih =>
      obtain ⟨k1, v1⟩ := p
      rw [assocReplace]
      by_cases hk : k1 = k
      · simp [hk]
      · simp only [beq_iff_eq, hk, if_false, List.map_cons, List.cons.injEq, true_and]
        exact ih

theorem mem_assocReplace {m : CompMap} {k : Option PyVal} {v : Comp} {p} :
    p ∈ assocReplace m k v → p ∈ m ∨ p = (k, v) := by
  induction m with
  | nil => intro h; simp [assocReplace] at h
  | cons q m ih =>
      obtain ⟨k1, v1⟩ := q
      rw [assocReplace]
      by_cases hk : k1 = k
      · subst hk
        simp only [beq_self_eq_true, if_true, List.mem_cons]
        rintro (h | h)
        · exact Or.inr (by simp [h])
        · exact Or.inl (Or.inr h)
      · simp only [beq_iff_eq, hk, if_false, List.mem_cons]
        rintro (h | h)
        · exact Or.inl (Or.inl h)
        · rcases ih h with h' | h'
          · exact Or.inl (Or.inr h')
          · exact Or.inr h'

theorem assocFind_append_single_self (m : CompMap) (k : Option PyVal) (v : Comp)
    (h : assocFind m k = none) : assocFind (m ++ [(k, v)]) k = some v := by
  induction m with
  | nil => simp [assocFind, List.find?]
  | cons p m ih =>
      obtain ⟨k1, v1⟩ := p
      by_cases hk : k1 = k
      · rw [assocFind_cons_eq _ _ hk] at h
        cases h
      · rw [assocFind_cons_ne _ _ hk] at h
        rw [List.cons_append, assocFind_cons_ne _ _ hk]
        exact ih h

theorem assocFind_append_single_ne (m : CompMap) (k k' : Option PyVal) (v : Comp)
    (h : k' ≠ k) : assocFind (m ++ [(k, v)]) k' = assocFind m k' := by
  induction m with
  | nil =>
      have hb : (k == k') = false := by simpa using Ne.symm h
      simp [assocFind, List.find?, hb]
  | cons p m ih =>
      obtain ⟨k1, v1⟩ := p
      by_cases hk : k1 = k'
      · rw [List.cons_append, assocFind_cons_eq _ _ hk, assocFind_cons_eq _ _ hk]
      · rw [List.cons_append, assocFind_cons_ne _ _ hk, assocFind_cons_ne _ _ hk]
        exact ih

theorem assocFind_eq_none_iff (m : CompMap) (k : Option PyVal) :
    assocFind m k = none ↔ k ∉ m.map Prod.fst := by
  induction m with
  | nil => simp [assocFind, List.find?]
  | cons p m ih =>
      obtain ⟨k1, v1⟩ := p
      by_cases hk : k1 = k
      · rw [assocFind_cons_eq _ _ hk]
        simp [hk]
      · rw [assocFind_cons_ne _ _ hk]
        simp [hk, ih, Ne.symm hk]

theorem assocFind_some_mem {m : CompMap} {k : Option PyVal} {v : Comp}
    (h : assocFind m k = some v) : (k, v) ∈ m := by
  induction m with
  | nil => simp [assocFind, List.find?] at h
  | cons p m ih =>
      obtain ⟨k1, v1⟩ := p
      by_cases hk : k1 = k
      · subst hk
        rw [assocFind_cons_eq _ _ rfl] at h
        injection h with h
        subst h
        exact List.mem_cons_self _ _
      · rw [assocFind_cons_ne _ _ hk] at h
        exact List.mem_cons_of_mem _ (ih h)

/-! Behaviour of `_merge_component_metadata`. -/

theorem merge_component_metadata_get_ne (e n : Comp) (k : String) (h : k ≠ "metadata") :
    dictGet (merge_component_metadata e n) k = dictGet e k := by
  have base : dictGet (ensureKey (adoptMetadata e n) "metadata" (.vdict [])) k = dictGet e k := by
    rw [ensureKey_get_ne _ _ _ _ h, adoptMetadata_get_ne _ _ _ h]
  simp only [merge_component_metadata]
  split
  · split
    · rw [dictGet_dictSet_ne _ _ _ _ h]
      exact base
    · exact base
  · exact base

theorem adoptMetadata_get_self (e n : Comp) :
    dictGet (adoptMetadata e n) "metadata" =
      if optTruthy (dictGet n "metadata") && !(optTruthy (dictGet e "metadata"))
      then some ((dictGet n "metadata").getD .vnone)
      else dictGet e "metadata" := by
  rw [adoptMetadata]
  split
  · exact dictGet_dictSet_self _ _ _
  · rfl

theorem merge_component_metadata_spec (e n : Comp)
    (wfe : wfComp e = true) (wfn : wfComp n = true) :
    ∃ md st,
      dictGet (merge_component_metadata e n) "metadata" = some (.vdict md) ∧
      dictGet md "status" = some (.vdict st) ∧
      dictGet st "distributions" =
        some (.vlist ((sortedSetUnion (get_distributions e) (get_distributions n)).map
          PyVal.vstr)) := by
  have hwfe : wfMeta (dictGet e "metadata") = true := by
    rw [wfComp, Bool.and_eq_true, Bool.and_eq_true] at wfe
    exact wfe.2
  have hwfn : wfMeta (dictGet n "metadata") = true := by
    rw [wfComp, Bool.and_eq_true, Bool.and_eq_true] at wfn
    exact wfn.2
  -- stage 1: after adoption and key-ensuring, metadata is a dict with
  -- well-formed status
  have stage1 : ∃ md0, dictGet (ensureKey (adoptMetadata e n) "metadata" (.vdict []))
      "metadata" = some (.vdict md0) ∧ wfStatus (dictGet md0 "status") = true := by
    rw [ensureKey_get_self, adoptMetadata_get_self]
    by_cases hc : optTruthy (dictGet n "metadata") && !(optTruthy (dictGet e "metadata"))
    · rw [if_pos hc]
      cases hn : dictGet n "metadata" with
      | none => rw [hn] at hc; simp [optTruthy] at hc
      | some v =>
          cases v with
          | vdict nmd =>
              rw [hn] at hwfn
              rw [wfMeta, Bool.and_eq_true] at hwfn
              exact ⟨nmd, by simp [hn], hwfn.2⟩
          | vnone => rw [hn] at hwfn; simp [wfMeta] at hwfn
          | vbool b => rw [hn] at hwfn; simp [wfMeta] at hwfn
          | vint m => rw [hn] at hwfn; simp [wfMeta] at hwfn
          | vstr s => rw [hn] at hwfn; simp [wfMeta] at hwfn
          | vlist l => rw [hn] at hwfn; simp [wfMeta] at hwfn
          | vobj t => rw [hn] at hwfn; simp [wfMeta] at hwfn
    · rw [if_neg hc]
      cases he : dictGet e "metadata" with
      | none => exact ⟨[], by simp, by simp [dictGet, List.find?, wfStatus]⟩
      | some v =>
          cases v with
          | vdict emd =>
              rw [he] at hwfe
              rw [wfMeta, Bool.and_eq_true] at hwfe
              exact ⟨emd, by simp, hwfe.2⟩
          | vnone => rw [he] at hwfe; simp [wfMeta] at hwfe
          | vbool b => rw [he] at hwfe; simp [wfMeta] at hwfe
          | vint m => rw [he] at hwfe; simp [wfMeta] at hwfe
          | vstr s => rw [he] at hwfe; simp [wfMeta] at hwfe
          | vlist l => rw [he] at hwfe; simp [wfMeta] at hwfe
          | vobj t => rw [he] at hwfe; simp [wfMeta] at hwfe
  obtain ⟨md0, hmd0, hwfst⟩ := stage1
  -- stage 2: after key-ensuring, status is a dict
  have stage2 : ∃ st0, dictGet (ensureKey md0 "status" (.vdict [])) "status" =
      some (.vdict st0) := by
    rw [ensureKey_get_self]
    cases hs : dictGet md0 "status" with
    | none => exact ⟨[], by simp⟩
    | some v =>
        cases v with
        | vdict st0 => exact ⟨st0, by simp⟩
        | vnone => rw [hs] at hwfst; simp [wfStatus] at hwfst
        | vbool b => rw [hs] at hwfst; simp [wfStatus] at hwfst
        | vint m => rw [hs] at hwfst; simp [wfStatus] at hwfst
        | vstr s => rw [hs] at hwfst; simp [wfStatus] at hwfst
        | vlist l => rw [hs] at hwfst; simp [wfStatus] at hwfst
        | vobj t => rw [hs] at hwfst; simp [wfStatus] at hwfst
  obtain ⟨st0, hst0⟩ := stage2
  refine ⟨dictSet (ensureKey md0 "status" (.vdict [])) "status"
      (.vdict (dictSet st0 "distributions"
        (.vlist ((sortedSetUnion (get_distributions e) (get_distributions n)).map
          PyVal.vstr)))),
    dictSet st0 "distributions"
      (.vlist ((sortedSetUnion (get_distributions e) (get_distributions n)).map
        PyVal.vstr)), ?_, ?_, ?_⟩
  · simp only [merge_component_metadata, hmd0, hst0]
    exact dictGet_dictSet_self _ _ _
  · exact dictGet_dictSet_self _ _ _
  · exact dictGet_dictSet_self _ _ _

theorem get_distributions_eq_none (c : Comp) (h : dictGet c "metadata" = none) :
    get_distributions c = [] := by
  rw [get_distributions, h]

/-- Merging two components that both lack a `metadata` key synthesizes
`metadata = {"status": {"distributions": []}}` on the merged entry. -/
theorem merge_component_metadata_no_meta (e n : Comp)
    (he : dictGet e "metadata" = none) (hn : dictGet n "metadata" = none) :
    merge_component_metadata e n =
      e ++ [("metadata", .vdict [("status", .vdict [("distributions", .vlist [])])])] := by
  have hadopt : adoptMetadata e n = e := by
    rw [adoptMetadata, hn]
    simp [optTruthy]
  have he2 : ensureKey (adoptMetadata e n) "metadata" (.vdict []) =
      dictSet e "metadata" (.vdict []) := by
    rw [hadopt, ensureKey, dictHasKey_eq_isSome, he]
    simp
  have hget : dictGet (ensureKey (adoptMetadata e n) "metadata" (.vdict []))
      "metadata" = some (.vdict []) := by
    rw [he2, dictGet_dictSet_self]
  have hdists : sortedSetUnion (get_distributions e) (get_distributions n) = [] := by
    rw [get_distributions_eq_none e he, get_distributions_eq_none n hn]
    rfl
  have hst : dictGet (ensureKey ([] : Comp) "status" (PyVal.vdict [])) "status" =
      some (PyVal.vdict []) := rfl
  simp only [merge_component_metadata, hget, hdists, hst]
  rw [he2, dictSet_of_absent e _ _ he, dictSet_append_single e _ _ _ he]
  rfl

/-- Read the component's metadata block at key `k`
(`component.get("metadata", {}).get(k)`-style: `none` when the
metadata block is absent or not a dict, or lacks the key). -/
def metaGet (c : Comp) (k : String) : Option PyVal :=
  match dictGet c "metadata" with
  | some (.vdict md) => dictGet md k
  | _ => none

/-- Truthiness of `component.get("metadata")` — the adoption test of
`_merge_component_metadata`: an absent metadata key and a
present-but-empty block are both falsy. -/
def metaTruthy (c : Comp) : Bool := optTruthy (dictGet c "metadata")

theorem metaTruthy_dictSet_source_repo (c : Comp) (v : PyVal) :
    metaTruthy (dictSet c "source_repo" v) = metaTruthy c := by
  rw [metaTruthy, metaTruthy, dictGet_dictSet_ne _ _ _ _ (by decide)]

theorem metaGet_dictSet_source_repo (c : Comp) (v : PyVal) (k : String) :
    metaGet (dictSet c "source_repo" v) k = metaGet c k := by
  rw [metaGet, metaGet, dictGet_dictSet_ne _ _ _ _ (by decide)]

theorem ensure_status_dict (md : List (String × PyVal))
    (h : wfStatus (dictGet md "status") = true) :
    ∃ st0, dictGet (ensureKey md "status" (.vdict [])) "status" =
      some (.vdict st0) := by
  rw [ensureKey_get_self]
  cases hs : dictGet md "status" with
  | none => exact ⟨[], by simp⟩
  | some v =>
      cases v with
      | vdict st0 => exact ⟨st0, by simp⟩
      | vnone => rw [hs] at h; simp [wfStatus] at h
      | vbool b => rw [hs] at h; simp [wfStatus] at h
      | vint m => rw [hs] at h; simp [wfStatus] at h
      | vstr s => rw [hs] at h; simp [wfStatus] at h
      | vlist l => rw [hs] at h; simp [wfStatus] at h
      | vobj t => rw [hs] at h; simp [wfStatus] at h

/-- The adoption rule of `_merge_component_metadata`, characterized at
every metadata key other than the rewritten `status`: the merged block
reads from `new`'s metadata exactly when `new`'s metadata is truthy
and `existing`'s is falsy (absent or empty), and from `existing`'s
otherwise. -/
theorem merge_component_metadata_meta_ne (e n : Comp) (k : String) (hk : k ≠ "status")
    (wfe : wfComp e = true) (wfn : wfComp n = true) :
    metaGet (merge_component_metadata e n) k =
      if (metaTruthy n && !(metaTruthy e)) = true then metaGet n k else metaGet e k := by
  have hwfe : wfMeta (dictGet e "metadata") = true := by
    rw [wfComp, Bool.and_eq_true, Bool.and_eq_true] at wfe
    exact wfe.2
  have hwfn : wfMeta (dictGet n "metadata") = true := by
    rw [wfComp, Bool.and_eq_true, Bool.and_eq_true] at wfn
    exact wfn.2
  simp only [metaTruthy]
  by_cases hc : (optTruthy (dictGet n "metadata") &&
      !(optTruthy (dictGet e "metadata"))) = true
  · rw [if_pos hc]
    cases hn : dictGet n "metadata" with
    | none =>
        rw [hn] at hc
        simp [optTruthy] at hc
    | some m2 =>
        cases m2 with
        | vdict md2 =>
            have hmd : dictGet (ensureKey (adoptMetadata e n) "metadata" (.vdict []))
                "metadata" = some (.vdict md2) := by
              rw [ensureKey_get_self, adoptMetadata_get_self, if_pos hc, hn]
              rfl
            have hwfst : wfStatus (dictGet md2 "status") = true := by
              rw [hn, wfMeta, Bool.and_eq_true] at hwfn
              exact hwfn.2
            obtain ⟨st0, hst⟩ := ensure_status_dict md2 hwfst
            simp only [merge_component_metadata, hmd, hst]
            rw [metaGet, dictGet_dictSet_self]
            dsimp only []
            rw [dictGet_dictSet_ne _ _ _ _ hk, ensureKey_get_ne _ _ _ _ hk, metaGet, hn]
        | vnone => rw [hn] at hwfn; simp [wfMeta] at hwfn
        | vbool b => rw [hn] at hwfn; simp [wfMeta] at hwfn
        | vint m => rw [hn] at hwfn; simp [wfMeta] at hwfn
        | vstr s2 => rw [hn] at hwfn; simp [wfMeta] at hwfn
        | vlist l => rw [hn] at hwfn; simp [wfMeta] at hwfn
        | vobj t => rw [hn] at hwfn; simp [wfMeta] at hwfn
  · rw [if_neg hc]
    cases he : dictGet e "metadata" with
    | none =>
        have hmd : dictGet (ensureKey (adoptMetadata e n) "metadata" (.vdict []))
            "metadata" = some (.vdict []) := by
          rw [ensureKey_get_self, adoptMetadata_get_self, if_neg hc, he]
          rfl
        have hst : dictGet (ensureKey ([] : List (String × PyVal)) "status" (.vdict []))
            "status" = some (.vdict []) := rfl
        simp only [merge_component_metadata, hmd, hst]
        rw [metaGet, dictGet_dictSet_self]
        dsimp only []
        rw [dictGet_dictSet_ne _ _ _ _ hk, ensureKey_get_ne _ _ _ _ hk, metaGet, he]
        rfl
    | some m1 =>
        cases m1 with
        | vdict md1 =>
            have hmd : dictGet (ensureKey (adoptMetadata e n) "metadata" (.vdict []))
                "metadata" = some (.vdict md1) := by
              rw [ensureKey_get_self, adoptMetadata_get_self, if_neg hc, he]
              rfl
            have hwfst : wfStatus (dictGet md1 "status") = true := by
              rw [he, wfMeta, Bool.and_eq_true] at hwfe
              exact hwfe.2
            obtain ⟨st0, hst⟩ := ensure_status_dict md1 hwfst
            simp only [merge_component_metadata, hmd, hst]
            rw [metaGet, dictGet_dictSet_self]
            dsimp only []
            rw [dictGet_dictSet_ne _ _ _ _ hk, ensureKey_get_ne _ _ _ _ hk, metaGet, he]
        | vnone => rw [he] at hwfe; simp [wfMeta] at hwfe
        | vbool b => rw [he] at hwfe; simp [wfMeta] at hwfe
        | vint m => rw [he] at hwfe; simp [wfMeta] at hwfe
        | vstr s1 => rw [he] at hwfe; simp [wfMeta] at hwfe
        | vlist l => rw [he] at hwfe; simp [wfMeta] at hwfe
        | vobj t => rw [he] at hwfe; simp [wfMeta] at hwfe

/-! Characterizing the component-map fold. -/

theorem nameOf_dictSet_source_repo (c : Comp) (v : PyVal) :
    nameOf (dictSet c "source_repo" v) = nameOf c :=
  dictGet_dictSet_ne c "source_repo" "name" v (by decide)

theorem nameOf_merge_component_metadata (e n : Comp) :
    nameOf (merge_component_metadata e n) = nameOf e :=
  merge_component_metadata_get_ne e n "name" (by decide)

theorem compFind_cons_eq (c0 : Comp) (cs : List Comp) {k : Option PyVal}
    (h : nameOf c0 = k) : (c0 :: cs).find? (fun c => nameOf c == k) = some c0 := by
  rw [List.find?, show (nameOf c0 == k) = true by simpa using h]

theorem compFind_cons_ne (c0 : Comp) (cs : List Comp) {k : Option PyVal}
    (h : nameOf c0 ≠ k) :
    (c0 :: cs).find? (fun c => nameOf c == k) = cs.find? (fun c => nameOf c == k) := by
  rw [List.find?, show (nameOf c0 == k) = false by simpa using h]

theorem compFind_eq_none (cs : List Comp) {k : Option PyVal}
    (h : k ∉ cs.map nameOf) : cs.find? (fun c => nameOf c == k) = none := by
  rw [List.find?_eq_none]
  intro c hc
  simp only [beq_iff_eq]
  intro he
  exact h (he ▸ List.mem_map_of_mem nameOf hc)

theorem foldAdd_find (src t : String) :
    ∀ (cs : List Comp) (m : CompMap) (k : Option PyVal),
      (cs.map nameOf).Nodup →
      assocFind (foldAdd m cs src t) k =
        if is_experimental_component k t then assocFind m k
        else
          match assocFind m k, cs.find? (fun c => nameOf c == k) with
          | some e, some c => some (merge_component_metadata e c)
          | some e, none => some e
          | none, some c => some (dictSet c "source_repo" (.vstr src))
          | none, none => none := by
  intro cs
  induction cs with
  | nil =>
      intro m k _
      rw [foldAdd]
      simp only [List.foldl_nil, List.find?]
      split
      · rfl
      · cases assocFind m k <;> rfl
  | cons c0 cs ih =>
      intro m k hnd
      simp only [List.map_cons, List.nodup_cons] at hnd
      obtain ⟨hn0, hnd'⟩ := hnd
      rw [foldAdd, List.foldl_cons, ← foldAdd]
      by_cases hexp : is_experimental_component (nameOf c0) t
      · have hstep : add_component_to_map m c0 src t = m := by
          simp only [add_component_to_map]
          rw [if_pos hexp]
        rw [hstep, ih m k hnd']
        by_cases hek : is_experimental_component k t
        · rw [if_pos hek, if_pos hek]
        · rw [if_neg hek, if_neg hek]
          have hne : nameOf c0 ≠ k := by
            intro he
            exact hek (he ▸ hexp)
          rw [compFind_cons_ne _ _ hne]
      · cases hm : assocFind m (nameOf c0) with
        | some e =>
            have hstep : add_component_to_map m c0 src t =
                assocReplace m (nameOf c0) (merge_component_metadata e c0) := by
              simp only [add_component_to_map]
              rw [if_neg hexp, hm]
            rw [hstep, ih _ k hnd']
            by_cases hek : is_experimental_component k t
            · rw [if_pos hek, if_pos hek]
              have hne : k ≠ nameOf c0 := by
                intro he
                exact hexp (he ▸ hek)
              exact assocFind_replace_ne _ _ _ _ hne
            · rw [if_neg hek, if_neg hek]
              by_cases hk : nameOf c0 = k
              · subst hk
                rw [assocFind_replace_self _ _ _ _ hm, hm,
                  compFind_cons_eq _ _ rfl, compFind_eq_none cs hn0]
              · rw [assocFind_replace_ne _ _ _ _ (Ne.symm hk), compFind_cons_ne _ _ hk]
        | none =>
            have hstep : add_component_to_map m c0 src t =
                m ++ [(nameOf c0, dictSet c0 "source_repo" (.vstr src))] := by
              simp only [add_component_to_map]
              rw [if_neg hexp, hm]
            rw [hstep, ih _ k hnd']
            by_cases hek : is_experimental_component k t
            · rw [if_pos hek, if_pos hek]
              have hne : k ≠ nameOf c0 := by
                intro he
                exact hexp (he ▸ hek)
              exact assocFind_append_single_ne _ _ _ _ hne
            · rw [if_neg hek, if_neg hek]
              by_cases hk : nameOf c0 = k
              · subst hk
                rw [assocFind_append_single_self _ _ _ hm, hm,
                  compFind_cons_eq _ _ rfl, compFind_eq_none cs hn0]
              · rw [assocFind_append_single_ne _ _ _ _ (Ne.symm hk),
                  compFind_cons_ne _ _ hk]

/-! Invariants of the fold, and the bridge to the sorted output list. -/

theorem foldAdd_name_inv (src t : String) :
    ∀ (cs : List Comp) (m : CompMap),
      (∀ p ∈ m, nameOf p.2 = p.1) →
      ∀ p ∈ foldAdd m cs src t, nameOf p.2 = p.1 := by
  intro cs
  induction cs with
  | nil => intro m hm; exact hm
  | cons c0 cs ih =>
      intro m hm
      rw [foldAdd, List.foldl_cons, ← foldAdd]
      apply ih
      intro p hp
      by_cases hexp : is_experimental_component (nameOf c0) t
      · rw [show add_component_to_map m c0 src t = m by
          simp only [add_component_to_map]; rw [if_pos hexp]] at hp
        exact hm p hp
      · cases hfound : assocFind m (nameOf c0) with
        | some e =>
            rw [show add_component_to_map m c0 src t =
                assocReplace m (nameOf c0) (merge_component_metadata e c0) by
              simp only [add_component_to_map]; rw [if_neg hexp, hfound]] at hp
            rcases mem_assocReplace hp with h | h
            · exact hm p h
            · subst h
              show nameOf (merge_component_metadata e c0) = nameOf c0
              rw [nameOf_merge_component_metadata]
              have := hm _ (assocFind_some_mem hfound)
              exact this
        | none =>
            rw [show add_component_to_map m c0 src t =
                m ++ [(nameOf c0, dictSet c0 "source_repo" (.vstr src))] by
              simp only [add_component_to_map]; rw [if_neg hexp, hfound]] at hp
            rcases List.mem_append.mp hp with h | h
            · exact hm p h
            · rw [List.mem_singleton] at h
              subst h
              exact nameOf_dictSet_source_repo c0 _

theorem foldAdd_keys_nodup (src t : String) :
    ∀ (cs : List Comp) (m : CompMap),
      (m.map Prod.fst).Nodup →
      ((foldAdd m cs src t).map Prod.fst).Nodup := by
  intro cs
  induction cs with
  | nil => intro m hm; exact hm
  | cons c0 cs ih =>
      intro m hm
      rw [foldAdd, List.foldl_cons, ← foldAdd]
      apply ih
      by_cases hexp : is_experimental_component (nameOf c0) t
      · rw [show add_component_to_map m c0 src t = m by
          simp only [add_component_to_map]; rw [if_pos hexp]]
        exact hm
      · cases hfound : assocFind m (nameOf c0) with
        | some e =>
            rw [show add_component_to_map m c0 src t =
                assocReplace m (nameOf c0) (merge_component_metadata e c0) by
              simp only [add_component_to_map]; rw [if_neg hexp, hfound]]
            rw [assocReplace_keys]
            exact hm
        | none =>
            rw [show add_component_to_map m c0 src t =
                m ++ [(nameOf c0, dictSet c0 "source_repo" (.vstr src))] by
              simp only [add_component_to_map]; rw [if_neg hexp, hfound]]
            rw [List.map_append]
            simp only [List.map_cons, List.map_nil]
            rw [List.nodup_append]
            refine ⟨hm, List.nodup_singleton _, ?_⟩
            intro a ha
            rw [List.mem_singleton]
            intro he
            subst he
            exact absurd hfound (by rw [assocFind_eq_none_iff]; simp [ha])

/-- First record with the given `name` value in a component list. -/
def findByName (l : List Comp) (n : Option PyVal) : Option Comp :=
  l.find? (fun c => nameOf c == n)

theorem findByName_of_mem_nodup {l : List Comp} (hnd : (l.map nameOf).Nodup)
    {x : Comp} (hx : x ∈ l) {n : Option PyVal} (hn : nameOf x = n) :
    findByName l n = some x := by
  induction l with
  | nil => cases hx
  | cons y l ih =>
      simp only [List.map_cons, List.nodup_cons] at hnd
      rcases List.mem_cons.mp hx with h | h
      · subst h
        exact compFind_cons_eq _ _ hn
      · have hne : nameOf y ≠ n := by
          intro he
          exact hnd.1 (by rw [he, ← hn]; exact List.mem_map_of_mem nameOf h)
        rw [findByName, compFind_cons_ne _ _ hne]
        exact ih hnd.2 h

/-- The per-type merged output characterized through the final map. -/
theorem mergeType_eq (core_inv contrib_inv : Inventory) (t : String) :
    mergeType core_inv contrib_inv t =
      ((foldAdd (foldAdd [] (invGet core_inv t) "core" t) (invGet contrib_inv t)
        "contrib" t).map Prod.snd).insertionSort
        (fun a b => strLeb (compName a) (compName b) = true) := rfl

theorem invGet_merge_inventories (core_inv contrib_inv : Inventory) (t : String) :
    invGet (merge_inventories core_inv contrib_inv) t =
      mergeType core_inv contrib_inv t := by
  rw [merge_inventories]
  have hgen : ∀ (ts : List String),
      invGet (ts.map (fun u => (u, mergeType core_inv contrib_inv u))) t =
        if t ∈ ts then mergeType core_inv contrib_inv t else [] := by
    intro ts
    induction ts with
    | nil => simp [invGet, List.find?]
    | cons t0 ts ih =>
        by_cases ht : t0 = t
        · subst ht
          simp [invGet, List.find?, List.mem_cons]
        · rw [List.map_cons]
          rw [show invGet ((t0, mergeType core_inv contrib_inv t0) ::
              ts.map (fun u => (u, mergeType core_inv contrib_inv u))) t =
              invGet (ts.map (fun u => (u, mergeType core_inv contrib_inv u))) t by
            rw [invGet, List.find?, show (((t0, mergeType core_inv contrib_inv t0)).1 == t) =
              false by simpa using ht, ← invGet]]
          rw [ih]
          by_cases hts : t ∈ ts
          · simp [hts]
          · simp [hts, Ne.symm ht]
  rw [hgen]
  split
  · rfl
  · rename_i hmem
    have hc : invGet core_inv t = [] := by
      rw [invGet, List.find?_eq_none.mpr]
      intro p hp
      simp only [beq_iff_eq]
      intro he
      exact hmem (by
        rw [List.mem_dedup, List.mem_append]
        exact Or.inl (he ▸ List.mem_map_of_mem Prod.fst hp))
    have hb : invGet contrib_inv t = [] := by
      rw [invGet, List.find?_eq_none.mpr]
      intro p hp
      simp only [beq_iff_eq]
      intro he
      exact hmem (by
        rw [List.mem_dedup, List.mem_append]
        exact Or.inr (he ▸ List.mem_map_of_mem Prod.fst hp))
    rw [mergeType_eq, hc, hb]
    rfl

/-! Sorted set-union facts and remaining plumbing. -/

theorem sortStrings_sorted (l : List String) :
    List.Sorted (· ≤ ·) (sortStrings l) := by
  haveI : IsTotal String (fun a b => strLeb a b = true) := ⟨fun a b => strLeb_total a b⟩
  haveI : IsTrans String (fun a b => strLeb a b = true) :=
    ⟨fun a b c h1 h2 => strLeb_trans h1 h2⟩
  have h := List.sorted_insertionSort (fun a b => strLeb a b = true) l
  exact h.imp (fun hab => (strLeb_iff_le _ _).mp hab)

theorem sortStrings_perm (l : List String) : (sortStrings l).Perm l :=
  List.perm_insertionSort _ l

theorem sortedSetUnion_sorted (a b : List String) :
    List.Sorted (· ≤ ·) (sortedSetUnion a b) :=
  sortStrings_sorted _

theorem sortedSetUnion_nodup (a b : List String) : (sortedSetUnion a b).Nodup :=
  ((sortStrings_perm _).nodup_iff).mpr (List.nodup_dedup _)

theorem sortedSetUnion_mem (a b : List String) (s : String) :
    s ∈ sortedSetUnion a b ↔ s ∈ a ∨ s ∈ b := by
  rw [sortedSetUnion, (sortStrings_perm _).mem_iff, List.mem_dedup, List.mem_append]

theorem dictGet_eq_none_iff (c : Comp) (k : String) :
    dictGet c k = none ↔ k ∉ c.map Prod.fst := by
  induction c with
  | nil => simp [dictGet, List.find?]
  | cons p c ih =>
      obtain ⟨k1, v1⟩ := p
      by_cases hk : k1 = k
      · rw [dictGet_cons_eq _ _ hk]
        simp [hk]
      · rw [dictGet_cons_ne _ _ hk]
        simp [hk, ih, Ne.symm hk]

theorem dictSet_keys_nodup (c : Comp) (k : String) (v : PyVal)
    (h : (c.map Prod.fst).Nodup) : ((dictSet c k v).map Prod.fst).Nodup := by
  cases hc : dictGet c k with
  | some w => rw [dictSet_keys c k v (by simp [hc])]; exact h
  | none =>
      rw [dictSet_of_absent c k v hc, List.map_append]
      simp only [List.map_cons, List.map_nil]
      rw [List.nodup_append]
      refine ⟨h, List.nodup_singleton _, ?_⟩
      intro a ha
      rw [List.mem_singleton]
      intro he
      exact (dictGet_eq_none_iff c k).mp hc (he ▸ ha)

theorem wfComp_dictSet_source_repo (c : Comp) (v : PyVal)
    (h : wfComp c = true) : wfComp (dictSet c "source_repo" v) = true := by
  rw [wfComp, Bool.and_eq_true, Bool.and_eq_true] at h ⊢
  refine ⟨⟨?_, ?_⟩, ?_⟩
  · rw [nodupStr_iff]
    exact dictSet_keys_nodup c _ v ((nodupStr_iff _).mp h.1.1)
  · rw [dictGet_dictSet_ne _ _ _ _ (by decide)]
    exact h.1.2
  · rw [dictGet_dictSet_ne _ _ _ _ (by decide)]
    exact h.2

theorem get_distributions_dictSet_source_repo (c : Comp) (v : PyVal) :
    get_distributions (dictSet c "source_repo" v) = get_distributions c := by
  rw [get_distributions, get_distributions, dictGet_dictSet_ne _ _ _ _ (by decide)]

theorem filterMap_vstr (l : List String) :
    (l.map PyVal.vstr).filterMap
      (fun v => match v with | .vstr s => some s | _ => none) = l := by
  induction l with
  | nil => rfl
  | cons s l ih => simp [List.filterMap_cons, ih]

theorem map_name_values (m : CompMap) (h : ∀ p ∈ m, nameOf p.2 = p.1) :
    (m.map Prod.snd).map nameOf = m.map Prod.fst := by
  rw [List.map_map]
  exact List.map_congr_left h

theorem assocFind_of_mem_nodup {m : CompMap} (hnd : (m.map Prod.fst).Nodup)
    {k : Option PyVal} {v : Comp} (hm : (k, v) ∈ m) : assocFind m k = some v := by
  induction m with
  | nil => cases hm
  | cons p m ih =>
      obtain ⟨k1, v1⟩ := p
      simp only [List.map_cons, List.nodup_cons] at hnd
      rcases List.mem_cons.mp hm with h | h
      · injection h with h1 h2
        subst h1; subst h2
        exact assocFind_cons_eq _ _ rfl
      · have hne : k1 ≠ k := by
          intro he
          exact hnd.1 (he ▸ List.mem_map_of_mem Prod.fst h)
        rw [assocFind_cons_ne _ _ hne]
        exact ih hnd.2 h

/-- Lookup in the final merged map, per name key, for a non-experimental
name. -/
theorem mergeType_map_find (core_inv contrib_inv : Inventory) (t : String)
    (hndB : ((invGet contrib_inv t).map nameOf).Nodup)
    (hndA : ((invGet core_inv t).map nameOf).Nodup)
    (k : Option PyVal) (hexp : is_experimental_component k t = false) :
    assocFind (foldAdd (foldAdd [] (invGet core_inv t) "core" t)
      (invGet contrib_inv t) "contrib" t) k =
      match findByName (invGet core_inv t) k, findByName (invGet contrib_inv t) k with
      | some c1, some c2 =>
          some (merge_component_metadata (dictSet c1 "source_repo" (.vstr "core")) c2)
      | some c1, none => some (dictSet c1 "source_repo" (.vstr "core"))
      | none, some c2 => some (dictSet c2 "source_repo" (.vstr "contrib"))
      | none, none => none := by
  rw [foldAdd_find "contrib" t _ _ k hndB, if_neg (by simp [hexp])]
  rw [foldAdd_find "core" t _ _ k hndA, if_neg (by simp [hexp])]
  rw [show assocFind [] k = none from rfl]
  rw [findByName, findByName]
  cases (invGet core_inv t).find? (fun c => nameOf c == k) with
  | some c1 => cases (invGet contrib_inv t).find? (fun c => nameOf c == k) <;> rfl
  | none => cases (invGet contrib_inv t).find? (fun c => nameOf c == k) <;> rfl

/-- The sorted per-type output is searchable through the final map: a
map entry is found by its name, and every output record is a map value
keyed by its own name. -/
theorem mergeType_find_bridge (core_inv contrib_inv : Inventory) (t : String)
    (hndA : ((invGet core_inv t).map nameOf).Nodup)
    (hndB : ((invGet contrib_inv t).map nameOf).Nodup) :
    (∀ (k : Option PyVal) (v : Comp),
       assocFind (foldAdd (foldAdd [] (invGet core_inv t) "core" t)
         (invGet contrib_inv t) "contrib" t) k = some v →
       findByName (mergeType core_inv contrib_inv t) k = some v ∧ nameOf v = k) ∧
    (∀ u ∈ mergeType core_inv contrib_inv t, ∃ k,
       assocFind (foldAdd (foldAdd [] (invGet core_inv t) "core" t)
         (invGet contrib_inv t) "contrib" t) k = some u ∧ nameOf u = k) := by
  have hinv1 : ∀ p ∈ foldAdd [] (invGet core_inv t) "core" t, nameOf p.2 = p.1 :=
    foldAdd_name_inv "core" t _ [] (by intro p hp; cases hp)
  have hinv2 : ∀ p ∈ foldAdd (foldAdd [] (invGet core_inv t) "core" t)
      (invGet contrib_inv t) "contrib" t, nameOf p.2 = p.1 :=
    foldAdd_name_inv "contrib" t _ _ hinv1
  have hkeys1 : ((foldAdd [] (invGet core_inv t) "core" t).map Prod.fst).Nodup :=
    foldAdd_keys_nodup "core" t _ [] (by simp)
  have hkeys2 : ((foldAdd (foldAdd [] (invGet core_inv t) "core" t)
      (invGet contrib_inv t) "contrib" t).map Prod.fst).Nodup :=
    foldAdd_keys_nodup "contrib" t _ _ hkeys1
  have hperm : (mergeType core_inv contrib_inv t).Perm
      ((foldAdd (foldAdd [] (invGet core_inv t) "core" t)
        (invGet contrib_inv t) "contrib" t).map Prod.snd) := by
    rw [mergeType_eq]
    exact List.perm_insertionSort _ _
  have hnames : ((mergeType core_inv contrib_inv t).map nameOf).Nodup := by
    have h1 := hperm.map nameOf
    rw [map_name_values _ hinv2] at h1
    exact h1.nodup_iff.mpr hkeys2
  constructor
  · intro k v hv
    have hmem : (k, v) ∈ foldAdd (foldAdd [] (invGet core_inv t) "core" t)
        (invGet contrib_inv t) "contrib" t := assocFind_some_mem hv
    have hname : nameOf v = k := hinv2 _ hmem
    have hvout : v ∈ mergeType core_inv contrib_inv t :=
      hperm.mem_iff.mpr (by
        exact List.mem_map_of_mem Prod.snd hmem)
    exact ⟨findByName_of_mem_nodup hnames hvout hname, hname⟩
  · intro u hu
    have humem : u ∈ (foldAdd (foldAdd [] (invGet core_inv t) "core" t)
        (invGet contrib_inv t) "contrib" t).map Prod.snd := hperm.mem_iff.mp hu
    rw [List.mem_map] at humem
    obtain ⟨p, hp, hpu⟩ := humem
    refine ⟨p.1, ?_, ?_⟩
    · rw [← hpu] at *
      exact assocFind_of_mem_nodup hkeys2 (by
        obtain ⟨k1, v1⟩ := p
        exact hp)
    · rw [← hpu]
      exact hinv2 _ hp

/-- C2 (counterexample): contrib's metadata block is NOT adopted only
when the core entry had none.  The adoption test is on truthiness
(`if new.get("metadata") and not existing.get("metadata")`), so a core
entry with a present-but-empty `metadata: {}` block still has
contrib's block adopted wholesale: merging core
`{"name": "f", "metadata": {}}` with contrib
`{"name": "f", "metadata": {"type": "t"}}` yields a merged metadata
block containing contrib's `"type"` key, which the core block never
had. -/
theorem c2_counterexample :
    ¬ (∀ (c1 c2 : Comp), wfComp c1 = true → wfComp c2 = true →
        dictHasKey c1 "metadata" = true →
        ∀ (k : String) (v : PyVal), k ≠ "status" →
          metaGet (merge_component_metadata c1 c2) k = some v →
          (metaGet c1 k).isSome = true) := by
  intro h
  have h2 := h [("name", .vstr "f"), ("metadata", .vdict [])]
    [("name", .vstr "f"), ("metadata", .vdict [("type", .vstr "t")])]
    (by decide) (by decide) (by decide) "type" (.vstr "t") (by decide) (by decide)
  exact absurd h2 (by decide)

/-- C2 (amended): for every pair of core/contrib inventories with
well-formed, name-unique component lists, the merged output for each
component type is sorted by name; a component present only in core
appears with `source_repo = "core"` and one present only in contrib
with `source_repo = "contrib"` (each as a copy of its input record); a
name present in both keeps `source_repo = "core"`, carries
`metadata.status.distributions` equal to the sorted, deduplicated
union of both sides' distributions, and at every other metadata key
reads from contrib's metadata block exactly when contrib's block is
truthy and core's is absent or falsy (an empty block also triggers
adoption — not only a missing one), otherwise from core's; a component
named exactly `"x" + componentType` never appears in the merged
output. -/
theorem c2_merge_inventories_per_type :
    ∀ (core_inv contrib_inv : Inventory) (t : String),
      (∀ c ∈ invGet core_inv t, wfComp c = true) →
      (∀ c ∈ invGet contrib_inv t, wfComp c = true) →
      ((invGet core_inv t).map nameOf).Nodup →
      ((invGet contrib_inv t).map nameOf).Nodup →
      List.Sorted (fun a b : Comp => compName a ≤ compName b)
        (invGet (merge_inventories core_inv contrib_inv) t) ∧
      (∀ u ∈ invGet (merge_inventories core_inv contrib_inv) t,
        nameOf u ≠ some (.vstr ("x" ++ t))) ∧
      (∀ c1 ∈ invGet core_inv t, is_experimental_component (nameOf c1) t = false →
        nameOf c1 ∉ (invGet contrib_inv t).map nameOf →
        findByName (invGet (merge_inventories core_inv contrib_inv) t) (nameOf c1) =
          some (dictSet c1 "source_repo" (.vstr "core"))) ∧
      (∀ c2 ∈ invGet contrib_inv t, is_experimental_component (nameOf c2) t = false →
        nameOf c2 ∉ (invGet core_inv t).map nameOf →
        findByName (invGet (merge_inventories core_inv contrib_inv) t) (nameOf c2) =
          some (dictSet c2 "source_repo" (.vstr "contrib"))) ∧
      (∀ c1 ∈ invGet core_inv t, ∀ c2 ∈ invGet contrib_inv t,
        nameOf c1 = nameOf c2 →
        is_experimental_component (nameOf c1) t = false →
        ∃ u, findByName (invGet (merge_inventories core_inv contrib_inv) t) (nameOf c1) =
            some u ∧
          dictGet u "source_repo" = some (.vstr "core") ∧
          List.Sorted (· ≤ ·) (get_distributions u) ∧
          (get_distributions u).Nodup ∧
          (∀ s, s ∈ get_distributions u ↔
            s ∈ get_distributions c1 ∨ s ∈ get_distributions c2) ∧
          (∀ k : String, k ≠ "status" →
            metaGet u k = if (metaTruthy c2 && !(metaTruthy c1)) = true
              then metaGet c2 k else metaGet c1 k)) := by
  intro core_inv contrib_inv t hwfA hwfB hndA hndB
  rw [invGet_merge_inventories]
  obtain ⟨bridge1, bridge2⟩ := mergeType_find_bridge core_inv contrib_inv t hndA hndB
  refine ⟨?_, ?_, ?_, ?_, ?_⟩
  · -- sorted by name
    rw [mergeType_eq]
    haveI : IsTotal Comp (fun a b => strLeb (compName a) (compName b) = true) :=
      ⟨fun a b => strLeb_total _ _⟩
    haveI : IsTrans Comp (fun a b => strLeb (compName a) (compName b) = true) :=
      ⟨fun a b c h1 h2 => strLeb_trans h1 h2⟩
    exact (List.sorted_insertionSort _ _).imp (fun hab => (strLeb_iff_le _ _).mp hab)
  · -- no experimental names in the output
    intro u hu hnm
    obtain ⟨k, hfind, hname⟩ := bridge2 u hu
    have hexp : is_experimental_component k t = true := by
      rw [is_experimental_component, ← hname, hnm]
      simp
    rw [foldAdd_find "contrib" t _ _ k hndB, if_pos hexp,
      foldAdd_find "core" t _ _ k hndA, if_pos hexp] at hfind
    cases hfind
  · -- core only
    intro c1 hc1 hexp hnb
    have hfA : findByName (invGet core_inv t) (nameOf c1) = some c1 :=
      findByName_of_mem_nodup hndA hc1 rfl
    have hfB : findByName (invGet contrib_inv t) (nameOf c1) = none :=
      compFind_eq_none _ hnb
    have hfind := mergeType_map_find core_inv contrib_inv t hndB hndA (nameOf c1) hexp
    rw [hfA, hfB] at hfind
    exact (bridge1 _ _ hfind).1
  · -- contrib only
    intro c2 hc2 hexp hna
    have hfB : findByName (invGet contrib_inv t) (nameOf c2) = some c2 :=
      findByName_of_mem_nodup hndB hc2 rfl
    have hfA : findByName (invGet core_inv t) (nameOf c2) = none :=
      compFind_eq_none _ hna
    have hfind := mergeType_map_find core_inv contrib_inv t hndB hndA (nameOf c2) hexp
    rw [hfA, hfB] at hfind
    exact (bridge1 _ _ hfind).1
  · -- both sides
    intro c1 hc1 c2 hc2 hname hexp
    have hfA : findByName (invGet core_inv t) (nameOf c1) = some c1 :=
      findByName_of_mem_nodup hndA hc1 rfl
    have hfB : findByName (invGet contrib_inv t) (nameOf c1) = some c2 :=
      findByName_of_mem_nodup hndB hc2 hname.symm
    have hfind := mergeType_map_find core_inv contrib_inv t hndB hndA (nameOf c1) hexp
    rw [hfA, hfB] at hfind
    refine ⟨merge_component_metadata (dictSet c1 "source_repo" (.vstr "core")) c2,
      (bridge1 _ _ hfind).1, ?_, ?_⟩
    · rw [merge_component_metadata_get_ne _ _ _ (by decide), dictGet_dictSet_self]
    · obtain ⟨md, st, hmd, hst, hd⟩ :=
        merge_component_metadata_spec (dictSet c1 "source_repo" (.vstr "core")) c2
          (wfComp_dictSet_source_repo c1 _ (hwfA c1 hc1)) (hwfB c2 hc2)
      have hdists : get_distributions
          (merge_component_metadata (dictSet c1 "source_repo" (.vstr "core")) c2) =
          sortedSetUnion (get_distributions c1) (get_distributions c2) := by
        rw [get_distributions, hmd]
        dsimp only []
        rw [hst]
        dsimp only []
        rw [hd]
        dsimp only []
        rw [filterMap_vstr, get_distributions_dictSet_source_repo]
      rw [hdists]
      refine ⟨sortedSetUnion_sorted _ _, sortedSetUnion_nodup _ _,
        fun s => sortedSetUnion_mem _ _ s, ?_⟩
      intro k hk
      have hmm := merge_component_metadata_meta_ne
        (dictSet c1 "source_repo" (.vstr "core")) c2 k hk
        (wfComp_dictSet_source_repo c1 _ (hwfA c1 hc1)) (hwfB c2 hc2)
      rw [hmm, metaTruthy_dictSet_source_repo, metaGet_dictSet_source_repo]

/-- Concrete core inventory used by the merge witnesses. -/
def coreInvEx : Inventory :=
  [("receiver",
    [[("name", .vstr "otlpreceiver"),
      ("metadata", .vdict [("status", .vdict [("distributions", .vlist [.vstr "core"])])])],
     [("name", .vstr "nopreceiver")]])]

/-- Concrete contrib inventory used by the merge witnesses. -/
def contribInvEx : Inventory :=
  [("receiver",
    [[("name", .vstr "otlpreceiver"),
      ("metadata", .vdict [("status", .vdict [("distributions", .vlist [.vstr "contrib"])])])],
     [("name", .vstr "zipkinreceiver")],
     [("name", .vstr "xreceiver")],
     [("name", .vstr "nopreceiver")]])]

/-- Witness for C2 at concrete inventories. -/
theorem c2_merge_inventories_per_type_witness :
    (∀ c ∈ invGet coreInvEx "receiver", wfComp c = true) ∧
    (∀ c ∈ invGet contribInvEx "receiver", wfComp c = true) ∧
    ((invGet coreInvEx "receiver").map nameOf).Nodup ∧
    ((invGet contribInvEx "receiver").map nameOf).Nodup ∧
    findByName (invGet (merge_inventories coreInvEx contribInvEx) "receiver")
      (some (.vstr "zipkinreceiver")) =
      some [("name", .vstr "zipkinreceiver"), ("source_repo", .vstr "contrib")] ∧
    (∀ u ∈ invGet (merge_inventories coreInvEx contribInvEx) "receiver",
      nameOf u ≠ some (.vstr ("x" ++ "receiver"))) := by
  refine ⟨by decide, by decide, by decide, by decide, ?_, ?_⟩
  · have h := (c2_merge_inventories_per_type coreInvEx contribInvEx "receiver"
      (by decide) (by decide) (by decide) (by decide)).2.2.2.1
    exact h [("name", .vstr "zipkinreceiver")] (by decide) (by decide) (by decide)
  · exact (c2_merge_inventories_per_type coreInvEx contribInvEx "receiver"
      (by decide) (by decide) (by decide) (by decide)).2.1

/-- C9: when the same name appears on both sides, the merged entry
always carries the key path `metadata.status.distributions` holding the
sorted union — even when neither side had any metadata, in which case
the merged entry is the core copy extended with the synthesized
`metadata = {"status": {"distributions": []}}`; a component present on
only one side is returned as its input record with only `source_repo`
set, with no synthesized metadata. -/
theorem c9_merged_metadata_shape :
    ∀ (core_inv contrib_inv : Inventory) (t : String),
      (∀ c ∈ invGet core_inv t, wfComp c = true) →
      (∀ c ∈ invGet contrib_inv t, wfComp c = true) →
      ((invGet core_inv t).map nameOf).Nodup →
      ((invGet contrib_inv t).map nameOf).Nodup →
      (∀ c1 ∈ invGet core_inv t, ∀ c2 ∈ invGet contrib_inv t,
        nameOf c1 = nameOf c2 →
        is_experimental_component (nameOf c1) t = false →
        ∃ u md st,
          findByName (invGet (merge_inventories core_inv contrib_inv) t) (nameOf c1) =
            some u ∧
          dictGet u "metadata" = some (.vdict md) ∧
          dictGet md "status" = some (.vdict st) ∧
          dictGet st "distributions" = some (.vlist
            ((sortedSetUnion (get_distributions c1) (get_distributions c2)).map
              PyVal.vstr)) ∧
          (dictGet c1 "metadata" = none → dictGet c2 "metadata" = none →
            u = dictSet c1 "source_repo" (.vstr "core") ++
              [("metadata", .vdict [("status", .vdict [("distributions", .vlist [])])])])) ∧
      (∀ c1 ∈ invGet core_inv t, is_experimental_component (nameOf c1) t = false →
        nameOf c1 ∉ (invGet contrib_inv t).map nameOf →
        findByName (invGet (merge_inventories core_inv contrib_inv) t) (nameOf c1) =
          some (dictSet c1 "source_repo" (.vstr "core"))) ∧
      (∀ c2 ∈ invGet contrib_inv t, is_experimental_component (nameOf c2) t = false →
        nameOf c2 ∉ (invGet core_inv t).map nameOf →
        findByName (invGet (merge_inventories core_inv contrib_inv) t) (nameOf c2) =
          some (dictSet c2 "source_repo" (.vstr "contrib"))) := by
  intro core_inv contrib_inv t hwfA hwfB hndA hndB
  rw [invGet_merge_inventories]
  obtain ⟨bridge1, _⟩ := mergeType_find_bridge core_inv contrib_inv t hndA hndB
  refine ⟨?_, ?_, ?_⟩
  · intro c1 hc1 c2 hc2 hname hexp
    have hfA : findByName (invGet core_inv t) (nameOf c1) = some c1 :=
      findByName_of_mem_nodup hndA hc1 rfl
    have hfB : findByName (invGet contrib_inv t) (nameOf c1) = some c2 :=
      findByName_of_mem_nodup hndB hc2 hname.symm
    have hfind := mergeType_map_find core_inv contrib_inv t hndB hndA (nameOf c1) hexp
    rw [hfA, hfB] at hfind
    obtain ⟨md, st, hmd, hst, hd⟩ :=
      merge_component_metadata_spec (dictSet c1 "source_repo" (.vstr "core")) c2
        (wfComp_dictSet_source_repo c1 _ (hwfA c1 hc1)) (hwfB c2 hc2)
    rw [get_distributions_dictSet_source_repo] at hd
    refine ⟨merge_component_metadata (dictSet c1 "source_repo" (.vstr "core")) c2,
      md, st, (bridge1 _ _ hfind).1, hmd, hst, hd, ?_⟩
    intro h1 h2
    exact merge_component_metadata_no_meta _ _
      (by rw [dictGet_dictSet_ne _ _ _ _ (by decide)]; exact h1) h2
  · intro c1 hc1 hexp hnb
    have hfA : findByName (invGet core_inv t) (nameOf c1) = some c1 :=
      findByName_of_mem_nodup hndA hc1 rfl
    have hfB : findByName (invGet contrib_inv t) (nameOf c1) = none :=
      compFind_eq_none _ hnb
    have hfind := mergeType_map_find core_inv contrib_inv t hndB hndA (nameOf c1) hexp
    rw [hfA, hfB] at hfind
    exact (bridge1 _ _ hfind).1
  · intro c2 hc2 hexp hna
    have hfB : findByName (invGet contrib_inv t) (nameOf c2) = some c2 :=
      findByName_of_mem_nodup hndB hc2 rfl
    have hfA : findByName (invGet core_inv t) (nameOf c2) = none :=
      compFind_eq_none _ hna
    have hfind := mergeType_map_find core_inv contrib_inv t hndB hndA (nameOf c2) hexp
    rw [hfA, hfB] at hfind
    exact (bridge1 _ _ hfind).1

/-- Witness for C9: same name on both sides with no metadata at all gets
the synthesized empty-distributions metadata block. -/
theorem c9_merged_metadata_shape_witness :
    (∀ c ∈ invGet coreInvEx "receiver", wfComp c = true) ∧
    (∀ c ∈ invGet contribInvEx "receiver", wfComp c = true) ∧
    ((invGet coreInvEx "receiver").map nameOf).Nodup ∧
    ((invGet contribInvEx "receiver").map nameOf).Nodup ∧
    ∃ u md st,
      findByName (invGet (merge_inventories coreInvEx contribInvEx) "receiver")
        (some (.vstr "nopreceiver")) = some u ∧
      dictGet u "metadata" = some (.vdict md) ∧
      dictGet md "status" = some (.vdict st) ∧
      dictGet st "distributions" = some (.vlist []) ∧
      u = [("name", .vstr "nopreceiver"), ("source_repo", .vstr "core"),
        ("metadata", .vdict [("status", .vdict [("distributions", .vlist [])])])] := by
  refine ⟨by decide, by decide, by decide, by decide, ?_⟩
  have h := (c9_merged_metadata_shape coreInvEx contribInvEx "receiver"
    (by decide) (by decide) (by decide) (by decide)).1
  obtain ⟨u, md, st, hfind, hmd, hst, hd, hsynth⟩ :=
    h [("name", .vstr "nopreceiver")] (by decide) [("name", .vstr "nopreceiver")]
      (by decide) (by decide) (by decide)
  refine ⟨u, md, st, hfind, hmd, hst, ?_, ?_⟩
  · exact hd
  · exact hsynth (by decide) (by decide)

/-!
## `version.py`: `Version.from_string`

Strings are modelled as their character lists for the parsing lemmas
(Python strings are character sequences; digits are ASCII here).
-/

/-- The collector-watcher `Version` dataclass. -/
structure Version where
  major : Nat
  minor : Nat
  patch : Nat
  is_snapshot : Bool
deriving DecidableEq, Repr

/-- The characters of the `-SNAPSHOT` suffix. -/
def snapshotChars : List Char := "-SNAPSHOT".data

/-- One pass of Python's `str.replace("-SNAPSHOT", "")`: scan left to
right, deleting each non-overlapping occurrence.  The recursion is
fuelled by the string length (each step consumes at least one
character, so the fuel never runs out when it starts at the length). -/
def removeSnapGo : Nat → List Char → List Char
  | 0, s => s
  | _ + 1, [] => []
  | f + 1, c :: cs =>
      if snapshotChars.isPrefixOf (c :: cs) then removeSnapGo f ((c :: cs).drop 9)
      else c :: removeSnapGo f cs

/-- `version_str.replace("-SNAPSHOT", "")`. -/
def removeSnapshots (s : List Char) : List Char :=
  removeSnapGo s.length s

/-- Splitting at `'.'` (the semantics of matching `^(\d+)\.(\d+)\.(\d+)$`
is: exactly three dot-separated all-digit nonempty groups). -/
def splitDots : List Char → List (List Char)
  | [] => [[]]
  | c :: cs =>
      if c = '.' then [] :: splitDots cs
      else
        match splitDots cs with
        | g :: gs => (c :: g) :: gs
        | [] => [[c]]

/-- `int()` on a digit string. -/
def digitsToNat (s : List Char) : Nat :=
  s.foldl (fun n c => n * 10 + (c.toNat - 48)) 0

/-- The `re.match(r"^(\d+)\.(\d+)\.(\d+)$", s3)` step followed by group
extraction: exactly three nonempty all-digit dot-separated groups, or
the `ValueError` carrying the (post-replace) string `s2`. -/
def parseGroups (s3 : List Char) (is_snapshot : Bool) (s2 : List Char) :
    Except String Version :=
  match splitDots s3 with
  | [a, b, c] =>
      if a ≠ [] ∧ a.all Char.isDigit ∧ b ≠ [] ∧ b.all Char.isDigit ∧
          c ≠ [] ∧ c.all Char.isDigit
      then .ok ⟨digitsToNat a, digitsToNat b, digitsToNat c, is_snapshot⟩
      else .error ("Invalid version string: " ++ String.mk s2)
  | _ => .error ("Invalid version string: " ++ String.mk s2)

/-- `Version.from_string(version_str)`: strip leading `'v'` characters
(`lstrip("v")` removes every leading `'v'`), test for the `-SNAPSHOT`
suffix and, when present, delete every `-SNAPSHOT` occurrence
(`str.replace` replaces all of them), then require
`re.match(r"^(\d+)\.(\d+)\.(\d+)$", s)` to succeed.  Python regex
semantics: `$` matches at the end of the string or just before one
trailing newline, so a single trailing `'\n'` is tolerated (modelled
by `s3`).  Digits are modelled as ASCII digits; Python's `\d` also
matches non-ASCII Unicode decimal digits, so the theorems below
quantify over ASCII inputs only. -/
def from_string (version_str : String) : Except String Version :=
  let s1 := version_str.data.dropWhile (· == 'v')
  let is_snapshot := snapshotChars.isSuffixOf s1
  let s2 := if is_snapshot then removeSnapshots s1 else s1
  let s3 := if s2.getLast? = some '\n' then s2.dropLast else s2
  parseGroups s3 is_snapshot s2

example : from_string "v0.112.0" = .ok ⟨0, 112, 0, false⟩ := by decide
example : from_string "v0.113.0-SNAPSHOT" = .ok ⟨0, 113, 0, true⟩ := by decide
example : from_string "vv0.1.0" = .ok ⟨0, 1, 0, false⟩ := by decide
example : from_string "0.1" = .error "Invalid version string: 0.1" := by decide
example : from_string "1.2.3-SNAP" = .error "Invalid version string: 1.2.3-SNAP" := by decide
example : from_string "1.2.3\n" = .ok ⟨1, 2, 3, false⟩ := by decide
example : from_string "v1.2.3\n-SNAPSHOT" = .ok ⟨1, 2, 3, true⟩ := by decide
example : from_string "1.2.3\n\n" = .error "Invalid version string: 1.2.3\n\n" := by decide
example : from_string "1.2.3-SNAPSHOT\n" =
  .error "Invalid version string: 1.2.3-SNAPSHOT\n" := by decide

/-- The shape claimed for valid inputs: at most one leading `'v'`, three
nonempty all-digit dot-separated groups, optional exact `-SNAPSHOT`
suffix. -/
def strictShape (s : List Char) : Prop :=
  ∃ (v snap : Bool) (a b c : List Char),
    (a ≠ [] ∧ a.all Char.isDigit = true) ∧
    (b ≠ [] ∧ b.all Char.isDigit = true) ∧
    (c ≠ [] ∧ c.all Char.isDigit = true) ∧
    s = (if v then ['v'] else []) ++
      (a ++ ('.' :: (b ++ ('.' :: (c ++ (if snap then snapshotChars else []))))))

/-- The shape actually accepted (for ASCII inputs with at most one
`'-'`): any number of leading `'v'` characters, three digit groups,
an optional single newline (tolerated by `$` in the regex), then the
optional `-SNAPSHOT` suffix (tested on the string before the newline
is considered, hence the newline sits before the suffix). -/
def relaxedShape (s : List Char) : Prop :=
  ∃ (k : Nat) (nl snap : Bool) (a b c : List Char),
    (a ≠ [] ∧ a.all Char.isDigit = true) ∧
    (b ≠ [] ∧ b.all Char.isDigit = true) ∧
    (c ≠ [] ∧ c.all Char.isDigit = true) ∧
    s = List.replicate k 'v' ++
      (a ++ ('.' :: (b ++ ('.' :: (c ++ ((if nl then ['\n'] else []) ++
        (if snap then snapshotChars else [])))))))

theorem removeSnapGo_nil : ∀ f, removeSnapGo f [] = [] := by
  intro f
  cases f <;> rfl

theorem removeSnapGo_no_dash : ∀ (f : Nat) (s : List Char),
    '-' ∉ s → removeSnapGo f s = s := by
  intro f
  induction f with
  | zero => intro s _; rfl
  | succ f ih =>
      intro s hs
      cases s with
      | nil => rfl
      | cons c cs =>
          have hc : ('-' == c) = false := by
            simp only [beq_eq_false_iff_ne, ne_eq]
            intro h
            exact hs (h ▸ List.mem_cons_self _ _)
          have hpre : snapshotChars.isPrefixOf (c :: cs) = false := by
            rw [show snapshotChars.isPrefixOf (c :: cs) =
              (('-' == c) && ("SNAPSHOT".data.isPrefixOf cs)) from rfl, hc, Bool.false_and]
          rw [removeSnapGo, if_neg (by simp [hpre])]
          rw [ih cs (fun h => hs (List.mem_cons_of_mem _ h))]

theorem removeSnapGo_strip : ∀ (body : List Char) (f : Nat),
    '-' ∉ body → body.length + 1 ≤ f →
    removeSnapGo f (body ++ snapshotChars) = body := by
  intro body
  induction body with
  | nil =>
      intro f _ hf
      cases f with
      | zero => omega
      | succ f =>
          rw [List.nil_append,
            show removeSnapGo (f + 1) snapshotChars = removeSnapGo f [] from rfl,
            removeSnapGo_nil]
  | cons c cs ih =>
      intro f hnd hf
      cases f with
      | zero => omega
      | succ f =>
          have hc : ('-' == c) = false := by
            simp only [beq_eq_false_iff_ne, ne_eq]
            intro h
            exact hnd (h ▸ List.mem_cons_self _ _)
          have hpre : snapshotChars.isPrefixOf (c :: (cs ++ snapshotChars)) = false := by
            rw [show snapshotChars.isPrefixOf (c :: (cs ++ snapshotChars)) =
              (('-' == c) && ("SNAPSHOT".data.isPrefixOf (cs ++ snapshotChars))) from rfl,
              hc, Bool.false_and]
          rw [List.cons_append, removeSnapGo, if_neg (by simp [hpre])]
          rw [ih f (fun h => hnd (List.mem_cons_of_mem _ h)) (by simp at hf; omega)]

theorem removeSnapshots_strip (body : List Char) (hnd : '-' ∉ body) :
    removeSnapshots (body ++ snapshotChars) = body := by
  rw [removeSnapshots]
  exact removeSnapGo_strip body _ hnd (by simp [snapshotChars])

/-- Join groups back with dots (inverse view of `splitDots`). -/
def joinDots : List (List Char) → List Char
  | [] => []
  | [g] => g
  | g :: gs => g ++ ('.' :: joinDots gs)

theorem splitDots_ne_nil : ∀ s, splitDots s ≠ [] := by
  intro s
  cases s with
  | nil => simp [splitDots]
  | cons c cs =>
      rw [splitDots]
      split
      · simp
      · cases h : splitDots cs <;> simp

theorem splitDots_join : ∀ s, joinDots (splitDots s) = s := by
  intro s
  induction s with
  | nil => rfl
  | cons c cs ih =>
      rw [splitDots]
      by_cases hc : c = '.'
      · rw [if_pos hc]
        cases hsp : splitDots cs with
        | nil => exact absurd hsp (splitDots_ne_nil cs)
        | cons g gs =>
            rw [hsp] at ih
            rw [show joinDots ([] :: g :: gs) = [] ++ ('.' :: joinDots (g :: gs)) from rfl, ih,
              List.nil_append, hc]
      · rw [if_neg hc]
        cases hsp : splitDots cs with
        | nil => exact absurd hsp (splitDots_ne_nil cs)
        | cons g gs =>
            rw [hsp] at ih
            cases gs with
            | nil =>
                rw [show joinDots [c :: g] = c :: g from rfl]
                rw [show joinDots [g] = g from rfl] at ih
                rw [ih]
            | cons g2 gs2 =>
                rw [show joinDots ((c :: g) :: g2 :: gs2) =
                  (c :: g) ++ ('.' :: joinDots (g2 :: gs2)) from rfl]
                rw [show joinDots (g :: g2 :: gs2) =
                  g ++ ('.' :: joinDots (g2 :: gs2)) from rfl] at ih
                rw [List.cons_append, ih]

theorem splitDots_no_dot : ∀ s g, g ∈ splitDots s → '.' ∉ g := by
  intro s
  induction s with
  | nil =>
      intro g hg
      rw [splitDots] at hg
      simp at hg
      simp [hg]
  | cons c cs ih =>
      intro g hg
      rw [splitDots] at hg
      by_cases hc : c = '.'
      · rw [if_pos hc] at hg
        rcases List.mem_cons.mp hg with h | h
        · simp [h]
        · exact ih g h
      · rw [if_neg hc] at hg
        cases hsp : splitDots cs with
        | nil => exact absurd hsp (splitDots_ne_nil cs)
        | cons g0 gs =>
            rw [hsp] at hg
            rcases List.mem_cons.mp hg with h | h
            · subst h
              intro hmem
              rcases List.mem_cons.mp hmem with h' | h'
              · exact hc h'.symm
              · exact ih g0 (hsp ▸ List.mem_cons_self _ _) h'
            · exact ih g (hsp ▸ List.mem_cons_of_mem _ h)

theorem splitDots_group_append (a rest : List Char) (h : '.' ∉ a) :
    splitDots (a ++ ('.' :: rest)) = a :: splitDots rest := by
  induction a with
  | nil => simp [splitDots]
  | cons c as ih =>
      have hc : c ≠ '.' := fun he => h (he ▸ List.mem_cons_self _ _)
      rw [List.cons_append, splitDots, if_neg hc,
        ih (fun hm => h (List.mem_cons_of_mem _ hm))]

theorem splitDots_no_dot_eq (c : List Char) (h : '.' ∉ c) : splitDots c = [c] := by
  induction c with
  | nil => rfl
  | cons x xs ih =>
      have hx : x ≠ '.' := fun he => h (he ▸ List.mem_cons_self _ _)
      rw [splitDots, if_neg hx, ih (fun hm => h (List.mem_cons_of_mem _ hm))]

theorem lstrip_v_decomp (s : List Char) :
    s = List.replicate (s.takeWhile (· == 'v')).length 'v' ++ s.dropWhile (· == 'v') := by
  conv_lhs => rw [← List.takeWhile_append_dropWhile (p := (· == 'v')) (l := s)]
  congr 1
  apply List.eq_replicate_length.mpr
  intro b hb
  have := List.mem_takeWhile_imp hb
  simpa using this

theorem dropWhile_v_replicate (k : Nat) (rest : List Char) :
    (List.replicate k 'v' ++ rest).dropWhile (· == 'v') = rest.dropWhile (· == 'v') := by
  induction k with
  | zero => simp
  | succ k ih => simp [List.replicate_succ, List.dropWhile_cons, ih]

theorem dropWhile_v_digit_head (a0 : Char) (t : List Char) (h : a0.isDigit = true) :
    (a0 :: t).dropWhile (· == 'v') = a0 :: t := by
  have hne : (a0 == 'v') = false := by
    simp only [beq_eq_false_iff_ne, ne_eq]
    intro he
    rw [he] at h
    exact absurd h (by decide)
  rw [List.dropWhile_cons, hne]
  simp

theorem not_mem_of_all_digit (ch : Char) (hch : ch.isDigit = false) (g : List Char)
    (hg : g.all Char.isDigit = true) : ch ∉ g := by
  intro hm
  have := List.all_eq_true.mp hg ch hm
  rw [hch] at this
  exact absurd this (by decide)

theorem splitDots_digit_body (a b c : List Char)
    (ha : a.all Char.isDigit = true) (hb : b.all Char.isDigit = true)
    (hc : c.all Char.isDigit = true) :
    splitDots (a ++ ('.' :: (b ++ ('.' :: c)))) = [a, b, c] := by
  rw [splitDots_group_append a _ (not_mem_of_all_digit '.' (by decide) a ha),
    splitDots_group_append b _ (not_mem_of_all_digit '.' (by decide) b hb),
    splitDots_no_dot_eq c (not_mem_of_all_digit '.' (by decide) c hc)]

theorem dash_not_mem_body (a b c : List Char)
    (ha : a.all Char.isDigit = true) (hb : b.all Char.isDigit = true)
    (hc : c.all Char.isDigit = true) :
    '-' ∉ a ++ ('.' :: (b ++ ('.' :: c))) := by
  intro hm
  rcases List.mem_append.mp hm with h | h
  · exact not_mem_of_all_digit '-' (by decide) a ha h
  · rcases List.mem_cons.mp h with h | h
    · exact absurd h (by decide)
    · rcases List.mem_append.mp h with h | h
      · exact not_mem_of_all_digit '-' (by decide) b hb h
      · rcases List.mem_cons.mp h with h | h
        · exact absurd h (by decide)
        · exact not_mem_of_all_digit '-' (by decide) c hc h

theorem joinDots_three (a b c : List Char) :
    joinDots [a, b, c] = a ++ ('.' :: (b ++ ('.' :: c))) := rfl

theorem splitDots_three_decomp (X a b c : List Char) (hsp : splitDots X = [a, b, c]) :
    X = a ++ ('.' :: (b ++ ('.' :: c))) := by
  conv_lhs => rw [← splitDots_join X, hsp]
  exact joinDots_three a b c

theorem digit_ne_newline {ch : Char} (h : ch.isDigit = true) : ch ≠ '\n' := by
  intro he
  rw [he] at h
  exact absurd h (by decide)

theorem dropLast_decomp : ∀ {l : List Char} {ch : Char}, l.getLast? = some ch →
    l = l.dropLast ++ [ch] := by
  intro l
  induction l with
  | nil => intro ch h; simp at h
  | cons x xs ih =>
      intro ch h
      cases xs with
      | nil =>
          simp [List.getLast?] at h
          simp [h]
      | cons y ys =>
          rw [List.getLast?_cons_cons] at h
          rw [List.dropLast_cons₂, List.cons_append]
          rw [← ih h]

theorem getLast?_body (a b c : List Char) (hc1 : c ≠ []) :
    (a ++ ('.' :: (b ++ ('.' :: c)))).getLast? = c.getLast? := by
  rw [List.getLast?_append_of_ne_nil _ (by simp : ('.' :: (b ++ ('.' :: c))) ≠ []),
    show ('.' :: (b ++ ('.' :: c))) = ['.'] ++ (b ++ ('.' :: c)) from rfl,
    List.getLast?_append_of_ne_nil _ (by simp : (b ++ ('.' :: c)) ≠ []),
    List.getLast?_append_of_ne_nil _ (by simp : ('.' :: c) ≠ []),
    show ('.' :: c) = ['.'] ++ c from rfl,
    List.getLast?_append_of_ne_nil _ hc1]

theorem getLast?_digit_body (a b c : List Char) (hc1 : c ≠ [])
    (hc2 : c.all Char.isDigit = true) :
    ∃ ch, (a ++ ('.' :: (b ++ ('.' :: c)))).getLast? = some ch ∧ ch.isDigit = true := by
  rw [getLast?_body a b c hc1]
  cases hcl : c.getLast? with
  | none =>
      rw [List.getLast?_eq_none_iff] at hcl
      exact absurd hcl hc1
  | some ch =>
      exact ⟨ch, rfl, List.all_eq_true.mp hc2 ch (List.mem_of_mem_getLast? hcl)⟩

theorem parseGroups_shape (X : List Char) (flag : Bool) (msg : List Char) (ver : Version)
    (hok : parseGroups X flag msg = .ok ver) :
    ∃ a b c, (a ≠ [] ∧ a.all Char.isDigit = true) ∧
      (b ≠ [] ∧ b.all Char.isDigit = true) ∧
      (c ≠ [] ∧ c.all Char.isDigit = true) ∧
      X = a ++ ('.' :: (b ++ ('.' :: c))) := by
  rw [parseGroups] at hok
  rcases hsp : splitDots X with _ | ⟨a, _ | ⟨b, _ | ⟨c, _ | ⟨d, t⟩⟩⟩⟩
  · rw [hsp] at hok; simp at hok
  · rw [hsp] at hok; simp at hok
  · rw [hsp] at hok; simp at hok
  · rw [hsp] at hok
    dsimp only [] at hok
    split at hok
    · next hcond =>
        obtain ⟨ha1, ha2, hb1, hb2, hc1, hc2⟩ := hcond
        exact ⟨a, b, c, ⟨ha1, ha2⟩, ⟨hb1, hb2⟩, ⟨hc1, hc2⟩,
          splitDots_three_decomp X a b c hsp⟩
    · next _ => simp at hok
  · rw [hsp] at hok; simp at hok

theorem parseGroups_ok_of (flag : Bool) (msg : List Char) (a b c : List Char)
    (ha1 : a ≠ []) (ha2 : a.all Char.isDigit = true)
    (hb1 : b ≠ []) (hb2 : b.all Char.isDigit = true)
    (hc1 : c ≠ []) (hc2 : c.all Char.isDigit = true) :
    parseGroups (a ++ ('.' :: (b ++ ('.' :: c)))) flag msg =
      .ok ⟨digitsToNat a, digitsToNat b, digitsToNat c, flag⟩ := by
  rw [parseGroups, splitDots_digit_body a b c ha2 hb2 hc2]
  dsimp only []
  rw [if_pos ⟨ha1, ha2, hb1, hb2, hc1, hc2⟩]

theorem from_string_ok_relaxed (s : String) (hcnt : s.data.count '-' ≤ 1) :
    (∃ ver : Version, from_string s = .ok ver) ↔ relaxedShape s.data := by
  have hsplit := lstrip_v_decomp s.data
  constructor
  · rintro ⟨ver, hok⟩
    simp only [from_string] at hok
    by_cases hsnap : snapshotChars.isSuffixOf (s.data.dropWhile (fun x => x == 'v')) = true
    · obtain ⟨body, hbody⟩ := List.isSuffixOf_iff_suffix.mp hsnap
      have hnd : '-' ∉ body := by
        have h0 : s.data.count '-' =
            (List.replicate (s.data.takeWhile (fun x => x == 'v')).length 'v').count '-' +
              (s.data.dropWhile (fun x => x == 'v')).count '-' := by
          conv_lhs => rw [hsplit]
          exact List.count_append _ _ _
        have h2 : (s.data.dropWhile (fun x => x == 'v')).count '-' =
            body.count '-' + snapshotChars.count '-' := by
          rw [← hbody]
          exact List.count_append _ _ _
        have h3 : snapshotChars.count '-' = 1 := by decide
        have h4 : body.count '-' = 0 := by omega
        exact List.count_eq_zero.mp h4
      have hrem : removeSnapshots (s.data.dropWhile (fun x => x == 'v')) = body := by
        rw [← hbody]
        exact removeSnapshots_strip body hnd
      rw [if_pos hsnap, hrem] at hok
      by_cases hnl : body.getLast? = some '\n'
      · rw [if_pos hnl] at hok
        obtain ⟨a, b, c, ⟨ha1, ha2⟩, ⟨hb1, hb2⟩, ⟨hc1, hc2⟩, hX⟩ :=
          parseGroups_shape _ _ _ _ hok
        refine ⟨(s.data.takeWhile (fun x => x == 'v')).length, true, true, a, b, c,
          ⟨ha1, ha2⟩, ⟨hb1, hb2⟩, ⟨hc1, hc2⟩, ?_⟩
        conv_lhs => rw [hsplit]
        congr 1
        rw [← hbody]
        conv_lhs => rw [dropLast_decomp hnl, hX]
        simp [List.append_assoc, List.cons_append]
      · rw [if_neg hnl] at hok
        obtain ⟨a, b, c, ⟨ha1, ha2⟩, ⟨hb1, hb2⟩, ⟨hc1, hc2⟩, hX⟩ :=
          parseGroups_shape _ _ _ _ hok
        refine ⟨(s.data.takeWhile (fun x => x == 'v')).length, false, true, a, b, c,
          ⟨ha1, ha2⟩, ⟨hb1, hb2⟩, ⟨hc1, hc2⟩, ?_⟩
        conv_lhs => rw [hsplit]
        congr 1
        rw [← hbody]
        conv_lhs => rw [hX]
        simp [List.append_assoc, List.cons_append]
    · rw [if_neg hsnap] at hok
      by_cases hnl : (s.data.dropWhile (fun x => x == 'v')).getLast? = some '\n'
      · rw [if_pos hnl] at hok
        obtain ⟨a, b, c, ⟨ha1, ha2⟩, ⟨hb1, hb2⟩, ⟨hc1, hc2⟩, hX⟩ :=
          parseGroups_shape _ _ _ _ hok
        refine ⟨(s.data.takeWhile (fun x => x == 'v')).length, true, false, a, b, c,
          ⟨ha1, ha2⟩, ⟨hb1, hb2⟩, ⟨hc1, hc2⟩, ?_⟩
        conv_lhs => rw [hsplit]
        congr 1
        conv_lhs => rw [dropLast_decomp hnl, hX]
        simp [List.append_assoc, List.cons_append]
      · rw [if_neg hnl] at hok
        obtain ⟨a, b, c, ⟨ha1, ha2⟩, ⟨hb1, hb2⟩, ⟨hc1, hc2⟩, hX⟩ :=
          parseGroups_shape _ _ _ _ hok
        refine ⟨(s.data.takeWhile (fun x => x == 'v')).length, false, false, a, b, c,
          ⟨ha1, ha2⟩, ⟨hb1, hb2⟩, ⟨hc1, hc2⟩, ?_⟩
        conv_lhs => rw [hsplit]
        congr 1
        conv_lhs => rw [hX]
        simp [List.append_assoc, List.cons_append]
  · rintro ⟨k, nl, snap, a, b, c, ⟨ha1, ha2⟩, ⟨hb1, hb2⟩, ⟨hc1, hc2⟩, hs⟩
    obtain ⟨a0, as, ha⟩ : ∃ a0 as, a = a0 :: as := by
      cases a with
      | nil => exact absurd rfl ha1
      | cons a0 as => exact ⟨a0, as, rfl⟩
    have ha0 : a0.isDigit = true := by
      rw [ha, List.all_cons] at ha2
      simp only [Bool.and_eq_true] at ha2
      exact ha2.1
    have hnd : '-' ∉ a ++ ('.' :: (b ++ ('.' :: c))) := dash_not_mem_body a b c ha2 hb2 hc2
    have hndnl : '-' ∉ (a ++ ('.' :: (b ++ ('.' :: c)))) ++ ['\n'] := by
      intro hm
      rcases List.mem_append.mp hm with h | h
      · exact hnd h
      · exact absurd h (by decide)
    obtain ⟨chl, hchl, hchld⟩ := getLast?_digit_body a b c hc1 hc2
    have hnlf : ¬ ((a ++ ('.' :: (b ++ ('.' :: c)))).getLast? = some '\n') := by
      rw [hchl]
      intro he
      have hce : chl = '\n' := by simpa using he
      exact digit_ne_newline hchld hce
    have hs1 : s.data.dropWhile (fun x => x == 'v') =
        a ++ ('.' :: (b ++ ('.' :: (c ++ ((if nl then ['\n'] else []) ++
          (if snap then snapshotChars else [])))))) := by
      conv_lhs => rw [hs]
      rw [dropWhile_v_replicate]
      conv_lhs => rw [ha, List.cons_append]
      rw [dropWhile_v_digit_head a0 _ ha0, ← List.cons_append, ← ha]
    cases nl with
    | false =>
        cases snap with
        | false =>
            have hs1' : s.data.dropWhile (fun x => x == 'v') =
                a ++ ('.' :: (b ++ ('.' :: c))) := by
              rw [hs1]
              simp
            have hsnapf : snapshotChars.isSuffixOf
                (a ++ ('.' :: (b ++ ('.' :: c)))) = false := by
              cases h : snapshotChars.isSuffixOf (a ++ ('.' :: (b ++ ('.' :: c)))) with
              | false => rfl
              | true =>
                  obtain ⟨t, ht⟩ := List.isSuffixOf_iff_suffix.mp h
                  exact absurd (ht ▸ List.mem_append.mpr
                    (Or.inr (by decide : '-' ∈ snapshotChars))) hnd
            refine ⟨⟨digitsToNat a, digitsToNat b, digitsToNat c, false⟩, ?_⟩
            simp only [from_string, hs1']
            rw [hsnapf, if_neg (by simp : ¬ (false = true))]
            rw [if_neg hnlf]
            exact parseGroups_ok_of false _ a b c ha1 ha2 hb1 hb2 hc1 hc2
        | true =>
            have hs1' : s.data.dropWhile (fun x => x == 'v') =
                (a ++ ('.' :: (b ++ ('.' :: c)))) ++ snapshotChars := by
              rw [hs1]
              simp [List.append_assoc, List.cons_append]
            have hsnap2 : snapshotChars.isSuffixOf
                ((a ++ ('.' :: (b ++ ('.' :: c)))) ++ snapshotChars) = true :=
              List.isSuffixOf_iff_suffix.mpr (List.suffix_append _ _)
            refine ⟨⟨digitsToNat a, digitsToNat b, digitsToNat c, true⟩, ?_⟩
            simp only [from_string, hs1']
            rw [hsnap2, if_pos rfl]
            rw [removeSnapshots_strip _ hnd]
            rw [if_neg hnlf]
            exact parseGroups_ok_of true _ a b c ha1 ha2 hb1 hb2 hc1 hc2
    | true =>
        cases snap with
        | false =>
            have hs1' : s.data.dropWhile (fun x => x == 'v') =
                (a ++ ('.' :: (b ++ ('.' :: c)))) ++ ['\n'] := by
              rw [hs1]
              simp [List.append_assoc, List.cons_append]
            have hsnapf : snapshotChars.isSuffixOf
                ((a ++ ('.' :: (b ++ ('.' :: c)))) ++ ['\n']) = false := by
              cases h : snapshotChars.isSuffixOf
                  ((a ++ ('.' :: (b ++ ('.' :: c)))) ++ ['\n']) with
              | false => rfl
              | true =>
                  obtain ⟨t, ht⟩ := List.isSuffixOf_iff_suffix.mp h
                  exact absurd (ht ▸ List.mem_append.mpr
                    (Or.inr (by decide : '-' ∈ snapshotChars))) hndnl
            refine ⟨⟨digitsToNat a, digitsToNat b, digitsToNat c, false⟩, ?_⟩
            simp only [from_string, hs1']
            rw [hsnapf, if_neg (by simp : ¬ (false = true))]
            rw [if_pos (List.getLast?_concat _), List.dropLast_concat]
            exact parseGroups_ok_of false _ a b c ha1 ha2 hb1 hb2 hc1 hc2
        | true =>
            have hs1' : s.data.dropWhile (fun x => x == 'v') =
                ((a ++ ('.' :: (b ++ ('.' :: c)))) ++ ['\n']) ++ snapshotChars := by
              rw [hs1]
              simp [List.append_assoc, List.cons_append]
            have hsnap2 : snapshotChars.isSuffixOf
                (((a ++ ('.' :: (b ++ ('.' :: c)))) ++ ['\n']) ++ snapshotChars) = true :=
              List.isSuffixOf_iff_suffix.mpr (List.suffix_append _ _)
            refine ⟨⟨digitsToNat a, digitsToNat b, digitsToNat c, true⟩, ?_⟩
            simp only [from_string, hs1']
            rw [hsnap2, if_pos rfl]
            rw [removeSnapshots_strip _ hndnl]
            rw [if_pos (List.getLast?_concat _), List.dropLast_concat]
            exact parseGroups_ok_of true _ a b c ha1 ha2 hb1 hb2 hc1 hc2

/-- C5 (counterexample): version parsing does NOT succeed exactly on
strings with at most one leading `'v'`: `lstrip("v")` removes every
leading `'v'`, so `"vv0.1.0"` parses successfully even though it has
two leading `'v'` characters and therefore does not match the claimed
shape. -/
theorem c5_counterexample :
    ¬ (∀ s : String, (∃ ver, from_string s = .ok ver) ↔ strictShape s.data) := by
  intro h
  have h2 := (h "vv0.1.0").mp ⟨⟨0, 1, 0, false⟩, by decide⟩
  obtain ⟨v, snap, a, b, c, ⟨ha1, ha2⟩, _, _, hs⟩ := h2
  have hdata : ("vv0.1.0" : String).data = ['v', 'v', '0', '.', '1', '.', '0'] := rfl
  rw [hdata] at hs
  obtain ⟨a0, as, ha⟩ : ∃ a0 as, a = a0 :: as := by
    cases a with
    | nil => exact absurd rfl ha1
    | cons a0 as => exact ⟨a0, as, rfl⟩
  rw [ha] at hs ha2
  have ha0 : a0 = 'v' := by
    cases v with
    | false =>
        simp only [Bool.false_eq_true, if_false, List.nil_append, List.cons_append] at hs
        exact (List.cons.injEq _ _ _ _ ▸ hs).1.symm
    | true =>
        simp only [if_true, List.cons_append, List.singleton_append] at hs
        have := (List.cons.injEq _ _ _ _ ▸ hs).2
        exact (List.cons.injEq _ _ _ _ ▸ this).1.symm
  rw [ha0, List.all_cons] at ha2
  simp only [Bool.and_eq_true] at ha2
  exact absurd ha2.1 (by decide)

/-- C5 (amended): for every ASCII string containing at most one `'-'`
character, `Version.from_string` succeeds exactly on strings of the
shape: any number (including zero) of leading `'v'` characters, three
dot-separated nonempty all-digit segments, at most one trailing
newline (Python's `$` also matches just before a single final `'\n'`),
and an optional suffix that is exactly `-SNAPSHOT` (placed after the
newline position, since the suffix test runs before the regex).  The
at-most-one-dash restriction reflects `replace("-SNAPSHOT", "")`
deleting every occurrence, not just the suffix; the ASCII restriction
reflects Python's `\d` also matching non-ASCII Unicode decimal digits,
which the model does not cover. -/
theorem c5_version_parse_shape :
    ∀ s : String, (∀ ch ∈ s.data, ch.toNat < 128) → s.data.count '-' ≤ 1 →
      ((∃ ver : Version, from_string s = .ok ver) ↔ relaxedShape s.data) := by
  intro s _ h
  exact from_string_ok_relaxed s h

theorem c5_version_parse_shape_witness :
    ((∀ ch ∈ ("v1.2.3-SNAPSHOT" : String).data, ch.toNat < 128) ∧
      ("v1.2.3-SNAPSHOT" : String).data.count '-' ≤ 1) ∧
      relaxedShape ("v1.2.3-SNAPSHOT" : String).data :=
  ⟨⟨by decide, by decide⟩,
    (c5_version_parse_shape "v1.2.3-SNAPSHOT" (by decide) (by decide)).mp
      ⟨⟨1, 2, 3, true⟩, by decide⟩⟩

/-- `ComponentScanner.NESTED_COMPONENT_DIRS`. -/
def nestedComponentDirs : List (List Char) :=
  ["encoding".data, "observer".data, "storage".data]

/-- `ComponentScanner.EXCLUDED_DIRECTORIES`. -/
def excludedDirectories : List (List Char) :=
  ["extensionauth".data, "extensioncapabilities".data,
   "extensionmiddleware".data, "opampcustommessages".data]

/-- `ComponentScanner._is_valid_component_name`. -/
def is_valid_component_name (name : List Char) : Bool :=
  if ['.'].isPrefixOf name || ['_'].isPrefixOf name then false
  else if name == "internal".data || name == "testdata".data then false
  else if "test".data.isSuffixOf name || "helper".data.isSuffixOf name then false
  else true

/-- A directory entry one level below a nested group directory such as
`extension/storage/filestorage`.  `metadataFile = some v` models a
`metadata.yaml` that exists and parses to `v`; `none` models a missing
file. -/
structure ScanChild where
  name : String
  isDir : Bool
  hasGoMod : Bool
  hasGoFiles : Bool
  metadataFile : Option PyVal
deriving DecidableEq

/-- A directory entry directly below a component-type directory such as
`receiver/`.  Only nested group directories ever have their `children`
inspected, so one further level suffices. -/
structure ScanEntry where
  name : String
  isDir : Bool
  hasGoMod : Bool
  hasGoFiles : Bool
  metadataFile : Option PyVal
  children : List ScanChild
deriving DecidableEq

/-- `ComponentScanner._is_nested_component_directory` (valid name and Go
code; the excluded/nested name lists are NOT consulted here). -/
def is_nested_component_directory (s : ScanChild) : Bool :=
  is_valid_component_name s.name.data && (s.hasGoMod || s.hasGoFiles)

/-- `ComponentScanner._is_component_directory`. -/
def is_component_directory (e : ScanEntry) : Bool :=
  if !(is_valid_component_name e.name.data) then false
  else if excludedDirectories.contains e.name.data then false
  else if nestedComponentDirs.contains e.name.data then false
  else e.hasGoMod || e.hasGoFiles

/-- `ComponentScanner._extract_component_info`: builds the component
record.  The `component_type` argument is accepted but never used by
the Python body; `subtype` is added only when truthy (non-empty). -/
def extract_component_info (componentType : String) (name : String)
    (metadataFile : Option PyVal) (subtype : Option String) : List (String × PyVal) :=
  let info := [("name", PyVal.vstr name)]
  let info := match subtype with
    | some st => if st.data ≠ [] then info ++ [("subtype", PyVal.vstr st)] else info
    | none => info
  match metadataFile with
  | none => info ++ [("has_metadata", PyVal.vbool false)]
  | some v =>
      if pyTruthy v then info ++ [("metadata", v)]
      else info ++ [("has_metadata", PyVal.vbool false)]

/-- `sorted(dir.iterdir())` one level below a nested group directory
(paths in one directory sort by name). -/
def sortScanChildren (xs : List ScanChild) : List ScanChild :=
  xs.insertionSort (fun a b => strLeb a.name b.name = true)

/-- `sorted(dir.iterdir())` directly below the component-type directory. -/
def sortScanEntries (xs : List ScanEntry) : List ScanEntry :=
  xs.insertionSort (fun a b => strLeb a.name b.name = true)

/-- `ComponentScanner._scan_nested_components`. -/
def scan_nested_components (componentType : String) (children : List ScanChild)
    (subtype : String) : List (List (String × PyVal)) :=
  ((sortScanChildren children).filter
      (fun s => s.isDir && is_nested_component_directory s)).map
    (fun s => extract_component_info componentType s.name s.metadataFile (some subtype))

/-- The loop body of `ComponentScanner.scan_component_type` over the
sorted directory listing: a nested-group name (for EVERY component
type, not only extension) is expanded one level deeper; otherwise the
entry is evaluated directly. -/
def scanItems (componentType : String) : List ScanEntry → List (List (String × PyVal))
  | [] => []
  | e :: rest =>
      if e.isDir then
        if nestedComponentDirs.contains e.name.data then
          scan_nested_components componentType e.children e.name ++
            scanItems componentType rest
        else if is_component_directory e then
          extract_component_info componentType e.name e.metadataFile none ::
            scanItems componentType rest
        else scanItems componentType rest
      else scanItems componentType rest

/-- `ComponentScanner.scan_component_type` on the modelled directory
listing of `repo_path/component_type`. -/
def scan_component_type (componentType : String) (entries : List ScanEntry) :
    List (List (String × PyVal)) :=
  scanItems componentType (sortScanEntries entries)

example :
    scan_component_type "receiver"
      [⟨"storage", true, true, false, none,
        [⟨"filestorage", true, true, false, none⟩]⟩] =
      [[("name", PyVal.vstr "filestorage"), ("subtype", PyVal.vstr "storage"),
        ("has_metadata", PyVal.vbool false)]] := by decide

example :
    scan_component_type "extension"
      [⟨"zpagesextension", true, true, false, none, []⟩,
       ⟨"encoding", true, true, false, none,
        [⟨"jsonlogencoding", true, false, true, some (PyVal.vdict [("type", PyVal.vstr "jsonlog")])⟩,
         ⟨"internal", true, true, false, none⟩]⟩] =
      [[("name", PyVal.vstr "jsonlogencoding"), ("subtype", PyVal.vstr "encoding"),
        ("metadata", PyVal.vdict [("type", PyVal.vstr "jsonlog")])],
       [("name", PyVal.vstr "zpagesextension"), ("has_metadata", PyVal.vbool false)]] := by decide

theorem mem_sortScanChildren {s : ScanChild} {l : List ScanChild} :
    s ∈ sortScanChildren l ↔ s ∈ l :=
  (List.perm_insertionSort _ l).mem_iff

theorem mem_sortScanEntries {e : ScanEntry} {l : List ScanEntry} :
    e ∈ sortScanEntries l ↔ e ∈ l :=
  (List.perm_insertionSort _ l).mem_iff

theorem nested_name_ne_nil {l : List Char} (h : nestedComponentDirs.contains l = true) :
    l ≠ [] := by
  have hm : l ∈ nestedComponentDirs := List.elem_iff.mp h
  simp only [nestedComponentDirs, List.mem_cons, List.not_mem_nil, or_false] at hm
  rcases hm with rfl | rfl | rfl <;> decide

theorem contains_nested_of_mem {l : List Char} (h : l ∈ nestedComponentDirs) :
    nestedComponentDirs.contains l = true :=
  List.elem_iff.mpr h

theorem is_component_directory_not_nested (e : ScanEntry)
    (h : is_component_directory e = true) :
    nestedComponentDirs.contains e.name.data = false := by
  rw [is_component_directory] at h
  split at h
  · exact absurd h (by simp)
  · split at h
    · exact absurd h (by simp)
    · split at h
      · exact absurd h (by simp)
      · next hn =>
          cases hb : nestedComponentDirs.contains e.name.data with
          | false => rfl
          | true => exact absurd hb hn

theorem extract_subtype_some (ct n : String) (m : Option PyVal) (st : String)
    (h : st.data ≠ []) :
    dictGet (extract_component_info ct n m (some st)) "subtype" =
      some (PyVal.vstr st) := by
  have hne : ("name" : String) ≠ "subtype" := by decide
  simp only [extract_component_info]
  rw [if_pos h]
  cases m with
  | none =>
      dsimp only []
      simp only [List.cons_append, List.nil_append, List.singleton_append]
      rw [dictGet_cons_ne _ _ hne, dictGet_cons_eq _ _ rfl]
  | some v =>
      dsimp only []
      by_cases hv : pyTruthy v = true
      · rw [if_pos hv]
        simp only [List.cons_append, List.nil_append, List.singleton_append]
        rw [dictGet_cons_ne _ _ hne, dictGet_cons_eq _ _ rfl]
      · rw [if_neg hv]
        simp only [List.cons_append, List.nil_append, List.singleton_append]
        rw [dictGet_cons_ne _ _ hne, dictGet_cons_eq _ _ rfl]

theorem extract_none_name (ct n : String) (m : Option PyVal) :
    dictGet (extract_component_info ct n m none) "name" = some (PyVal.vstr n) := by
  simp only [extract_component_info]
  cases m with
  | none =>
      dsimp only []
      simp only [List.cons_append, List.nil_append, List.singleton_append]
      rw [dictGet_cons_eq _ _ rfl]
  | some v =>
      dsimp only []
      by_cases hv : pyTruthy v = true
      · rw [if_pos hv]
        simp only [List.cons_append, List.nil_append, List.singleton_append]
        rw [dictGet_cons_eq _ _ rfl]
      · rw [if_neg hv]
        simp only [List.cons_append, List.nil_append, List.singleton_append]
        rw [dictGet_cons_eq _ _ rfl]

theorem scanItems_nested_mem (ct : String) (l : List ScanEntry) (e : ScanEntry)
    (he : e ∈ l) (hd : e.isDir = true)
    (hn : nestedComponentDirs.contains e.name.data = true)
    (s : ScanChild) (hs : s ∈ e.children) (hsd : s.isDir = true)
    (hsc : is_nested_component_directory s = true) :
    extract_component_info ct s.name s.metadataFile (some e.name) ∈ scanItems ct l := by
  induction l with
  | nil => exact absurd he (List.not_mem_nil e)
  | cons e0 rest ih =>
      rcases List.mem_cons.mp he with rfl | hmem
      · rw [scanItems, if_pos hd, if_pos hn]
        apply List.mem_append.mpr
        left
        apply List.mem_map.mpr
        refine ⟨s, List.mem_filter.mpr ⟨mem_sortScanChildren.mpr hs, ?_⟩, rfl⟩
        rw [hsd, hsc]
        rfl
      · have htail := ih hmem
        rw [scanItems]
        by_cases h0 : e0.isDir = true
        · rw [if_pos h0]
          by_cases h1 : nestedComponentDirs.contains e0.name.data = true
          · rw [if_pos h1]
            exact List.mem_append.mpr (Or.inr htail)
          · rw [if_neg h1]
            by_cases h2 : is_component_directory e0 = true
            · rw [if_pos h2]
              exact List.mem_cons_of_mem _ htail
            · rw [if_neg h2]
              exact htail
        · rw [if_neg h0]
          exact htail

theorem scanItems_mem_cases (ct : String) (l : List ScanEntry)
    (r : List (String × PyVal)) (hr : r ∈ scanItems ct l) :
    (∃ e ∈ l, e.isDir = true ∧ nestedComponentDirs.contains e.name.data = true ∧
      ∃ s ∈ e.children, s.isDir = true ∧ is_nested_component_directory s = true ∧
        r = extract_component_info ct s.name s.metadataFile (some e.name)) ∨
    (∃ e ∈ l, e.isDir = true ∧ is_component_directory e = true ∧
      r = extract_component_info ct e.name e.metadataFile none) := by
  induction l with
  | nil => rw [scanItems] at hr; exact absurd hr (List.not_mem_nil r)
  | cons e0 rest ih =>
      rw [scanItems] at hr
      by_cases h0 : e0.isDir = true
      · rw [if_pos h0] at hr
        by_cases h1 : nestedComponentDirs.contains e0.name.data = true
        · rw [if_pos h1] at hr
          rcases List.mem_append.mp hr with hleft | hright
          · obtain ⟨s, hsf, hrs⟩ := List.mem_map.mp hleft
            obtain ⟨hsmem, hcond⟩ := List.mem_filter.mp hsf
            simp only [Bool.and_eq_true] at hcond
            exact Or.inl ⟨e0, List.mem_cons_self _ _, h0, h1,
              s, mem_sortScanChildren.mp hsmem, hcond.1, hcond.2, hrs.symm⟩
          · rcases ih hright with ⟨e, hmem, hrest⟩ | ⟨e, hmem, hrest⟩
            · exact Or.inl ⟨e, List.mem_cons_of_mem _ hmem, hrest⟩
            · exact Or.inr ⟨e, List.mem_cons_of_mem _ hmem, hrest⟩
        · rw [if_neg h1] at hr
          by_cases h2 : is_component_directory e0 = true
          · rw [if_pos h2] at hr
            rcases List.mem_cons.mp hr with rfl | hrest
            · exact Or.inr ⟨e0, List.mem_cons_self _ _, h0, h2, rfl⟩
            · rcases ih hrest with ⟨e, hmem, hre⟩ | ⟨e, hmem, hre⟩
              · exact Or.inl ⟨e, List.mem_cons_of_mem _ hmem, hre⟩
              · exact Or.inr ⟨e, List.mem_cons_of_mem _ hmem, hre⟩
          · rw [if_neg h2] at hr
            rcases ih hr with ⟨e, hmem, hre⟩ | ⟨e, hmem, hre⟩
            · exact Or.inl ⟨e, List.mem_cons_of_mem _ hmem, hre⟩
            · exact Or.inr ⟨e, List.mem_cons_of_mem _ hmem, hre⟩
      · rw [if_neg h0] at hr
        rcases ih hr with ⟨e, hmem, hre⟩ | ⟨e, hmem, hre⟩
        · exact Or.inl ⟨e, List.mem_cons_of_mem _ hmem, hre⟩
        · exact Or.inr ⟨e, List.mem_cons_of_mem _ hmem, hre⟩

/-- C4 (counterexample): the nested-group handling is NOT restricted to
the extension category.  The claim implies that under a category other
than extension (here: receiver) a subdirectory named `storage` with Go
code is evaluated directly as an ordinary component; in fact the
scanner expands it one level deeper under every category, returning
its child tagged with the subtype and never the `storage` directory
itself. -/
theorem c4_counterexample :
    ¬ (∀ ct : String, ct ≠ "extension" →
        scan_component_type ct
          [⟨"storage", true, true, false, none,
            [⟨"filestorage", true, true, false, none⟩]⟩] =
          [[("name", PyVal.vstr "storage"), ("has_metadata", PyVal.vbool false)]]) := by
  intro h
  have h2 := h "receiver" (by decide)
  exact absurd h2 (by decide)

/-- C4 (amended): under EVERY component category (the scanner never
consults the category when deciding), a subdirectory named encoding,
observer, or storage is treated as a container of nested components
one level deeper: each of its valid Go-code children yields a record
tagged with that subtype, and the group directory itself is never
returned as an untagged (ordinary) component record. -/
theorem c4_nested_dirs_every_category :
    ∀ (ct : String) (entries : List ScanEntry) (e : ScanEntry),
      e ∈ entries → e.isDir = true → e.name.data ∈ nestedComponentDirs →
      (∀ s ∈ e.children, s.isDir = true → is_nested_component_directory s = true →
        extract_component_info ct s.name s.metadataFile (some e.name) ∈
          scan_component_type ct entries) ∧
      (∀ r ∈ scan_component_type ct entries, dictGet r "subtype" = none →
        dictGet r "name" ≠ some (PyVal.vstr e.name)) := by
  intro ct entries e he hd hn
  have hcont : nestedComponentDirs.contains e.name.data = true := contains_nested_of_mem hn
  constructor
  · intro s hs hsd hsc
    exact scanItems_nested_mem ct (sortScanEntries entries) e
      (mem_sortScanEntries.mpr he) hd hcont s hs hsd hsc
  · intro r hr hnosub
    rcases scanItems_mem_cases ct (sortScanEntries entries) r hr with
      ⟨e1, _, _, hn1, s, _, _, _, hre⟩ | ⟨e1, _, _, hcomp1, hre⟩
    · have := extract_subtype_some ct s.name s.metadataFile e1.name (nested_name_ne_nil hn1)
      rw [← hre] at this
      rw [hnosub] at this
      exact absurd this (by simp)
    · intro hname
      rw [hre, extract_none_name] at hname
      have hne : e1.name = e.name := by
        have h1 := Option.some.injEq _ _ ▸ hname
        exact PyVal.vstr.injEq _ _ ▸ h1
      have hnot : nestedComponentDirs.contains e1.name.data = false :=
        is_component_directory_not_nested e1 hcomp1
      rw [hne] at hnot
      rw [hcont] at hnot
      exact absurd hnot (by simp)

theorem c4_nested_dirs_every_category_witness :
    (∀ s ∈ [ScanChild.mk "filestorage" true true false none],
        s.isDir = true → is_nested_component_directory s = true →
        extract_component_info "receiver" s.name s.metadataFile (some "storage") ∈
          scan_component_type "receiver"
            [⟨"storage", true, true, false, none,
              [⟨"filestorage", true, true, false, none⟩]⟩]) ∧
      (∀ r ∈ scan_component_type "receiver"
          [⟨"storage", true, true, false, none,
            [⟨"filestorage", true, true, false, none⟩]⟩],
        dictGet r "subtype" = none → dictGet r "name" ≠ some (PyVal.vstr "storage")) :=
  c4_nested_dirs_every_category "receiver"
    [⟨"storage", true, true, false, none, [⟨"filestorage", true, true, false, none⟩]⟩]
    ⟨"storage", true, true, false, none, [⟨"filestorage", true, true, false, none⟩]⟩
    (by decide) (by decide) (by decide)

/-- Decimal digit character for a digit value. -/
def digitChr : Nat → Char
  | 0 => '0' | 1 => '1' | 2 => '2' | 3 => '3' | 4 => '4'
  | 5 => '5' | 6 => '6' | 7 => '7' | 8 => '8' | _ => '9'

/-- Big-endian decimal digits of a natural number (fuelled by the
number itself; each step divides by ten). -/
def natDigitsGo : Nat → Nat → List Char
  | 0, _ => []
  | fuel + 1, n =>
      if n < 10 then [digitChr n]
      else natDigitsGo fuel (n / 10) ++ [digitChr (n % 10)]

/-- Decimal representation of a natural number as characters. -/
def natDigits (n : Nat) : List Char := natDigitsGo (n + 1) n

theorem digitChr_isDigit (n : Nat) (h : n < 10) : (digitChr n).isDigit = true := by
  interval_cases n <;> decide

theorem digitChr_toNat (n : Nat) (h : n < 10) : (digitChr n).toNat - 48 = n := by
  interval_cases n <;> decide

theorem digitsToNat_append_one (xs : List Char) (c : Char) :
    digitsToNat (xs ++ [c]) = digitsToNat xs * 10 + (c.toNat - 48) := by
  rw [digitsToNat, List.foldl_append]
  rfl

theorem natDigitsGo_spec : ∀ (fuel n : Nat), n < fuel →
    digitsToNat (natDigitsGo fuel n) = n ∧ natDigitsGo fuel n ≠ [] ∧
      (natDigitsGo fuel n).all Char.isDigit = true := by
  intro fuel
  induction fuel with
  | zero => intro n h; omega
  | succ fuel ih =>
      intro n h
      by_cases h10 : n < 10
      · rw [natDigitsGo, if_pos h10]
        refine ⟨?_, by simp, by simp [digitChr_isDigit n h10]⟩
        show digitsToNat ([] ++ [digitChr n]) = n
        rw [digitsToNat_append_one]
        show 0 * 10 + ((digitChr n).toNat - 48) = n
        rw [Nat.zero_mul, Nat.zero_add, digitChr_toNat n h10]
      · rw [natDigitsGo, if_neg h10]
        have hlt : n / 10 < fuel := by
          have h1 : n / 10 < n := Nat.div_lt_self (by omega) (by omega)
          omega
        obtain ⟨ih1, ih2, ih3⟩ := ih (n / 10) hlt
        refine ⟨?_, by simp, ?_⟩
        · rw [digitsToNat_append_one, ih1, digitChr_toNat (n % 10) (Nat.mod_lt n (by omega))]
          omega
        · rw [List.all_append, ih3, Bool.true_and]
          simp [digitChr_isDigit (n % 10) (Nat.mod_lt n (by omega))]

theorem natDigits_toNat (n : Nat) : digitsToNat (natDigits n) = n :=
  (natDigitsGo_spec (n + 1) n (by omega)).1

theorem natDigits_ne_nil (n : Nat) : natDigits n ≠ [] :=
  (natDigitsGo_spec (n + 1) n (by omega)).2.1

theorem natDigits_all_digit (n : Nat) : (natDigits n).all Char.isDigit = true :=
  (natDigitsGo_spec (n + 1) n (by omega)).2.2

/-- Modelled from the spec: a `semantic_version.Version` value, as far
as the canonical version strings of this system use it — numeric
(major, minor, patch) plus an optional prerelease suffix such as
`SNAPSHOT` (`isPrerelease` iff the suffix is present).  The
`semantic_version` library itself is an external dependency not
present in the repository. -/
structure SemVer where
  major : Nat
  minor : Nat
  patch : Nat
  prerelease : Option String
deriving DecidableEq

/-- Modelled from the spec: `str(version)` for a `semantic_version`
value — `<major>.<minor>.<patch>` optionally suffixed `-<prerelease>`. -/
def semverChars (v : SemVer) : List Char :=
  natDigits v.major ++ ('.' :: (natDigits v.minor ++ ('.' :: (natDigits v.patch ++
    (match v.prerelease with
     | none => []
     | some p => '-' :: p.data)))))

/-- `str(version)` as a `String`. -/
def semverStr (v : SemVer) : String := String.mk (semverChars v)

/-- Modelled from the spec: `semantic_version.Version(s)` — parses
`<numeric>.<numeric>.<numeric>` with an optional `-<prerelease>`
suffix; any other shape is a `ValueError` (here: `none`). -/
def semverParse (s : List Char) : Option SemVer :=
  let main := s.takeWhile (fun c => !(c == '-'))
  let rest := s.dropWhile (fun c => !(c == '-'))
  match splitDots main with
  | [a, b, c] =>
      if a ≠ [] ∧ a.all Char.isDigit ∧ b ≠ [] ∧ b.all Char.isDigit ∧
          c ≠ [] ∧ c.all Char.isDigit then
        match rest with
        | [] => some ⟨digitsToNat a, digitsToNat b, digitsToNat c, none⟩
        | _ :: tail =>
            if tail ≠ [] then
              some ⟨digitsToNat a, digitsToNat b, digitsToNat c, some (String.mk tail)⟩
            else none
      else none
  | _ => none

/-- The version values this system actually stores: prerelease absent
or a nonempty suffix (canonically `SNAPSHOT`). -/
def wfSemVer (v : SemVer) : Prop :=
  match v.prerelease with
  | none => True
  | some p => p.data ≠ []

example : semverParse "0.112.0".data = some ⟨0, 112, 0, none⟩ := by decide
example : semverParse "0.113.0-SNAPSHOT".data = some ⟨0, 113, 0, some "SNAPSHOT"⟩ := by decide
example : semverStr ⟨0, 113, 0, some "SNAPSHOT"⟩ = "0.113.0-SNAPSHOT" := by decide
example : semverParse "0.1".data = none := by decide

theorem takeWhile_nodash (m : List Char) (h : '-' ∉ m) :
    m.takeWhile (fun c => !(c == '-')) = m := by
  induction m with
  | nil => rfl
  | cons c cs ih =>
      have hc : (c == '-') = false := by
        simp only [beq_eq_false_iff_ne, ne_eq]
        intro he
        exact h (he ▸ List.mem_cons_self _ _)
      rw [List.takeWhile_cons]
      rw [hc]
      simp only [Bool.not_false, if_true]
      rw [ih (fun hm => h (List.mem_cons_of_mem _ hm))]

theorem dropWhile_nodash (m : List Char) (h : '-' ∉ m) :
    m.dropWhile (fun c => !(c == '-')) = [] := by
  induction m with
  | nil => rfl
  | cons c cs ih =>
      have hc : (c == '-') = false := by
        simp only [beq_eq_false_iff_ne, ne_eq]
        intro he
        exact h (he ▸ List.mem_cons_self _ _)
      rw [List.dropWhile_cons]
      rw [hc]
      simp only [Bool.not_false, if_true]
      exact ih (fun hm => h (List.mem_cons_of_mem _ hm))

theorem takeWhile_nodash_append (m rest : List Char) (h : '-' ∉ m) :
    (m ++ '-' :: rest).takeWhile (fun c => !(c == '-')) = m := by
  induction m with
  | nil => simp [List.takeWhile_cons]
  | cons c cs ih =>
      have hc : (c == '-') = false := by
        simp only [beq_eq_false_iff_ne, ne_eq]
        intro he
        exact h (he ▸ List.mem_cons_self _ _)
      rw [List.cons_append, List.takeWhile_cons, hc]
      simp only [Bool.not_false, if_true]
      rw [ih (fun hm => h (List.mem_cons_of_mem _ hm))]

theorem dropWhile_nodash_append (m rest : List Char) (h : '-' ∉ m) :
    (m ++ '-' :: rest).dropWhile (fun c => !(c == '-')) = '-' :: rest := by
  induction m with
  | nil => simp [List.dropWhile_cons]
  | cons c cs ih =>
      have hc : (c == '-') = false := by
        simp only [beq_eq_false_iff_ne, ne_eq]
        intro he
        exact h (he ▸ List.mem_cons_self _ _)
      rw [List.cons_append, List.dropWhile_cons, hc]
      simp only [Bool.not_false, if_true]
      exact ih (fun hm => h (List.mem_cons_of_mem _ hm))

theorem body_append_assoc (a b c X : List Char) :
    a ++ ('.' :: (b ++ ('.' :: (c ++ X)))) = (a ++ ('.' :: (b ++ ('.' :: c)))) ++ X := by
  simp [List.append_assoc]

theorem semverParse_semverChars (v : SemVer) (h : wfSemVer v) :
    semverParse (semverChars v) = some v := by
  obtain ⟨ma, mi, pa, pre⟩ := v
  have hnd : '-' ∉ natDigits ma ++ ('.' :: (natDigits mi ++ ('.' :: natDigits pa))) :=
    dash_not_mem_body _ _ _ (natDigits_all_digit ma) (natDigits_all_digit mi)
      (natDigits_all_digit pa)
  have hspl : splitDots (natDigits ma ++ ('.' :: (natDigits mi ++ ('.' :: natDigits pa)))) =
      [natDigits ma, natDigits mi, natDigits pa] :=
    splitDots_digit_body _ _ _ (natDigits_all_digit ma) (natDigits_all_digit mi)
      (natDigits_all_digit pa)
  cases pre with
  | none =>
      have hch : semverChars ⟨ma, mi, pa, none⟩ =
          natDigits ma ++ ('.' :: (natDigits mi ++ ('.' :: natDigits pa))) := by
        simp [semverChars]
      rw [hch]
      simp only [semverParse]
      rw [takeWhile_nodash _ hnd, dropWhile_nodash _ hnd, hspl]
      dsimp only []
      rw [if_pos ⟨natDigits_ne_nil ma, natDigits_all_digit ma, natDigits_ne_nil mi,
        natDigits_all_digit mi, natDigits_ne_nil pa, natDigits_all_digit pa⟩]
      rw [natDigits_toNat, natDigits_toNat, natDigits_toNat]
  | some p =>
      have hp : p.data ≠ [] := h
      have hch : semverChars ⟨ma, mi, pa, some p⟩ =
          (natDigits ma ++ ('.' :: (natDigits mi ++ ('.' :: natDigits pa)))) ++
            ('-' :: p.data) := by
        simp [semverChars, List.append_assoc]
      rw [hch]
      simp only [semverParse]
      rw [takeWhile_nodash_append _ _ hnd, dropWhile_nodash_append _ _ hnd, hspl]
      dsimp only []
      rw [if_pos ⟨natDigits_ne_nil ma, natDigits_all_digit ma, natDigits_ne_nil mi,
        natDigits_all_digit mi, natDigits_ne_nil pa, natDigits_all_digit pa⟩]
      rw [if_pos hp]
      rw [natDigits_toNat, natDigits_toNat, natDigits_toNat]

theorem semverStr_inj {v w : SemVer} (hv : wfSemVer v) (hw : wfSemVer w)
    (h : semverStr v = semverStr w) : v = w := by
  have hc : semverChars v = semverChars w := by
    have := congrArg String.data h
    simpa [semverStr] using this
  have h1 := semverParse_semverChars v hv
  have h2 := semverParse_semverChars w hw
  rw [hc, h2] at h1
  exact (Option.some.injEq _ _ ▸ h1.symm)

/-- `COMPONENT_TYPES` as used by `InventoryManager`.  Note:
`inventory_manager.py` imports this name from `type_defs.py`, which
defines only `DistributionName`; the five-category list exists in the
repository as `ComponentType` in `types.py` and as
`ComponentScanner.COMPONENT_TYPES`, and that value is used here. -/
def COMPONENT_TYPES : List String :=
  ["connector", "exporter", "extension", "processor", "receiver"]

/-- The parsed content of one per-type YAML file exactly as
`save_versioned_inventory` writes it. -/
structure InvFile where
  distribution : String
  version : String
  repository : String
  component_type : String
  components : List PyVal
deriving DecidableEq

/-- One version directory: its name (e.g. `v0.112.0`) and its files
(filename to parsed YAML content; the YAML round-trip is identity on
the stored value). -/
structure VersionDir where
  name : String
  files : List (String × InvFile)
deriving DecidableEq

/-- The directory of one distribution: its version subdirectories. -/
abbrev DistDir := List VersionDir

/-- `get_version_dir`: the directory name `f"v{version}"`. -/
def get_version_dir_name (v : SemVer) : String := "v" ++ semverStr v

/-- Directory lookup by name (`path.exists()` plus opening it). -/
def findVersionDir (d : DistDir) (name : String) : Option VersionDir :=
  d.find? (fun vd => vd.name == name)

/-- `InventoryManager.version_exists`. -/
def version_exists (d : DistDir) (v : SemVer) : Bool :=
  (findVersionDir d (get_version_dir_name v)).isSome

/-- Writing a file into a directory: overwrite in place or create. -/
def putFile : List (String × InvFile) → String → InvFile → List (String × InvFile)
  | [], k, v => [(k, v)]
  | (k1, v1) :: rest, k, v =>
      if k1 == k then (k1, v) :: rest else (k1, v1) :: putFile rest k v

/-- Reading a file from a directory (`path.exists()` + parse). -/
def fileGet (files : List (String × InvFile)) (k : String) : Option InvFile :=
  match files.find? (fun p => p.1 == k) with
  | some p => some p.2
  | none => none

/-- `components.get(component_type, [])`. -/
def compsGet (m : List (String × List PyVal)) (k : String) : List PyVal :=
  match m.find? (fun p => p.1 == k) with
  | some p => p.2
  | none => []

/-- The loop of `save_versioned_inventory`: one file per component
type, written unconditionally. -/
def saveFilesFold (dist : String) (v : SemVer) (repository : String)
    (components : List (String × List PyVal)) (dir : VersionDir) : VersionDir :=
  COMPONENT_TYPES.foldl (fun dir ct =>
    ⟨dir.name, putFile dir.files (ct ++ ".yaml")
      ⟨dist, semverStr v, repository, ct, compsGet components ct⟩⟩) dir

/-- `InventoryManager.save_versioned_inventory`: `mkdir(parents=True,
exist_ok=True)` then write the five per-type files. -/
def save_versioned_inventory (d : DistDir) (dist : String) (v : SemVer)
    (components : List (String × List PyVal)) (repository : String) : DistDir :=
  let name := get_version_dir_name v
  match findVersionDir d name with
  | some dir =>
      d.map (fun vd => if vd.name == name
        then saveFilesFold dist v repository components dir else vd)
  | none => d ++ [saveFilesFold dist v repository components ⟨name, []⟩]

/-- The result dictionary of `load_versioned_inventory`; `repository =
none` models the absent-directory branch, whose dictionary carries no
`repository` key at all. -/
structure LoadResult where
  distribution : String
  version : String
  repository : Option String
  components : List (String × List PyVal)
deriving DecidableEq

/-- The loop of `load_versioned_inventory` over the component types:
collects each type's components (empty when the file is missing) and
the first truthy `repository` value. -/
def loadGo (files : List (String × InvFile)) :
    List String → String → List (String × List PyVal) × String
  | [], repo => ([], repo)
  | ct :: rest, repo =>
      match fileGet files (ct ++ ".yaml") with
      | some f =>
          let repo1 := if repo = "" then f.repository else repo
          let res := loadGo files rest repo1
          ((ct, f.components) :: res.1, res.2)
      | none =>
          let res := loadGo files rest repo
          ((ct, []) :: res.1, res.2)

/-- `InventoryManager.load_versioned_inventory`. -/
def load_versioned_inventory (d : DistDir) (dist : String) (v : SemVer) : LoadResult :=
  match findVersionDir d (get_version_dir_name v) with
  | none => ⟨dist, semverStr v, none, []⟩
  | some dir =>
      let res := loadGo dir.files COMPONENT_TYPES ""
      ⟨dist, semverStr v, some res.2, res.1⟩

example :
    load_versioned_inventory
      (save_versioned_inventory [] "core" ⟨0, 112, 0, none⟩
        [("receiver", [PyVal.vdict [("name", PyVal.vstr "otlpreceiver")]])] "repo-a")
      "core" ⟨0, 112, 0, none⟩ =
    ⟨"core", "0.112.0", some "repo-a",
      [("connector", []), ("exporter", []), ("extension", []), ("processor", []),
       ("receiver", [PyVal.vdict [("name", PyVal.vstr "otlpreceiver")]])]⟩ := by decide

theorem fileGet_cons_eq {k1 k : String} (f1 : InvFile) (t : List (String × InvFile))
    (h : k1 = k) : fileGet ((k1, f1) :: t) k = some f1 := by
  subst h
  simp [fileGet, List.find?]

theorem fileGet_cons_ne {k1 k : String} (f1 : InvFile) (t : List (String × InvFile))
    (h : k1 ≠ k) : fileGet ((k1, f1) :: t) k = fileGet t k := by
  have hb : ((k1, f1).1 == k) = false := by simpa using h
  rw [fileGet, List.find?, hb, ← fileGet]

theorem fileGet_putFile_self (fs : List (String × InvFile)) (k : String) (f : InvFile) :
    fileGet (putFile fs k f) k = some f := by
  induction fs with
  | nil => simp [putFile, fileGet, List.find?]
  | cons p t ih =>
      obtain ⟨k1, f1⟩ := p
      by_cases hk : k1 = k
      · subst hk
        rw [putFile]
        simp only [beq_self_eq_true, if_true]
        exact fileGet_cons_eq f t rfl
      · rw [putFile]
        simp only [beq_iff_eq, hk, if_false]
        rw [fileGet_cons_ne _ _ hk]
        exact ih

theorem fileGet_putFile_ne (fs : List (String × InvFile)) (k k' : String) (f : InvFile)
    (h : k' ≠ k) : fileGet (putFile fs k f) k' = fileGet fs k' := by
  induction fs with
  | nil =>
      rw [putFile, fileGet_cons_ne _ _ (Ne.symm h)]
  | cons p t ih =>
      obtain ⟨k1, f1⟩ := p
      by_cases hk : k1 = k
      · subst hk
        rw [putFile]
        simp only [beq_self_eq_true, if_true]
        rw [fileGet_cons_ne _ _ (Ne.symm h), fileGet_cons_ne _ _ (Ne.symm h)]
      · rw [putFile]
        simp only [beq_iff_eq, hk, if_false]
        by_cases hk2 : k1 = k'
        · rw [fileGet_cons_eq _ _ hk2, fileGet_cons_eq _ _ hk2]
        · rw [fileGet_cons_ne _ _ hk2, fileGet_cons_ne _ _ hk2]
          exact ih

theorem saveFold_split : ∀ (cts : List String) (g : String → InvFile) (dir : VersionDir),
    cts.foldl (fun dir ct =>
        VersionDir.mk dir.name (putFile dir.files (ct ++ ".yaml") (g ct))) dir =
      ⟨dir.name, cts.foldl (fun fs ct => putFile fs (ct ++ ".yaml") (g ct)) dir.files⟩ := by
  intro cts
  induction cts with
  | nil => intro g dir; rfl
  | cons c rest ih =>
      intro g dir
      rw [List.foldl_cons, List.foldl_cons]
      exact ih g _

theorem fileGet_foldPut_preserve :
    ∀ (cts : List String) (g : String → InvFile) (fs : List (String × InvFile)) (k : String),
    k ∉ cts.map (fun ct => ct ++ ".yaml") →
    fileGet (cts.foldl (fun fs ct => putFile fs (ct ++ ".yaml") (g ct)) fs) k =
      fileGet fs k := by
  intro cts
  induction cts with
  | nil => intro g fs k _; rfl
  | cons c rest ih =>
      intro g fs k hk
      rw [List.foldl_cons]
      rw [ih g _ k (fun hm => hk (List.mem_cons_of_mem _ hm))]
      exact fileGet_putFile_ne _ _ _ _
        (fun he => hk (he ▸ List.mem_cons_self _ _))

theorem loadGo_fold :
    ∀ (cts : List String) (g : String → InvFile) (fs0 : List (String × InvFile))
      (r0 : String),
    (cts.map (fun ct => ct ++ ".yaml")).Nodup →
    loadGo (cts.foldl (fun fs ct => putFile fs (ct ++ ".yaml") (g ct)) fs0) cts r0 =
      (cts.map (fun ct => (ct, (g ct).components)),
       cts.foldl (fun r ct => if r = "" then (g ct).repository else r) r0) := by
  intro cts
  induction cts with
  | nil => intro g fs0 r0 _; rfl
  | cons c rest ih =>
      intro g fs0 r0 hnd
      rw [List.map_cons] at hnd
      have hnotin : (c ++ ".yaml") ∉ rest.map (fun ct => ct ++ ".yaml") :=
        (List.nodup_cons.mp hnd).1
      have hgetc : fileGet
          ((c :: rest).foldl (fun fs ct => putFile fs (ct ++ ".yaml") (g ct)) fs0)
          (c ++ ".yaml") = some (g c) := by
        rw [List.foldl_cons, fileGet_foldPut_preserve rest g _ _ hnotin,
          fileGet_putFile_self]
      rw [loadGo, hgetc]
      dsimp only []
      have hrest : (c :: rest).foldl (fun fs ct => putFile fs (ct ++ ".yaml") (g ct)) fs0 =
          rest.foldl (fun fs ct => putFile fs (ct ++ ".yaml") (g ct))
            (putFile fs0 (c ++ ".yaml") (g c)) := by
        rw [List.foldl_cons]
      rw [hrest, ih g _ _ (List.nodup_cons.mp hnd).2]
      simp

theorem findVersionDir_eq_none_of (d : DistDir) (name : String)
    (h : ∀ vd ∈ d, vd.name ≠ name) : findVersionDir d name = none := by
  rw [findVersionDir]
  apply List.find?_eq_none.mpr
  intro vd hvd
  simpa using h vd hvd

theorem findVersionDir_append_single (d : DistDir) (name : String) (dir1 : VersionDir)
    (h : ∀ vd ∈ d, vd.name ≠ name) (h1 : dir1.name = name) :
    findVersionDir (d ++ [dir1]) name = some dir1 := by
  induction d with
  | nil => simp [findVersionDir, List.find?, h1]
  | cons vd0 rest ih =>
      have h0 : (vd0.name == name) = false := by
        simpa using h vd0 (List.mem_cons_self _ _)
      rw [List.cons_append, findVersionDir, List.find?, h0, ← findVersionDir]
      exact ih (fun vd hv => h vd (List.mem_cons_of_mem _ hv))

/-- C7: for every distribution label, repository label, version, and
components-by-type map, saving into a store whose directory for that
version is absent and then loading the same (distribution, version)
returns exactly the saved component list for each fixed component type
(a type absent from the saved map comes back as an empty list, and the
repository label round-trips); version_exists is false before the save
and true after it. -/
theorem c7_save_load_roundtrip :
    ∀ (d : DistDir) (dist repo : String) (v : SemVer)
      (comps : List (String × List PyVal)),
      (∀ vd ∈ d, vd.name ≠ get_version_dir_name v) →
      version_exists d v = false ∧
      version_exists (save_versioned_inventory d dist v comps repo) v = true ∧
      load_versioned_inventory (save_versioned_inventory d dist v comps repo) dist v =
        ⟨dist, semverStr v, some repo,
          COMPONENT_TYPES.map (fun ct => (ct, compsGet comps ct))⟩ := by
  intro d dist repo v comps h
  have hnone := findVersionDir_eq_none_of d _ h
  have hsave : save_versioned_inventory d dist v comps repo =
      d ++ [saveFilesFold dist v repo comps ⟨get_version_dir_name v, []⟩] := by
    simp only [save_versioned_inventory]
    rw [hnone]
  have hfold : saveFilesFold dist v repo comps ⟨get_version_dir_name v, []⟩ =
      ⟨get_version_dir_name v,
        COMPONENT_TYPES.foldl (fun fs ct => putFile fs (ct ++ ".yaml")
          ⟨dist, semverStr v, repo, ct, compsGet comps ct⟩) []⟩ := by
    rw [saveFilesFold]
    exact saveFold_split COMPONENT_TYPES
      (fun ct => ⟨dist, semverStr v, repo, ct, compsGet comps ct⟩)
      ⟨get_version_dir_name v, []⟩
  have hfind2 : findVersionDir
      (d ++ [saveFilesFold dist v repo comps ⟨get_version_dir_name v, []⟩])
      (get_version_dir_name v) =
      some (saveFilesFold dist v repo comps ⟨get_version_dir_name v, []⟩) :=
    findVersionDir_append_single d _ _ h (by rw [hfold])
  refine ⟨?_, ?_, ?_⟩
  · rw [version_exists, hnone]
    rfl
  · rw [version_exists, hsave, hfind2]
    rfl
  · rw [load_versioned_inventory, hsave, hfind2]
    dsimp only []
    rw [hfold]
    rw [loadGo_fold COMPONENT_TYPES
      (fun ct => ⟨dist, semverStr v, repo, ct, compsGet comps ct⟩) [] "" (by decide)]
    simp [COMPONENT_TYPES, ite_self]

theorem c7_save_load_roundtrip_witness :
    (∀ vd ∈ ([] : DistDir), vd.name ≠ get_version_dir_name ⟨1, 2, 3, none⟩) ∧
      (version_exists [] ⟨1, 2, 3, none⟩ = false ∧
       version_exists (save_versioned_inventory [] "core" ⟨1, 2, 3, none⟩
         [("receiver", [PyVal.vstr "r1"])] "repo-x") ⟨1, 2, 3, none⟩ = true ∧
       load_versioned_inventory (save_versioned_inventory [] "core" ⟨1, 2, 3, none⟩
           [("receiver", [PyVal.vstr "r1"])] "repo-x") "core" ⟨1, 2, 3, none⟩ =
         ⟨"core", semverStr ⟨1, 2, 3, none⟩, some "repo-x",
           COMPONENT_TYPES.map (fun ct =>
             (ct, compsGet [("receiver", [PyVal.vstr "r1"])] ct))⟩) :=
  ⟨fun vd hvd => absurd hvd (List.not_mem_nil vd),
    c7_save_load_roundtrip [] "core" "repo-x" ⟨1, 2, 3, none⟩
      [("receiver", [PyVal.vstr "r1"])]
      (fun vd hvd => absurd hvd (List.not_mem_nil vd))⟩

/-- Modelled from the spec: `semantic_version` ordering — compare
(major, minor, patch) lexicographically; at an equal triple a
prerelease sorts strictly below a release; two prereleases compare by
their suffix. -/
def semverLeb (a b : SemVer) : Bool :=
  if a.major ≠ b.major then decide (a.major < b.major)
  else if a.minor ≠ b.minor then decide (a.minor < b.minor)
  else if a.patch ≠ b.patch then decide (a.patch < b.patch)
  else match a.prerelease, b.prerelease with
    | none, none => true
    | some _, none => true
    | none, some _ => false
    | some p, some q => strLeb p q

/-- `InventoryManager.list_versions`: parse each subdirectory name
after `lstrip("v")` (silently skipping failures), sorted newest
first (`sorted(..., reverse=True)`). -/
def list_versions (d : DistDir) : List SemVer :=
  (d.filterMap (fun vd => semverParse (vd.name.data.dropWhile (· == 'v')))).insertionSort
    (fun a b => semverLeb b a = true)

/-- `InventoryManager.list_snapshot_versions`. -/
def list_snapshot_versions (d : DistDir) : List SemVer :=
  (list_versions d).filter (fun v => v.prerelease.isSome)

/-- `shutil.rmtree` of one version directory. -/
def removeDir (d : DistDir) (name : String) : DistDir :=
  d.eraseP (fun vd => vd.name == name)

/-- The loop of `cleanup_snapshots`: delete each snapshot's directory
if it exists, counting the deletions. -/
def cleanup_go : List SemVer → DistDir → Nat × DistDir
  | [], d => (0, d)
  | v :: rest, d =>
      if (findVersionDir d (get_version_dir_name v)).isSome then
        let res := cleanup_go rest (removeDir d (get_version_dir_name v))
        (res.1 + 1, res.2)
      else
        let res := cleanup_go rest d
        (res.1, res.2)

/-- `InventoryManager.cleanup_snapshots`: returns (count, new state). -/
def cleanup_snapshots (d : DistDir) : Nat × DistDir :=
  cleanup_go (list_snapshot_versions d) d

example :
    list_snapshot_versions [⟨"vv0.1.0-SNAPSHOT", []⟩] =
      [⟨0, 1, 0, some "SNAPSHOT"⟩] := by decide
example :
    cleanup_snapshots [⟨"vv0.1.0-SNAPSHOT", []⟩] =
      (0, [⟨"vv0.1.0-SNAPSHOT", []⟩]) := by decide

theorem semverChars_head (v : SemVer) :
    ∃ h t, semverChars v = h :: t ∧ h.isDigit = true := by
  obtain ⟨ma, mi, pa, pre⟩ := v
  cases hd : natDigits ma with
  | nil => exact absurd hd (natDigits_ne_nil ma)
  | cons h t =>
      refine ⟨h, t ++ ('.' :: (natDigits mi ++ ('.' :: (natDigits pa ++
        (match pre with | none => [] | some p => '-' :: p.data))))), ?_, ?_⟩
      · rw [semverChars]
        dsimp only []
        rw [hd, List.cons_append]
      · have := natDigits_all_digit ma
        rw [hd, List.all_cons, Bool.and_eq_true] at this
        exact this.1

theorem strip_canonical (v : SemVer) :
    ("v" ++ semverStr v).data.dropWhile (· == 'v') = semverChars v := by
  obtain ⟨h, t, hch, hdig⟩ := semverChars_head v
  have hdata : ("v" ++ semverStr v).data = 'v' :: semverChars v := by
    rw [String.data_append]
    rfl
  rw [hdata, List.dropWhile_cons]
  simp only [beq_self_eq_true, if_true]
  rw [hch]
  exact dropWhile_v_digit_head h t hdig

theorem parse_strip_canonical (v : SemVer) (hv : wfSemVer v) :
    semverParse (("v" ++ semverStr v).data.dropWhile (· == 'v')) = some v := by
  rw [strip_canonical]
  exact semverParse_semverChars v hv

theorem dirname_inj {v w : SemVer} (hv : wfSemVer v) (hw : wfSemVer w)
    (h : get_version_dir_name v = get_version_dir_name w) : v = w := by
  apply semverStr_inj hv hw
  apply String.ext
  have hd := congrArg String.data h
  rw [get_version_dir_name, get_version_dir_name, String.data_append,
    String.data_append] at hd
  simpa using hd

theorem mem_list_versions {d : DistDir} {w : SemVer} :
    w ∈ list_versions d ↔
      ∃ vd ∈ d, semverParse (vd.name.data.dropWhile (· == 'v')) = some w := by
  rw [list_versions]
  rw [(List.perm_insertionSort _ _).mem_iff]
  simp [List.mem_filterMap]

theorem findVersionDir_isSome_of_mem {d : DistDir} {name : String}
    (h : name ∈ d.map VersionDir.name) : (findVersionDir d name).isSome = true := by
  obtain ⟨vd, hvd, hname⟩ := List.mem_map.mp h
  rw [findVersionDir, List.find?_isSome]
  exact ⟨vd, hvd, by simp [hname]⟩

theorem removeDir_name_not_mem (d : DistDir) (n : String)
    (hnd : (d.map VersionDir.name).Nodup) :
    n ∉ (removeDir d n).map VersionDir.name := by
  induction d with
  | nil => simp [removeDir]
  | cons vd0 rest ih =>
      rw [List.map_cons, List.nodup_cons] at hnd
      by_cases h0 : vd0.name = n
      · have hp : (vd0.name == n) = true := by simp [h0]
        rw [removeDir, List.eraseP_cons, hp, Bool.cond_true]
        rw [← h0]
        exact hnd.1
      · have hp : (vd0.name == n) = false := by simp [h0]
        rw [removeDir, List.eraseP_cons, hp, Bool.cond_false]
        rw [List.map_cons]
        intro hmem
        rcases List.mem_cons.mp hmem with he | hm
        · exact h0 he.symm
        · exact ih hnd.2 hm

theorem mem_removeDir_of_ne {d : DistDir} {vd : VersionDir} (n : String)
    (hvd : vd ∈ d) (hne : vd.name ≠ n) : vd ∈ removeDir d n := by
  induction d with
  | nil => exact absurd hvd (List.not_mem_nil vd)
  | cons vd0 rest ih =>
      by_cases h0 : vd0.name = n
      · have hp : (vd0.name == n) = true := by simp [h0]
        rw [removeDir, List.eraseP_cons, hp, Bool.cond_true]
        rcases List.mem_cons.mp hvd with he | hm
        · exact absurd (he ▸ h0) hne
        · exact hm
      · have hp : (vd0.name == n) = false := by simp [h0]
        rw [removeDir, List.eraseP_cons, hp, Bool.cond_false]
        rcases List.mem_cons.mp hvd with he | hm
        · exact he ▸ List.mem_cons_self _ _
        · exact List.mem_cons_of_mem _ (ih hm)

theorem removeDir_sublist (d : DistDir) (n : String) : (removeDir d n).Sublist d :=
  List.eraseP_sublist d

theorem nodup_filterMap_of {α β : Type} [DecidableEq β] (l : List α) (f : α → Option β)
    (hl : l.Nodup)
    (hinj : ∀ a ∈ l, ∀ a' ∈ l, ∀ b, f a = some b → f a' = some b → a = a') :
    (l.filterMap f).Nodup := by
  induction l with
  | nil => simp
  | cons a rest ih =>
      rw [List.nodup_cons] at hl
      rw [List.filterMap_cons]
      cases hfa : f a with
      | none =>
          exact ih hl.2 (fun x hx y hy b h1 h2 =>
            hinj x (List.mem_cons_of_mem _ hx) y (List.mem_cons_of_mem _ hy) b h1 h2)
      | some b =>
          rw [List.nodup_cons]
          constructor
          · intro hb
            obtain ⟨a', ha', hfa'⟩ := List.mem_filterMap.mp hb
            have : a = a' := hinj a (List.mem_cons_self _ _) a'
              (List.mem_cons_of_mem _ ha') b hfa hfa'
            exact hl.1 (this ▸ ha')
          · exact ih hl.2 (fun x hx y hy b h1 h2 =>
              hinj x (List.mem_cons_of_mem _ hx) y (List.mem_cons_of_mem _ hy) b h1 h2)

theorem cleanup_go_spec :
    ∀ (S : List SemVer) (d : DistDir),
    S.Nodup →
    (∀ v ∈ S, wfSemVer v) →
    (∀ v ∈ S, get_version_dir_name v ∈ d.map VersionDir.name) →
    (d.map VersionDir.name).Nodup →
    (cleanup_go S d).1 = S.length ∧
    (cleanup_go S d).2.Sublist d ∧
    (∀ vd ∈ d, (∀ v ∈ S, vd.name ≠ get_version_dir_name v) →
      vd ∈ (cleanup_go S d).2) ∧
    (∀ vd ∈ (cleanup_go S d).2, ∀ v ∈ S, vd.name ≠ get_version_dir_name v) := by
  intro S
  induction S with
  | nil =>
      intro d _ _ _ _
      exact ⟨rfl, List.Sublist.refl d, fun vd hvd _ => hvd, fun vd _ v hv => absurd hv (List.not_mem_nil v)⟩
  | cons v rest ih =>
      intro d hnd hwf hmem hnames
      rw [List.nodup_cons] at hnd
      have hvmem : get_version_dir_name v ∈ d.map VersionDir.name :=
        hmem v (List.mem_cons_self _ _)
      have hfound := findVersionDir_isSome_of_mem hvmem
      have hd' := removeDir_sublist d (get_version_dir_name v)
      have hnames' : ((removeDir d (get_version_dir_name v)).map VersionDir.name).Nodup :=
        List.Nodup.sublist (hd'.map VersionDir.name) hnames
      have hnotin := removeDir_name_not_mem d (get_version_dir_name v) hnames
      have hrestmem : ∀ w ∈ rest,
          get_version_dir_name w ∈ (removeDir d (get_version_dir_name v)).map VersionDir.name := by
        intro w hw
        have hwd : get_version_dir_name w ∈ d.map VersionDir.name :=
          hmem w (List.mem_cons_of_mem _ hw)
        obtain ⟨vd, hvd, hname⟩ := List.mem_map.mp hwd
        have hne : vd.name ≠ get_version_dir_name v := by
          rw [hname]
          intro he
          have := dirname_inj (hwf w (List.mem_cons_of_mem _ hw))
            (hwf v (List.mem_cons_self _ _)) he
          exact hnd.1 (this ▸ hw)
        exact List.mem_map.mpr ⟨vd, mem_removeDir_of_ne _ hvd hne, hname⟩
      obtain ⟨ihc, ihs, ihp, iha⟩ := ih (removeDir d (get_version_dir_name v)) hnd.2
        (fun w hw => hwf w (List.mem_cons_of_mem _ hw)) hrestmem hnames'
      rw [cleanup_go, if_pos hfound]
      dsimp only []
      refine ⟨by rw [ihc]; rfl, ihs.trans hd', ?_, ?_⟩
      · intro vd hvd hall
        have hnev : vd.name ≠ get_version_dir_name v := hall v (List.mem_cons_self _ _)
        exact ihp vd (mem_removeDir_of_ne _ hvd hnev)
          (fun w hw => hall w (List.mem_cons_of_mem _ hw))
      · intro vd hvd w hw
        rcases List.mem_cons.mp hw with rfl | hwr
        · intro he
          have hin : vd ∈ removeDir d (get_version_dir_name w) := ihs.subset hvd
          exact hnotin (List.mem_map.mpr ⟨vd, hin, he⟩)
        · exact iha vd hvd w hwr

/-- C8 (counterexample): cleanup_snapshots does NOT delete the data of
every snapshot version.  `list_versions` parses directory names after
`lstrip("v")` (stripping every leading `'v'`), but deletion targets
the canonical name `f"v{version}"`.  A snapshot stored under
`vv0.1.0-SNAPSHOT` is listed as a snapshot version, yet the deletion
looks for `v0.1.0-SNAPSHOT`, finds nothing, removes nothing and counts
nothing — the snapshot survives the cleanup. -/
theorem c8_counterexample :
    ¬ (∀ d : DistDir, list_snapshot_versions (cleanup_snapshots d).2 = []) := by
  intro h
  exact absurd (h [⟨"vv0.1.0-SNAPSHOT", []⟩]) (by decide)

/-- C8 (amended): on a store whose version directories are canonically
named (`"v" ++ str(version)`, as `save_versioned_inventory` creates
them) with distinct names, cleanup_snapshots returns the number of
snapshot versions, removes exactly the snapshot directories (a
canonically named directory survives iff its version is a release),
never adds anything, leaves no snapshot version behind, and is a
no-op returning 0 when no snapshots exist. -/
theorem c8_cleanup_snapshots_canonical :
    ∀ d : DistDir,
      (∀ vd ∈ d, ∃ v : SemVer, wfSemVer v ∧ vd.name = get_version_dir_name v) →
      (d.map VersionDir.name).Nodup →
      (cleanup_snapshots d).1 = (list_snapshot_versions d).length ∧
      (cleanup_snapshots d).2.Sublist d ∧
      (∀ vd ∈ d, ∀ v : SemVer, wfSemVer v → vd.name = get_version_dir_name v →
        (vd ∈ (cleanup_snapshots d).2 ↔ v.prerelease = none)) ∧
      list_snapshot_versions (cleanup_snapshots d).2 = [] ∧
      (list_snapshot_versions d = [] → cleanup_snapshots d = (0, d)) := by
  intro d hcanon hnames
  have hK1 : ∀ vd ∈ d, ∀ w : SemVer,
      semverParse (vd.name.data.dropWhile (· == 'v')) = some w →
      wfSemVer w ∧ vd.name = get_version_dir_name w := by
    intro vd hvd w hw
    obtain ⟨v, hvwf, hvname⟩ := hcanon vd hvd
    rw [hvname] at hw
    rw [get_version_dir_name] at hw
    rw [parse_strip_canonical v hvwf] at hw
    have : v = w := by simpa using hw
    subst this
    exact ⟨hvwf, hvname⟩
  have hdnodup : d.Nodup := List.Nodup.of_map VersionDir.name hnames
  have hver_nodup : (list_versions d).Nodup := by
    rw [list_versions]
    apply List.Perm.nodup (List.perm_insertionSort _ _).symm
    apply nodup_filterMap_of _ _ hdnodup
    intro a ha a' ha' b h1 h2
    have hb1 := (hK1 a ha b h1).2
    have hb2 := (hK1 a' ha' b h2).2
    exact List.inj_on_of_nodup_map hnames ha ha' (hb1.trans hb2.symm)
  have hS_nodup : (list_snapshot_versions d).Nodup :=
    List.Nodup.filter _ hver_nodup
  have hS_facts : ∀ w ∈ list_snapshot_versions d,
      wfSemVer w ∧ get_version_dir_name w ∈ d.map VersionDir.name ∧
        w.prerelease.isSome = true := by
    intro w hw
    obtain ⟨hwv, hwp⟩ := List.mem_filter.mp hw
    obtain ⟨vd, hvd, hparse⟩ := mem_list_versions.mp hwv
    obtain ⟨hwwf, hwname⟩ := hK1 vd hvd w hparse
    exact ⟨hwwf, List.mem_map.mpr ⟨vd, hvd, hwname⟩, hwp⟩
  obtain ⟨hc, hs, hp, ha⟩ := cleanup_go_spec (list_snapshot_versions d) d hS_nodup
    (fun w hw => (hS_facts w hw).1) (fun w hw => (hS_facts w hw).2.1) hnames
  have hclean : cleanup_snapshots d = cleanup_go (list_snapshot_versions d) d := rfl
  refine ⟨by rw [hclean]; exact hc, by rw [hclean]; exact hs, ?_, ?_, ?_⟩
  · intro vd hvd v hvwf hvname
    rw [hclean]
    constructor
    · intro hres
      cases hpre : v.prerelease with
      | none => rfl
      | some p =>
          have hvmem : v ∈ list_snapshot_versions d := by
            apply List.mem_filter.mpr
            refine ⟨mem_list_versions.mpr ⟨vd, hvd, ?_⟩, by simp [hpre]⟩
            rw [hvname, get_version_dir_name]
            exact parse_strip_canonical v hvwf
          exact absurd hvname (ha vd hres v hvmem)
    · intro hpre
      apply hp vd hvd
      intro w hw he
      have hwwf := (hS_facts w hw).1
      have : v = w := dirname_inj hvwf hwwf (hvname ▸ he ▸ rfl)
      have hwsnap := (hS_facts w hw).2.2
      rw [← this, hpre] at hwsnap
      exact absurd hwsnap (by simp)
  · rw [hclean]
    apply List.eq_nil_iff_forall_not_mem.mpr
    intro w hw
    obtain ⟨hwv, hwp⟩ := List.mem_filter.mp hw
    obtain ⟨vd, hvd, hparse⟩ := mem_list_versions.mp hwv
    have hvdd : vd ∈ d := hs.subset hvd
    obtain ⟨hwwf, hwname⟩ := hK1 vd hvdd w hparse
    have hwS : w ∈ list_snapshot_versions d := by
      apply List.mem_filter.mpr
      exact ⟨mem_list_versions.mpr ⟨vd, hvdd, hparse⟩, hwp⟩
    exact ha vd hvd w hwS hwname
  · intro hzero
    rw [hclean, hzero]
    rfl

theorem c8_cleanup_snapshots_canonical_witness :
    (cleanup_snapshots [⟨"v0.1.0", []⟩, ⟨"v0.2.0-SNAPSHOT", []⟩]).1 =
      (list_snapshot_versions [⟨"v0.1.0", []⟩, ⟨"v0.2.0-SNAPSHOT", []⟩]).length ∧
    (cleanup_snapshots [⟨"v0.1.0", []⟩, ⟨"v0.2.0-SNAPSHOT", []⟩]).2.Sublist
      [⟨"v0.1.0", []⟩, ⟨"v0.2.0-SNAPSHOT", []⟩] ∧
    (∀ vd ∈ [VersionDir.mk "v0.1.0" [], VersionDir.mk "v0.2.0-SNAPSHOT" []],
      ∀ v : SemVer, wfSemVer v → vd.name = get_version_dir_name v →
      (vd ∈ (cleanup_snapshots [⟨"v0.1.0", []⟩, ⟨"v0.2.0-SNAPSHOT", []⟩]).2 ↔
        v.prerelease = none)) ∧
    list_snapshot_versions
      (cleanup_snapshots [⟨"v0.1.0", []⟩, ⟨"v0.2.0-SNAPSHOT", []⟩]).2 = [] ∧
    (list_snapshot_versions [⟨"v0.1.0", []⟩, ⟨"v0.2.0-SNAPSHOT", []⟩] = [] →
      cleanup_snapshots [⟨"v0.1.0", []⟩, ⟨"v0.2.0-SNAPSHOT", []⟩] =
        (0, [⟨"v0.1.0", []⟩, ⟨"v0.2.0-SNAPSHOT", []⟩])) :=
  c8_cleanup_snapshots_canonical [⟨"v0.1.0", []⟩, ⟨"v0.2.0-SNAPSHOT", []⟩]
    (fun vd hvd => by
      rcases List.mem_cons.mp hvd with rfl | hvd2
      · exact ⟨⟨0, 1, 0, none⟩, trivial, by decide⟩
      · rcases List.mem_cons.mp hvd2 with rfl | hvd3
        · exact ⟨⟨0, 2, 0, some "SNAPSHOT"⟩,
            (by decide : ("SNAPSHOT" : String).data ≠ []), by decide⟩
        · exact absurd hvd3 (List.not_mem_nil vd))
    (by decide)

/-- The method names defined in the `InventoryManager` class body
(its complete attribute surface). -/
def inventoryManagerMethods : List String :=
  ["__init__", "get_version_dir", "save_versioned_inventory",
   "load_versioned_inventory", "list_versions", "list_snapshot_versions",
   "cleanup_snapshots", "version_exists"]

/-- Python attribute lookup on an `InventoryManager` instance: methods
resolve to themselves, anything else raises `AttributeError`. -/
def getattrInventoryManager (m : String) : Except String String :=
  if inventoryManagerMethods.contains m then .ok m
  else .error ("AttributeError: InventoryManager object has no attribute " ++ m)

/-- The first inventory-manager call of each `backfill_versions` loop
iteration (collector_sync.py line 271):
`self.inventory_manager.delete_version(distribution, version)`. -/
def backfill_delete_step : Except String String :=
  getattrInventoryManager "delete_version"

/-- C3 (code bug): `InventoryManager` defines no `delete_version` (or
`deleteVersion`) operation at all — its method surface is exactly the
eight methods modelled here — so the very first inventory call of
every `backfill_versions` loop iteration raises `AttributeError`
instead of deleting the version directory. -/
theorem c3_delete_version_missing :
    "delete_version" ∉ inventoryManagerMethods ∧
    backfill_delete_step =
      .error "AttributeError: InventoryManager object has no attribute delete_version" :=
  ⟨by decide, by decide⟩

/-- The mutable state of a `DatabaseWriter`: the files under
`database_dir` (path to the stored library value; the JSON round-trip
is identity on the value) and the session counters. -/
structure DBState where
  files : List (String × PyVal)
  files_written : Nat
  total_bytes : Nat
deriving DecidableEq

/-- `DatabaseWriter._get_file_path`:
`instrumentations/<name>/<name>-<hash>.json`. -/
def get_file_path (library_name library_hash : String) : String :=
  "instrumentations/" ++ library_name ++ "/" ++ library_name ++ "-" ++
    library_hash ++ ".json"

/-- Byte length of the file content
`json.dumps(library, indent=2, sort_keys=True)`.  The model measures
the UTF-8 length of the canonical minified serialization; the real
writer pretty-prints with two-space indentation, so only the exact
number differs — no property below depends on the number, only on
whether the counters move at all. -/
def serializedSize (v : PyVal) : Nat := (utf8Encode (jsonDumps v)).length

/-- `library_map[library_name] = library_hash` (dict assignment). -/
def mapSet : List (String × String) → String → String → List (String × String)
  | [], k, v => [(k, v)]
  | (k1, v1) :: rest, k, v =>
      if k1 == k then (k1, v) :: rest else (k1, v1) :: mapSet rest k v

/-- The loop of `DatabaseWriter.write_libraries`: skip non-dict
entries and entries without a `"name"` field (the name is modelled as
a string, the only case the repository produces); drop entries whose
hashing fails; write the file only when its exact path is absent,
advancing the counters only then; record the name-to-hash mapping
either way. -/
def write_libraries_go :
    List PyVal → DBState → List (String × String) → List (String × String) × DBState
  | [], st, acc => (acc, st)
  | lib :: rest, st, acc =>
      match lib with
      | .vdict entries =>
          (match dictGet entries "name" with
           | some (.vstr name) =>
               (match content_hash (.vdict entries) with
                | .ok h =>
                    if ((st.files.find? (fun p => p.1 == get_file_path name h)).isSome :
                        Bool) then
                      write_libraries_go rest st (mapSet acc name h)
                    else
                      write_libraries_go rest
                        ⟨st.files ++ [(get_file_path name h, .vdict entries)],
                          st.files_written + 1,
                          st.total_bytes + serializedSize (.vdict entries)⟩
                        (mapSet acc name h)
                | .error _ => write_libraries_go rest st acc)
           | _ => write_libraries_go rest st acc)
      | _ => write_libraries_go rest st acc

/-- `DatabaseWriter.write_libraries`. -/
def write_libraries (libs : List PyVal) (st : DBState) :
    Except String (List (String × String) × DBState) :=
  if libs = [] then .error "Libraries list cannot be empty"
  else
    let res := write_libraries_go libs st []
    if res.1 = [] then .error "No valid libraries were processed"
    else .ok res

/-- A concrete one-field library used in concrete checks. -/
def libEx : PyVal := PyVal.vdict [("name", PyVal.vstr "lib")]

/-- Its content hash value. -/
def libExHash : String :=
  String.mk ((hexOfBytes (sha256Bytes (utf8Encode (jsonDumps libEx)))).take 12)

example : content_hash libEx = .ok libExHash := by decide

example :
    write_libraries [libEx] ⟨[], 0, 0⟩ =
      .ok ([("lib", libExHash)],
        ⟨[(get_file_path "lib" libExHash, libEx)], 1, serializedSize libEx⟩) := by decide

/-- A family of pairwise-distinct libraries sharing the name `lib`. -/
def libFam (k : Nat) : PyVal :=
  .vdict [("name", PyVal.vstr "lib"), ("value", strFam k)]

theorem libFam_norm (k : Nat) : normalize_for_hashing (libFam k) = .ok (libFam k) := rfl

theorem libFam_hash_ok (k : Nat) :
    content_hash (libFam k) =
      .ok (String.mk ((hexOfBytes (sha256Bytes (utf8Encode
        (jsonDumps (libFam k))))).take 12)) :=
  content_hash_ok_of (libFam k) (libFam k) (by simp [libFam]) (libFam_norm k)

theorem hashData_libFam_length (k : Nat) : (hashData (libFam k)).length = 12 := by
  rw [hashData, libFam_hash_ok k]
  exact ((content_hash_ok_spec (libFam k) _ (libFam_hash_ok k)).1 : _)

theorem libFam_collision :
    ∃ j k : Nat, j ≠ k ∧ content_hash (libFam j) = content_hash (libFam k) := by
  obtain ⟨j, k, hne, heq⟩ :=
    Finite.exists_ne_map_eq_of_infinite
      (fun k : Nat => (⟨hashData (libFam k), hashData_libFam_length k⟩ :
        {l : List Char // l.length = 12}))
  refine ⟨j, k, hne, ?_⟩
  have hdata : hashData (libFam j) = hashData (libFam k) := congrArg Subtype.val heq
  rw [hashData, hashData, libFam_hash_ok j, libFam_hash_ok k] at hdata
  rw [libFam_hash_ok j, libFam_hash_ok k]
  exact congrArg (fun l => Except.ok (ε := PyErr) (String.mk l)) hdata

theorem strFam_inj {j k : Nat} (h : strFam j = strFam k) : j = k := by
  have hs : String.mk (List.replicate j 'a') = String.mk (List.replicate k 'a') := by
    simpa [strFam] using h
  have hlen := congrArg (fun s : String => s.data.length) hs
  simpa using hlen

theorem libFam_ne {j k : Nat} (hne : j ≠ k) : libFam j ≠ libFam k := by
  intro h
  apply hne
  apply strFam_inj
  have := congrArg (fun v : PyVal =>
    match v with
    | .vdict xs => dictGet xs "value"
    | _ => none) h
  simpa [libFam, dictGet, List.find?] using this

/-- C6 (counterexample): writing different content under the same
library name does NOT always produce two distinct hashes and two
distinct files: the hash is truncated to 12 hex characters (48 bits),
so by pigeonhole two libraries with the same name and different
content share a hash — and hence the same `<name>-<hash>.json` path,
making the second write a skip. -/
theorem c6_counterexample :
    ¬ (∀ (e1 e2 : List (String × PyVal)) (name h1 h2 : String),
        dictGet e1 "name" = some (.vstr name) →
        dictGet e2 "name" = some (.vstr name) →
        PyVal.vdict e1 ≠ PyVal.vdict e2 →
        content_hash (.vdict e1) = .ok h1 →
        content_hash (.vdict e2) = .ok h2 →
        h1 ≠ h2 ∧ get_file_path name h1 ≠ get_file_path name h2) := by
  intro hclaim
  obtain ⟨j, k, hne, heq⟩ := libFam_collision
  rw [libFam_hash_ok j, libFam_hash_ok k] at heq
  have hs : String.mk ((hexOfBytes (sha256Bytes (utf8Encode
      (jsonDumps (libFam j))))).take 12) =
      String.mk ((hexOfBytes (sha256Bytes (utf8Encode
        (jsonDumps (libFam k))))).take 12) := by
    simpa using heq
  exact absurd hs
    (hclaim [("name", PyVal.vstr "lib"), ("value", strFam j)]
      [("name", PyVal.vstr "lib"), ("value", strFam k)] "lib" _ _
      rfl rfl (libFam_ne hne) (libFam_hash_ok j) (libFam_hash_ok k)).1

theorem write_libraries_go_single (entries : List (String × PyVal)) (name h : String)
    (st0 : DBState) (acc : List (String × String))
    (hname : dictGet entries "name" = some (.vstr name))
    (hhash : content_hash (.vdict entries) = .ok h)
    (hfind : (st0.files.find? (fun p => p.1 == get_file_path name h)).isSome = false) :
    write_libraries_go [.vdict entries] st0 acc =
      (mapSet acc name h,
        ⟨st0.files ++ [(get_file_path name h, .vdict entries)],
          st0.files_written + 1,
          st0.total_bytes + serializedSize (.vdict entries)⟩) := by
  rw [write_libraries_go]
  rw [hname]
  rw [hhash]
  dsimp only []
  rw [hfind]
  simp only [Bool.false_eq_true, if_false]
  rfl

theorem write_libraries_go_single_skip (entries : List (String × PyVal)) (name h : String)
    (st0 : DBState) (acc : List (String × String))
    (hname : dictGet entries "name" = some (.vstr name))
    (hhash : content_hash (.vdict entries) = .ok h)
    (hfind : (st0.files.find? (fun p => p.1 == get_file_path name h)).isSome = true) :
    write_libraries_go [.vdict entries] st0 acc = (mapSet acc name h, st0) := by
  rw [write_libraries_go]
  rw [hname]
  rw [hhash]
  dsimp only []
  rw [hfind]
  simp only [if_true]
  rfl

/-- C6 (amended): a library entry (a dict with a string name) whose
hash file is absent is written exactly once: the file appears, the
counters advance, and the map records (name, hash); re-running
write_libraries on the resulting state with the unchanged library
performs zero writes — files and both counters are exactly unchanged —
while the returned map still contains the entry.  Distinct hashes for
the same name always produce distinct file paths (the converse — that
different content always yields distinct hashes — is refuted
separately). -/
theorem c6_write_libraries_content_addressed :
    (∀ (entries : List (String × PyVal)) (name h : String) (st0 : DBState),
      dictGet entries "name" = some (.vstr name) →
      content_hash (.vdict entries) = .ok h →
      (st0.files.find? (fun p => p.1 == get_file_path name h)).isSome = false →
      write_libraries [.vdict entries] st0 =
        .ok ([(name, h)],
          ⟨st0.files ++ [(get_file_path name h, .vdict entries)],
            st0.files_written + 1,
            st0.total_bytes + serializedSize (.vdict entries)⟩) ∧
      write_libraries [.vdict entries]
          ⟨st0.files ++ [(get_file_path name h, .vdict entries)],
            st0.files_written + 1,
            st0.total_bytes + serializedSize (.vdict entries)⟩ =
        .ok ([(name, h)],
          ⟨st0.files ++ [(get_file_path name h, .vdict entries)],
            st0.files_written + 1,
            st0.total_bytes + serializedSize (.vdict entries)⟩)) ∧
    (∀ (name h1 h2 : String), h1 ≠ h2 →
      get_file_path name h1 ≠ get_file_path name h2) := by
  constructor
  · intro entries name h st0 hname hhash hfind
    constructor
    · rw [write_libraries, if_neg (by simp)]
      dsimp only []
      rw [write_libraries_go_single entries name h st0 [] hname hhash hfind]
      rw [if_neg (by simp [mapSet])]
      rfl
    · have hfind2 : (((st0.files ++ [(get_file_path name h, PyVal.vdict entries)]) :
          List (String × PyVal)).find?
          (fun p => p.1 == get_file_path name h)).isSome = true := by
        rw [List.find?_append]
        cases hf : st0.files.find? (fun p => p.1 == get_file_path name h) with
        | some x => rfl
        | none => simp [List.find?]
      rw [write_libraries, if_neg (by simp)]
      dsimp only []
      rw [write_libraries_go_single_skip entries name h
        ⟨st0.files ++ [(get_file_path name h, PyVal.vdict entries)],
          st0.files_written + 1,
          st0.total_bytes + serializedSize (PyVal.vdict entries)⟩ [] hname hhash hfind2]
      rw [if_neg (by simp [mapSet])]
      rfl
  · intro name h1 h2 hne he
    apply hne
    apply String.ext
    have hd := congrArg String.data he
    simp only [get_file_path, String.data_append, List.append_assoc] at hd
    have hd1 := List.append_cancel_left hd
    have hd2 := List.append_cancel_left hd1
    have hd3 := List.append_cancel_left hd2
    have hd4 := List.append_cancel_left hd3
    have hd5 := List.append_cancel_left hd4
    exact List.append_cancel_right hd5

theorem c6_write_libraries_content_addressed_witness :
    (write_libraries [libEx] ⟨[], 0, 0⟩ =
        .ok ([("lib", libExHash)],
          ⟨[(get_file_path "lib" libExHash, libEx)], 0 + 1, 0 + serializedSize libEx⟩) ∧
      write_libraries [libEx]
          ⟨[(get_file_path "lib" libExHash, libEx)], 0 + 1, 0 + serializedSize libEx⟩ =
        .ok ([("lib", libExHash)],
          ⟨[(get_file_path "lib" libExHash, libEx)], 0 + 1, 0 + serializedSize libEx⟩)) ∧
    get_file_path "lib" "aaaaaaaaaaaa" ≠ get_file_path "lib" "bbbbbbbbbbbb" :=
  ⟨c6_write_libraries_content_addressed.1 [("name", PyVal.vstr "lib")] "lib" libExHash
      ⟨[], 0, 0⟩ (by decide) (by decide) (by decide),
    c6_write_libraries_content_addressed.2 "lib" "aaaaaaaaaaaa" "bbbbbbbbbbbb" (by decide)⟩
